import Mathlib

/-!
Verification of the splice-based sorting algorithms of the enranged library.

The algorithms under scrutiny (from include/enranged/__detail/sorting_impl.hpp,
include/enranged/splicing.hpp and include/enranged/__detail/flat_list.hpp)
operate on linked sequences through the cosplice relocation primitive: they
never copy element values, they only relink nodes.  We embed the sequences
shallowly as lists of tagged values, of type Nat × V.  The Nat tag is the
node identity (two iterators of the C++ code are equal exactly when they
point to the same node, i.e. carry the same tag); the V component is the
stored value, the only thing the comparison predicates ever look at.  An
iterator that is returned by an algorithm is embedded as the tagged element
it points to; a left limit is an Option: none is the front sentinel.

Each C++ loop becomes a recursive Lean function whose arguments are exactly
the live loop variables, with the chains the iterators traverse represented
by the list segments they delimit, and every cosplice call becomes the
corresponding list surgery.  The cosplice primitive itself (claim C6) is in
addition modelled at the pointer level, mirroring the node relinking of the
linked_list::cosplice reference implementation.
-/

namespace Enranged

/-- Tagged element: node identity paired with the stored value. -/
abbrev Elt (V : Type) : Type := Nat × V

/-- A strict weak order, exactly as documented in enranged/sorting.hpp:
(1) x >= x; (2) if x < y then y >= x; (3) if x >= y and y >= z then x >= z
(where x < y denotes comp x y = true and x >= y its negation). -/
structure SWO {V : Type} (comp : V → V → Bool) : Prop where
  irrefl : ∀ x, comp x x = false
  asymm : ∀ x y, comp x y = true → comp y x = false
  negtrans : ∀ x y z, comp x y = false → comp y z = false → comp x z = false

/-- Sortedness of a tagged list: no later element compares strictly below an
earlier one. -/
def SortedE {V : Type} (comp : V → V → Bool) (l : List (Elt V)) : Prop :=
  List.Pairwise (fun a b : Elt V => comp b.2 a.2 = false) l

/-- Two values tie (are incomparable) under the order: the equivalence induced
by a strict weak order, which stability statements are about. -/
def tieB {V : Type} (comp : V → V → Bool) (x y : V) : Bool :=
  !comp x y && !comp y x

/-- The conventional stable merge of two sorted lists: takes from the left
operand unless the right head is strictly smaller, so ties coming from the
left side precede ties from the right side. -/
def mergeRef {V : Type} (comp : V → V → Bool) :
    List (Elt V) → List (Elt V) → List (Elt V)
  | [], B => B
  | a :: A, [] => a :: A
  | a :: A, b :: B =>
    if comp b.2 a.2 then b :: mergeRef comp (a :: A) B
    else a :: mergeRef comp A (b :: B)

/-- Stable insertion of a (chronologically later) element into a sorted list:
it goes in front of the first strictly greater element, hence after all the
elements it ties with. -/
def insortL {V : Type} (comp : V → V → Bool) (x : Elt V) :
    List (Elt V) → List (Elt V)
  | [] => [x]
  | y :: t => if comp x.2 y.2 then x :: y :: t else y :: insortL comp x t

/-- Inserting each element of a chunk, in order, into an accumulator that
already holds the sorted earlier elements. -/
def insAll {V : Type} (comp : V → V → Bool) (acc : List (Elt V))
    (xs : List (Elt V)) : List (Elt V) :=
  xs.foldl (fun acc x => insortL comp x acc) acc

/-- The reference stable sort: left-to-right stable insertion. -/
def isortRef {V : Type} (comp : V → V → Bool) (l : List (Elt V)) :
    List (Elt V) :=
  insAll comp [] l

/-- The main loop of coinplace_merge_splice (sorting_impl.hpp, the for(;;)
loop).  The corange content at the top of an iteration is D ++ A ++ rhs :: B:
D is everything strictly before the lhs iterator, A is the chain from lhs up
to and including middle (midE), rhs is the current right-hand cursor and B
the rest of the right-hand side.  One iteration advances lhs over the run of
left elements not greater than rhs (the inner lhs_next scan), extracts the
maximal right-hand run below the new lhs_next (the inner rhs_next scan),
splices that run in between (the cosplice call: the run lands after the
consumed left part), and then returns middle, returns last, or continues,
exactly as the three exits of the source loop do. -/
def cmsLoop {V : Type} (comp : V → V → Bool) (midE lastE : Elt V) :
    List (Elt V) → List (Elt V) → Elt V → List (Elt V) →
      List (Elt V) × Elt V
  | D, [], rhs, B => (D ++ rhs :: B, lastE)
  | D, a0 :: arest, rhs, B =>
    match arest.dropWhile (fun a => !(comp rhs.2 a.2)) with
    | [] => (D ++ (a0 :: arest) ++ rhs :: B, lastE)
    | l1 :: A2t =>
      match hB : B.dropWhile (fun b => comp b.2 l1.2) with
      | [] =>
        (D ++ (a0 :: arest.takeWhile (fun a => !(comp rhs.2 a.2))) ++
          (rhs :: B.takeWhile (fun b => comp b.2 l1.2)) ++ l1 :: A2t, midE)
      | r1 :: B2t =>
        if l1.1 = midE.1 ∨ comp r1.2 midE.2 = false then
          (D ++ (a0 :: arest.takeWhile (fun a => !(comp rhs.2 a.2))) ++
            (rhs :: B.takeWhile (fun b => comp b.2 l1.2)) ++
            (l1 :: A2t) ++ r1 :: B2t, lastE)
        else
          cmsLoop comp midE lastE
            (D ++ (a0 :: arest.takeWhile (fun a => !(comp rhs.2 a.2))) ++
              (rhs :: B.takeWhile (fun b => comp b.2 l1.2)))
            (l1 :: A2t) r1 B2t
  termination_by _ _ _ B => B.length
  decreasing_by
    have := List.Sublist.length_le (List.dropWhile_sublist
      (fun b : Elt V => comp b.2 l1.2) (l := B))
    rw [hB] at this
    simp only [List.length_cons] at this
    omega

/-- Embedding of __detail::coinplace_merge_splice (sorting_impl.hpp): the
argument A is the content of the corange (left, mid], whose last element is
the middle iterator, and B is the content of (mid, right], whose last element
is the last iterator.  Returns the final corange content together with the
returned iterator.  Mirrors the source line by line: the middle == last
check (B empty), the optimistic already-sorted check, the initial front
splice with its three exits, then the main loop. -/
def coinplace_merge_splice_list {V : Type} [Inhabited V]
    (comp : V → V → Bool) (A B : List (Elt V)) : List (Elt V) × Elt V :=
  match B with
  | [] => (A, A.getLastD default)
  | rhs :: Btail =>
    if comp rhs.2 (A.getLastD default).2 = false then
      (A ++ rhs :: Btail, (rhs :: Btail).getLastD default)
    else
      match A with
      | [] => (rhs :: Btail, (rhs :: Btail).getLastD default)
      | lhs :: arest =>
        if comp rhs.2 lhs.2 = true then
          match Btail.dropWhile (fun b => comp b.2 lhs.2) with
          | [] =>
            ((rhs :: Btail.takeWhile (fun b => comp b.2 lhs.2)) ++
              (lhs :: arest), (lhs :: arest).getLastD default)
          | r1 :: B2t =>
            if lhs.1 = ((lhs :: arest).getLastD default).1 ∨
                comp r1.2 ((lhs :: arest).getLastD default).2 = false then
              ((rhs :: Btail.takeWhile (fun b => comp b.2 lhs.2)) ++
                (lhs :: arest) ++ r1 :: B2t,
                (rhs :: Btail).getLastD default)
            else
              cmsLoop comp ((lhs :: arest).getLastD default)
                ((rhs :: Btail).getLastD default)
                (rhs :: Btail.takeWhile (fun b => comp b.2 lhs.2))
                (lhs :: arest) r1 B2t
        else
          cmsLoop comp ((lhs :: arest).getLastD default)
            ((rhs :: Btail).getLastD default) [] (lhs :: arest) rhs Btail

/-- The element-insertion loop of insertion_sort_splice (sorting_impl.hpp).
S is the content of the sorted region, first and lhs the iterators to its
first and last elements, rest the chain after lhs, and n the remaining loop
count (the decremented size).  The three branches mirror the source: the
fast-forward branch (rhs not below the sorted tail, no relocation), the
splice-to-front branch (rhs below the current first element), and the scan
branch that walks the sorted region from first to find the last position not
greater than rhs and splices rhs after it.  The third component counts the
cosplice calls performed. -/
def issLoop {V : Type} (comp : V → V → Bool) :
    List (Elt V) → Elt V → Elt V → List (Elt V) → Nat →
      List (Elt V) × Option (Elt V) × Nat
  | S, _first, lhs, rest, 0 => (S ++ rest, some lhs, 0)
  | S, first, lhs, rest, n + 1 =>
    match rest with
    | [] => (S, some lhs, 0)
    | rhs :: rest2 =>
      if !(comp rhs.2 lhs.2) then
        issLoop comp (S ++ [rhs]) first rhs rest2 n
      else if comp rhs.2 first.2 then
        let (res, ret, k) := issLoop comp (rhs :: S) rhs lhs rest2 n
        (res, ret, k + 1)
      else
        match S with
        | [] => (S ++ rest, some lhs, 0)
        | s0 :: srest =>
          let (res, ret, k) :=
            issLoop comp
              (s0 :: (srest.takeWhile (fun y => !(comp rhs.2 y.2)) ++
                rhs :: srest.dropWhile (fun y => !(comp rhs.2 y.2))))
              first lhs rest2 n
          (res, ret, k + 1)

/-- Embedding of __detail::insertion_sort_splice (sorting_impl.hpp).  The
argument l is the content of the chain after the left limit and size the
count of elements to sort.  Returns the rearranged content, the returned
iterator (none when the chain after the left limit is empty: the returned
after(range, left) then denotes the end position), and the number of
cosplice calls.  Mirrors the source: the size < 2 early return of
after(range, left), the separate handling of the first two elements, then
the loop. -/
def insertion_sort_splice_list {V : Type} (comp : V → V → Bool)
    (l : List (Elt V)) (size : Nat) : List (Elt V) × Option (Elt V) × Nat :=
  if size < 2 then (l, l.head?, 0)
  else
    match l with
    | [] => (l, l.head?, 0)
    | [e1] => (l, some e1, 0)
    | e1 :: e2 :: rest =>
      if !(comp e2.2 e1.2) then
        issLoop comp [e1, e2] e1 e2 rest (size - 2)
      else
        let (res, ret, k) := issLoop comp [e2, e1] e2 e1 rest (size - 2)
        (res, ret, k + 1)

/-- 64 - countl_zero(uint64(size)), the number of merge levels L computed by
merge_sort_splice; for size < 2^64 this is exactly the bit length of size,
which is Nat.size. -/
def msMaxSteps (size : Nat) : Nat := Nat.size size

/-- countr_zero(MergeThreshold) for MergeThreshold = 4: the starting level T
of merge_sort_splice. -/
def msFirstStep : Nat := 2

/-- S(k) = size >> (L - k): the length of the sorted front after step k of
merge_sort_splice (sorting_impl.hpp, the comment block before the loop). -/
def msS (size k : Nat) : Nat := size >>> (msMaxSteps size - k)

/-- The chunk size to_sort = (size >> (max_steps - step - 1)) - l_cnt
sorted by the recursive call at the given step of the merge_sort loop. -/
def msChunk (size max_steps step l_cnt : Nat) : Nat :=
  (size >>> (max_steps - step - 1)) - l_cnt

/-- The per-level loop of merge_sort_splice: at each step the next chunk of
to_sort = (size >> (L - step - 1)) - l_cnt elements is sorted by the
recursive call msrec, then merged with the sorted front via
coinplace_merge_splice.  The sorted front is the first l_cnt elements of
content; gas counts the remaining steps (max_steps - step). -/
def mssSteps {V : Type} [Inhabited V] (comp : V → V → Bool)
    (msrec : List (Elt V) → Nat → List (Elt V) × Option (Elt V))
    (size max_steps : Nat) :
    Nat → Nat → List (Elt V) → Option (Elt V) → Nat →
      List (Elt V) × Option (Elt V)
  | _step, 0, content, ret, _l_cnt => (content, ret)
  | step, gas + 1, content, ret, l_cnt =>
    if step < max_steps then
      mssSteps comp msrec size max_steps (step + 1) gas
        ((coinplace_merge_splice_list comp (content.take l_cnt)
            ((msrec (content.drop l_cnt)
                (msChunk size max_steps step l_cnt)).1.take
              (msChunk size max_steps step l_cnt))).1 ++
          (msrec (content.drop l_cnt)
              (msChunk size max_steps step l_cnt)).1.drop
            (msChunk size max_steps step l_cnt))
        (some (coinplace_merge_splice_list comp (content.take l_cnt)
            ((msrec (content.drop l_cnt)
                (msChunk size max_steps step l_cnt)).1.take
              (msChunk size max_steps step l_cnt))).2)
        (l_cnt + msChunk size max_steps step l_cnt)
    else (content, ret)

/-- The count of elements handed to the initial insertion sort of
merge_sort_splice: all of them when L <= T, else size >> (L - T). -/
def msLcnt (size : Nat) : Nat :=
  if msMaxSteps size ≤ msFirstStep then size
  else size >>> (msMaxSteps size - msFirstStep)

/-- Embedding of __detail::merge_sort_splice (sorting_impl.hpp), with a fuel
argument making the nested recursion structural (all theorems assume fuel at
least size, which the source recursion always respects since every recursive
call sorts a strictly smaller chunk).  Computes L = 64 - countl_zero(size),
insertion-sorts the first size >> (L - T) elements (or everything when
L <= T), then runs the per-level loop. -/
def merge_sort_splice_list {V : Type} [Inhabited V] (comp : V → V → Bool) :
    Nat → List (Elt V) → Nat → List (Elt V) × Option (Elt V)
  | 0, l, _size => (l, l.head?)
  | fuel + 1, l, size =>
    mssSteps comp (merge_sort_splice_list comp fuel) size (msMaxSteps size)
      msFirstStep (msMaxSteps size - msFirstStep)
      (insertion_sort_splice_list comp l (msLcnt size)).1
      (insertion_sort_splice_list comp l (msLcnt size)).2.1
      (msLcnt size)

/-- Inserts a run of elements immediately after the element carrying the
given tag: the list-level effect of cosplice(range, buck_it->second, lhs,
it_last), which splices the corange (lhs, it_last] to just after the node
that the bucket tail iterator points to. -/
def spliceAfterTag {V : Type} (t : Nat) (run : List (Elt V)) :
    List (Elt V) → List (Elt V)
  | [] => run
  | x :: xs =>
    if x.1 = t then x :: (run ++ xs) else x :: spliceAfterTag t run xs

/-- The bucket-scan loop of bucket_sort_splice (sorting_impl.hpp): iterates
the bucket descriptors from begin() up to (excluding) the last bucket,
stopping at the first bucket whose tail is equivalent to the element (found)
or strictly greater than it (insertion point).  Returns the skipped
descriptors, the found flag and the unscanned remainder (whose head, when
found, is the matching bucket, and otherwise the bucket the new one goes in
front of). -/
def bsScan {V : Type} (iseq comp : V → V → Bool) (itv : V) :
    List (Nat × Elt V) → List (Nat × Elt V) × Bool × List (Nat × Elt V)
  | [] => ([], false, [])
  | b :: bs =>
    if iseq itv b.2.2 then ([], true, b :: bs)
    else if comp itv b.2.2 then ([], false, b :: bs)
    else
      let (pre, f, post) := bsScan iseq comp itv bs
      (b :: pre, f, post)

/-- The main traversal loop of bucket_sort_splice (sorting_impl.hpp).  The
state mirrors the source exactly: arranged is the interval content up to and
including the rightmost bucketed element (the lhs iterator points at its
last element), front the bucket descriptors before last_buck, lastB the
last_buck descriptor, dirty the last_buck_dirty flag, and rem the
untraversed chain from the it iterator on.  Each descriptor is the pair
(count, tail element) stored in the flat_list.  The capOK flag records, at
every emplace_after call (conjunctively), whether memory.size() <
_max_buckets held at that moment, i.e. whether the flat_list capacity
precondition was met; the flat_list size is front.length + 1. -/
def bsLoop {V : Type} [Inhabited V] (iseq comp : V → V → Bool) (max : Nat) :
    List (Elt V) → List (Nat × Elt V) → Nat × Elt V → Bool → Bool →
      List (Elt V) →
      List (Elt V) × List (Nat × Elt V) × (Nat × Elt V) × Bool × Bool
  | arranged, front, lastB, dirty, capOK, [] =>
    (arranged, front, lastB, dirty, capOK)
  | arranged, front, lastB, dirty, capOK, it :: rest =>
    if iseq it.2 lastB.2.2 then
      bsLoop iseq comp max (arranged ++ [it]) front (lastB.1 + 1, it)
        dirty capOK rest
    else if comp lastB.2.2 it.2 then
      if front.length + 1 < max then
        bsLoop iseq comp max (arranged ++ [it]) (front ++ [lastB]) (1, it)
          dirty (capOK && decide (front.length + 1 < max)) rest
      else
        bsLoop iseq comp max (arranged ++ [it]) front
          (lastB.1 + 1, lastB.2) true capOK rest
    else
      let run := it :: rest.takeWhile (fun x => iseq it.2 x.2)
      let rest2 := rest.dropWhile (fun x => iseq it.2 x.2)
      let stb := run.length
      let itl := run.getLastD default
      match hs : bsScan iseq comp it.2 front with
      | (pre, true, bj :: post2) =>
        bsLoop iseq comp max (spliceAfterTag bj.2.1 run arranged)
          (pre ++ (bj.1 + stb, itl) :: post2) lastB dirty capOK rest2
      | (pre, found, post) =>
        if found then (arranged, front, lastB, dirty, capOK)
        else if !(decide (front.length + 1 < max)) then
          bsLoop iseq comp max (arranged ++ run) front
            (lastB.1 + stb, lastB.2) true capOK rest2
        else
          match pre.getLast? with
          | none =>
            bsLoop iseq comp max (run ++ arranged) ((stb, itl) :: front)
              lastB dirty (capOK && decide (front.length + 1 < max)) rest2
          | some pb =>
            bsLoop iseq comp max (spliceAfterTag pb.2.1 run arranged)
              (pre ++ (stb, itl) :: post) lastB dirty
              (capOK && decide (front.length + 1 < max)) rest2
  termination_by _ _ _ _ _ rem => rem.length
  decreasing_by
    all_goals
      simp only [List.length_cons]
      first
      | omega
      | · have := List.Sublist.length_le (List.dropWhile_sublist
            (fun x : Elt V => iseq it.2 x.2) (l := rest))
          omega

/-- Modelled from the spec: the finalization of bucket_sort_splice is absent
from the snapshot of sorting_impl.hpp under src (the function there ends
with a placeholder return of (0, after(range, left)), leaving the
last_buck_dirty flag unread), while the repository documentation specifies
the returned pair as the size of the sorted interval and an iterator to its
last element, describes degradation to merge_sort on a single all-equivalent
bucket, and states that exceeding _max_buckets costs one additional
coinplace_merge_splice.  Accordingly, this modelled tail merge-sorts the
corange of each bucket in descriptor order (using the bucket counts
accumulated by the loop), sums the counts into the returned size, and, when
the last bucket is dirty, merges the sorted front coranges with the sorted
last-bucket corange through one coinplace_merge_splice, returning the
iterator produced by the final sorting call.  The extra merge runs only
when a sorted front part exists (its corange (left, mid] must be
nonempty, as coinplace_merge_splice requires); with a single bucket the
per-bucket sort has already sorted everything. -/
def bsFinish {V : Type} [Inhabited V] (comp : V → V → Bool)
    (arranged : List (Elt V)) (buckets : List (Nat × Elt V))
    (dirty : Bool) : (Nat × Option (Elt V)) × List (Elt V) :=
  let st := buckets.foldl
    (fun (st : List (Elt V) × List (Elt V) × Nat × Option (Elt V))
         (b : Nat × Elt V) =>
      let (res, ret) := merge_sort_splice_list comp (b.1 + 1) st.2.1 b.1
      (st.1 ++ res.take b.1, res.drop b.1, st.2.2.1 + b.1, ret))
    ([], arranged, 0, none)
  let lastCnt := (buckets.getLastD (0, default)).1
  if dirty = true ∧ lastCnt < st.2.2.1 then
    let (m, r) :=
      coinplace_merge_splice_list comp (st.1.take (st.2.2.1 - lastCnt))
        (st.1.drop (st.2.2.1 - lastCnt))
    ((st.2.2.1, some r), m ++ st.2.1)
  else ((st.2.2.1, st.2.2.2), st.1 ++ st.2.1)

/-- Embedding of __detail::bucket_sort_splice (sorting_impl.hpp) on the
content of the open interval (left, right).  The empty-interval check and
the initial emplace of the first element into its own bucket mirror the
source; the traversal is bsLoop and the finalization the spec-modelled
bsFinish.  Returns ((size, returned iterator), final interval content); a
none iterator stands for after(range, left), which is what the source
returns for an empty interval. -/
def bucket_sort_splice_list {V : Type} [Inhabited V]
    (iseq comp : V → V → Bool) (max : Nat) (content : List (Elt V)) :
    (Nat × Option (Elt V)) × List (Elt V) :=
  match content with
  | [] => ((0, none), [])
  | lhs0 :: rest =>
    let (arranged, front, lastB, dirty, _) :=
      bsLoop iseq comp max [lhs0] [] (1, lhs0) false (decide (0 < max)) rest
    bsFinish comp arranged (front ++ [lastB]) dirty

/-- Pointwise update of a successor map: the effect of a single
node->next pointer assignment. -/
def updF (f : Nat → Option Nat) (k : Nat) (v : Option Nat) :
    Nat → Option Nat :=
  fun n => if n = k then v else f n

/-- A singly linked sequence at the pointer level: a head pointer and the
successor map of its nodes (node identities are Nat, none is nullptr). -/
structure LL where
  head : Option Nat
  next : Nat → Option Nat

/-- Walks successor pointers from a node, collecting at most fuel node
identities: the observable content of a pointer-level list. -/
def walkLL (next : Nat → Option Nat) : Nat → Option Nat → List Nat
  | 0, _ => []
  | _ + 1, none => []
  | fuel + 1, some i => i :: walkLL next fuel (next i)

/-- The observable content of a pointer-level list. -/
def LL.toList (s : LL) (fuel : Nat) : List Nat :=
  walkLL s.next fuel s.head

/-- The successor map of a concrete list of node identities: maps each
element to the one following it, the last element and foreign identities to
none. -/
def nextInList : List Nat → Nat → Option Nat
  | [], _ => none
  | [_], _ => none
  | x :: y :: t, i => if i = x then some y else nextInList (y :: t) i

/-- Builds the pointer-level list holding the given node identities. -/
def ofListLL (l : List Nat) : LL :=
  { head := l.head?, next := fun i => nextInList l i }

/-- Embedding of linked_list::cosplice (the test reference implementation of
the repository, which realizes the documented contract of the generic
enranged::cosplice) for source and destination being the same sequence.  The
four pointer assignments of the source are performed in order, with the
head_ member aliased between the source cut and the destination insertion
exactly as in the C++ code: pos and lt are left limits (none is the front
sentinel), rt the last node of the spliced corange. -/
def cospliceLL (s : LL) (pos lt : Option Nat) (rt : Nat) : LL :=
  let left_node := match lt with
    | some p => s.next p
    | none => s.head
  let s1 : LL := match lt with
    | some p => { s with next := updF s.next p (s.next rt) }
    | none => { s with head := s.next rt }
  match pos with
  | some q =>
    { s1 with next := updF (updF s1.next rt (s1.next q)) q left_node }
  | none =>
    { head := left_node, next := updF s1.next rt s1.head }

/-- Embedding of linked_list::cosplice for distinct source and destination
sequences living in one node heap: heap is the shared successor map, dstHead
and srcHead the two head pointers.  Returns the updated heap and heads after
the same four assignments as the source (this->head_ is dstHead,
other.head_ is srcHead). -/
def cospliceW (heap : Nat → Option Nat) (dstHead srcHead : Option Nat)
    (pos lt : Option Nat) (rt : Nat) :
    (Nat → Option Nat) × Option Nat × Option Nat :=
  let left_node := match lt with
    | some p => heap p
    | none => srcHead
  let cut : (Nat → Option Nat) × Option Nat := match lt with
    | some p => (updF heap p (heap rt), srcHead)
    | none => (heap, heap rt)
  match pos with
  | some q =>
    (updF (updF cut.1 rt (cut.1 q)) q left_node, dstHead, cut.2)
  | none =>
    (updF cut.1 rt dstHead, left_node, cut.2)

/-- The successor map represents the given node list from the given head:
the head points at the first node, each node points at the next one, and the
last node points at none.  A walk with enough fuel then observes exactly
that list. -/
def Rep (next : Nat → Option Nat) (h : Option Nat) (m : List Nat) : Prop :=
  h = m.head? ∧ List.Chain' (fun x y => next x = some y) m ∧
    ∀ x, m.getLast? = some x → next x = none

/-- The shared node heap holding two disjoint pointer-level lists: the
successor of a node of the first list inside it, of any other node inside
the second list. -/
def heapOf (D Sr : List Nat) : Nat → Option Nat :=
  fun i => if i ∈ D then nextInList D i else nextInList Sr i

/-- The run extension scan of bucket_sort_splice with a call budget for the
equivalence predicate: collects the elements following it that are
equivalent to it, spending one budget unit per predicate call (including the
failing one), and throws (error) when the budget is exhausted. -/
def bsRunScanE {V : Type} (iseq : V → V → Bool) (v : V) :
    List (Elt V) → Nat → Except Unit (List (Elt V) × Nat)
  | [], budget => Except.ok ([], budget)
  | _ :: _, 0 => Except.error ()
  | x :: xs, b + 1 =>
    if iseq v x.2 then
      match bsRunScanE iseq v xs b with
      | Except.ok (tk, b2) => Except.ok (x :: tk, b2)
      | Except.error e => Except.error e
    else Except.ok ([], b)

/-- The bucket scan of bucket_sort_splice with a call budget: per scanned
descriptor one equivalence call and, when that fails, one comparison call,
throwing when the budget runs out. -/
def bsScanE {V : Type} (iseq comp : V → V → Bool) (v : V) :
    List (Nat × Elt V) → Nat →
      Except Unit (List (Nat × Elt V) × Bool × List (Nat × Elt V) × Nat)
  | [], budget => Except.ok ([], false, [], budget)
  | _ :: _, 0 => Except.error ()
  | b :: bs, bud + 1 =>
    if iseq v b.2.2 then Except.ok ([], true, b :: bs, bud)
    else
      match bud with
      | 0 => Except.error ()
      | bud2 + 1 =>
        if comp v b.2.2 then Except.ok ([], false, b :: bs, bud2)
        else
          match bsScanE iseq comp v bs bud2 with
          | Except.ok (pre, f, post, b3) => Except.ok (b :: pre, f, post, b3)
          | Except.error e => Except.error e

/-- The traversal loop of bucket_sort_splice under predicates that throw
once a call budget is exhausted, mirroring bsLoop branch for branch.  The
state tracks the bucket descriptors (the constructed flat_list content),
the running count ctr of descriptor constructions (emplace_after calls) and
the budget.  Both the normal and the exceptional exit deliver (ctr, live
descriptor count at exit): the ok or error payload is what the flat_list
destructor will destroy on that exit path. -/
def bsLoopE {V : Type} [Inhabited V] (iseq comp : V → V → Bool) (max : Nat) :
    List (Nat × Elt V) → (Nat × Elt V) → Bool → Nat → Nat →
      List (Elt V) → Except (Nat × Nat) (Nat × Nat)
  | front, _, _, ctr, _, [] => Except.ok (ctr, front.length + 1)
  | front, lastB, dirty, ctr, 0, _ :: _ =>
    Except.error (ctr, front.length + 1)
  | front, lastB, dirty, ctr, bud + 1, it :: rest =>
    if iseq it.2 lastB.2.2 then
      bsLoopE iseq comp max front (lastB.1 + 1, it) dirty ctr bud rest
    else
      match bud with
      | 0 => Except.error (ctr, front.length + 1)
      | bud2 + 1 =>
        if comp lastB.2.2 it.2 then
          if front.length + 1 < max then
            bsLoopE iseq comp max (front ++ [lastB]) (1, it) dirty (ctr + 1)
              bud2 rest
          else
            bsLoopE iseq comp max front (lastB.1 + 1, lastB.2) true ctr
              bud2 rest
        else
          match bsRunScanE iseq it.2 rest bud2 with
          | Except.error _ => Except.error (ctr, front.length + 1)
          | Except.ok (tk, bud3) =>
            let run := it :: tk
            let rest2 := rest.drop tk.length
            let stb := run.length
            let itl := run.getLastD default
            match bsScanE iseq comp it.2 front bud3 with
            | Except.error _ => Except.error (ctr, front.length + 1)
            | Except.ok (pre, true, bj :: post2, bud4) =>
              bsLoopE iseq comp max (pre ++ (bj.1 + stb, itl) :: post2)
                lastB dirty ctr bud4 rest2
            | Except.ok (pre, found, post, bud4) =>
              if found then Except.ok (ctr, front.length + 1)
              else if !(decide (front.length + 1 < max)) then
                bsLoopE iseq comp max front (lastB.1 + stb, lastB.2) true
                  ctr bud4 rest2
              else
                match pre.getLast? with
                | none =>
                  bsLoopE iseq comp max ((stb, itl) :: front) lastB dirty
                    (ctr + 1) bud4 rest2
                | some pb =>
                  bsLoopE iseq comp max (pre ++ (stb, itl) :: post) lastB
                    dirty (ctr + 1) bud4 rest2
  termination_by _ _ _ _ _ rem => rem.length
  decreasing_by
    all_goals simp only [List.length_cons, List.length_drop]
    all_goals omega

/-- Embedding of bucket_sort_splice under throwing predicates: runs the
traversal with the given call budget and reports (constructed descriptor
count, descriptor count destroyed by the flat_list destructor on the taken
exit path, whether the call completed normally).  The empty-interval early
return happens before the flat_list exists, so it constructs and destroys
nothing; otherwise the first element is placed in its own bucket before the
traversal, as in the source. -/
def bucket_sort_throws {V : Type} [Inhabited V] (iseq comp : V → V → Bool)
    (max : Nat) (content : List (Elt V)) (budget : Nat) : Nat × Nat × Bool :=
  match content with
  | [] => (0, 0, true)
  | x :: rest =>
    match bsLoopE iseq comp max [] (1, x) false 1 budget rest with
    | Except.ok (ctr, mem) => (ctr, mem, true)
    | Except.error (ctr, mem) => (ctr, mem, false)

/-- A bucket descriptor (count, tail iterator) faithfully describes a
segment of the arranged interval: the count is the segment length, the tail
iterator points at its last element, and the segment is one equivalence
class. -/
def BSeg {V : Type} (iseq : V → V → Bool) (b : Nat × Elt V)
    (seg : List (Elt V)) : Prop :=
  seg ≠ [] ∧ b.1 = seg.length ∧ seg.getLast? = some b.2 ∧
    ∀ x ∈ seg, ∀ y ∈ seg, iseq x.2 y.2 = true

/-- The loop invariant of bucket_sort_splice relating the arranged interval
content to the bucket descriptors: the content splits into one segment per
front descriptor followed by the last-bucket region T; each front segment is
a bucket as described by its descriptor; the last descriptor counts T, whose
tail iterator points into T (at its last element, and T is a single class,
whenever the last bucket is not dirty); bucket tails are strictly increasing
and pairwise inequivalent along the descriptor order; and no element of T is
equivalent to any front bucket tail. -/
def BInv {V : Type} (iseq comp : V → V → Bool) (arranged : List (Elt V))
    (front : List (Nat × Elt V)) (lastB : Nat × Elt V) (dirty : Bool) :
    Prop :=
  ∃ segs T,
    arranged = segs.flatten ++ T ∧
    List.Forall₂ (BSeg iseq) front segs ∧
    T ≠ [] ∧ lastB.1 = T.length ∧ lastB.2 ∈ T ∧
    (dirty = false → T.getLast? = some lastB.2 ∧
      ∀ x ∈ T, ∀ y ∈ T, iseq x.2 y.2 = true) ∧
    List.Chain'
      (fun b c : Nat × Elt V =>
        comp b.2.2 c.2.2 = true ∧ iseq b.2.2 c.2.2 = false)
      (front ++ [lastB]) ∧
    ∀ b ∈ front, ∀ t ∈ T, iseq b.2.2 t.2 = false

/-- An equivalence relation consistent with a strict weak order, as
documented above bucket_sort_splice in sorting.hpp: an equivalence whose
classes contain the tie classes and compare uniformly, so that x <' y iff
x < y and not x ~ y is a strict total order on classes. -/
structure Consist {V : Type} (iseq comp : V → V → Bool) : Prop where
  refl : ∀ x, iseq x x = true
  symm : ∀ {x y}, iseq x y = true → iseq y x = true
  trans : ∀ {x y z}, iseq x y = true → iseq y z = true → iseq x z = true
  tie_imp : ∀ {x y}, comp x y = false → comp y x = false → iseq x y = true
  compat : ∀ {x y a b}, comp x y = true → iseq x a = true →
    iseq y b = true → comp a b = true ∨ iseq a b = true

/-- The natural strict order on integers as a Bool predicate, used to
instantiate the algorithms on concrete inputs. -/
def intComp : Int → Int → Bool := fun a b => decide (a < b)

/-- The equivalence x ~ y iff x >> 2 = y >> 2 (floor division by 4), an
example relation consistent with intComp: the shift-based relation used by
the repository tests. -/
def intEqv : Int → Int → Bool := fun a b => decide (Int.ediv a 4 = Int.ediv b 4)

/-! Derived facts about strict weak orders. -/

theorem swoTrans {V : Type} {comp : V → V → Bool} (h : SWO comp) {a b c : V}
    (hab : comp a b = true) (hbc : comp b c = true) : comp a c = true := by
  by_contra hac
  have hac2 : comp a c = false := by
    cases hx : comp a c
    · rfl
    · exact absurd hx hac
  have hcb := h.asymm b c hbc
  have := h.negtrans a c b hac2 hcb
  rw [this] at hab
  exact Bool.false_ne_true hab

theorem tieB_refl {V : Type} {comp : V → V → Bool} (h : SWO comp) (x : V) :
    tieB comp x x = true := by
  simp [tieB, h.irrefl x]

theorem tieB_symm {V : Type} {comp : V → V → Bool} {x y : V}
    (hxy : tieB comp x y = true) : tieB comp y x = true := by
  simp only [tieB, Bool.and_eq_true, Bool.not_eq_true'] at hxy ⊢
  exact ⟨hxy.2, hxy.1⟩

theorem tieB_trans {V : Type} {comp : V → V → Bool} (h : SWO comp)
    {x y z : V} (hxy : tieB comp x y = true) (hyz : tieB comp y z = true) :
    tieB comp x z = true := by
  simp only [tieB, Bool.and_eq_true, Bool.not_eq_true'] at hxy hyz ⊢
  exact ⟨h.negtrans x y z hxy.1 hyz.1, h.negtrans z y x hyz.2 hxy.2⟩

theorem comp_of_not_tie {V : Type} {comp : V → V → Bool} {x y : V}
    (hxy : tieB comp x y = false) (hyx : comp y x = false) :
    comp x y = true := by
  simp only [tieB, Bool.and_eq_false_iff, Bool.not_eq_false'] at hxy
  rcases hxy with hx | hy
  · exact hx
  · rw [hy] at hyx; exact absurd hyx (by simp)

/-! Small list facts used throughout. -/

theorem dropWhile_head_false {α : Type} {p : α → Bool} :
    ∀ {l x xs}, List.dropWhile p l = x :: xs → p x = false
  | [], x, xs, hyp => by simp [List.dropWhile] at hyp
  | a :: t, x, xs, hyp => by
    by_cases ha : p a
    · rw [List.dropWhile_cons_of_pos ha] at hyp
      exact dropWhile_head_false hyp
    · rw [List.dropWhile_cons_of_neg ha] at hyp
      cases hyp
      simpa using ha

theorem dropWhile_getLast? {α : Type} {p : α → Bool} {l : List α} {x : α}
    (hlast : l.getLast? = some x) (hx : p x = false) :
    (List.dropWhile p l).getLast? = some x := by
  induction l with
  | nil => simp at hlast
  | cons a t ih =>
    cases t with
    | nil =>
      simp only [List.getLast?_singleton, Option.some.injEq] at hlast
      subst hlast
      simp [List.dropWhile, hx]
    | cons b t2 =>
      rw [List.getLast?_cons_cons] at hlast
      by_cases ha : p a
      · rw [List.dropWhile_cons_of_pos ha]
        exact ih hlast
      · rw [List.dropWhile_cons_of_neg ha, List.getLast?_cons_cons]
        exact hlast

theorem sortedE_sublist {V : Type} {comp : V → V → Bool}
    {l l' : List (Elt V)} (hs : List.Sublist l' l) (h : SortedE comp l) :
    SortedE comp l' :=
  List.Pairwise.sublist hs h

/-! Properties of the conventional stable merge. -/

theorem mergeRef_nil_right {V : Type} (comp : V → V → Bool)
    (A : List (Elt V)) : mergeRef comp A [] = A := by
  cases A <;> simp [mergeRef]

theorem mem_mergeRef {V : Type} (comp : V → V → Bool) :
    ∀ (A B : List (Elt V)) (x : Elt V),
      x ∈ mergeRef comp A B ↔ x ∈ A ∨ x ∈ B
  | [], B, x => by simp [mergeRef]
  | a :: A, [], x => by simp [mergeRef]
  | a :: A, b :: B, x => by
    rw [mergeRef]
    by_cases hc : comp b.2 a.2
    · rw [if_pos hc]
      rw [List.mem_cons, mem_mergeRef comp (a :: A) B x]
      simp only [List.mem_cons]
      tauto
    · rw [if_neg hc]
      rw [List.mem_cons, mem_mergeRef comp A (b :: B) x]
      simp only [List.mem_cons]
      tauto
  termination_by A B _ => A.length + B.length

theorem mergeRef_takeLeft {V : Type} (comp : V → V → Bool)
    (y : Elt V) (B : List (Elt V)) :
    ∀ (X A : List (Elt V)), (∀ x ∈ X, comp y.2 x.2 = false) →
      mergeRef comp (X ++ A) (y :: B) = X ++ mergeRef comp A (y :: B)
  | [], A, _ => by simp
  | x :: X, A, hX => by
    have hx : comp y.2 x.2 = false := hX x (by simp)
    rw [List.cons_append, mergeRef, hx]
    simp only [Bool.false_eq_true, if_false, List.cons_append]
    rw [mergeRef_takeLeft comp y B X A (fun z hz => hX z (by simp [hz]))]

theorem mergeRef_takeRight {V : Type} (comp : V → V → Bool)
    (a : Elt V) (A : List (Elt V)) :
    ∀ (Y B : List (Elt V)), (∀ y ∈ Y, comp y.2 a.2 = true) →
      mergeRef comp (a :: A) (Y ++ B) = Y ++ mergeRef comp (a :: A) B
  | [], B, _ => by simp
  | y :: Y, B, hY => by
    have hy : comp y.2 a.2 = true := hY y (by simp)
    rw [List.cons_append, mergeRef, if_pos hy]
    rw [mergeRef_takeRight comp a A Y B (fun z hz => hY z (by simp [hz]))]
    simp

theorem sortedE_mergeRef {V : Type} {comp : V → V → Bool} (h : SWO comp) :
    ∀ {A B : List (Elt V)}, SortedE comp A → SortedE comp B →
      SortedE comp (mergeRef comp A B)
  | [], B, _, hB => by rw [mergeRef]; exact hB
  | a :: A, [], hA, _ => by rw [mergeRef]; exact hA
  | a :: A, b :: B, hA, hB => by
    rw [mergeRef]
    by_cases hc : comp b.2 a.2
    · rw [if_pos hc]
      refine List.pairwise_cons.2 ⟨?_, ?_⟩
      · intro z hz
        rw [mem_mergeRef] at hz
        rcases hz with hz | hz
        · rcases List.mem_cons.1 hz with rfl | hz
          · exact h.asymm _ _ hc
          · have hza : comp z.2 a.2 = false :=
              (List.pairwise_cons.1 hA).1 z hz
            have hab : comp a.2 b.2 = false := h.asymm _ _ hc
            exact h.negtrans _ _ _ hza hab
        · exact (List.pairwise_cons.1 hB).1 z hz
      · exact sortedE_mergeRef h hA (List.Pairwise.of_cons hB)
    · rw [if_neg hc]
      have hc2 : comp b.2 a.2 = false := by
        cases hx : comp b.2 a.2
        · rfl
        · exact absurd hx hc
      refine List.pairwise_cons.2 ⟨?_, ?_⟩
      · intro z hz
        rw [mem_mergeRef] at hz
        rcases hz with hz | hz
        · exact (List.pairwise_cons.1 hA).1 z hz
        · rcases List.mem_cons.1 hz with rfl | hz
          · exact hc2
          · have hzb : comp z.2 b.2 = false :=
              (List.pairwise_cons.1 hB).1 z hz
            exact h.negtrans _ _ _ hzb hc2
      · exact sortedE_mergeRef h (List.Pairwise.of_cons hA) hB
  termination_by A B _ _ => A.length + B.length

theorem filter_mergeRef_left {V : Type} (comp : V → V → Bool)
    (P : Elt V → Bool) :
    ∀ (A B : List (Elt V)), (∀ b ∈ B, P b = false) →
      (mergeRef comp A B).filter P = A.filter P
  | [], B, hB => by
    rw [mergeRef]
    rw [List.filter_eq_nil_iff.2 (by intro b hb; simp [hB b hb])]
    simp
  | a :: A, [], _ => by rw [mergeRef]
  | a :: A, b :: B, hB => by
    rw [mergeRef]
    by_cases hc : comp b.2 a.2
    · rw [if_pos hc]
      rw [List.filter_cons_of_neg (by simp [hB b (by simp)])]
      exact filter_mergeRef_left comp P (a :: A) B
        (fun z hz => hB z (by simp [hz]))
    · rw [if_neg hc]
      rw [List.filter_cons, List.filter_cons]
      cases hP : P a
      · simp only [Bool.false_eq_true, if_false]
        exact filter_mergeRef_left comp P A (b :: B) hB
      · simp only [if_true]
        rw [filter_mergeRef_left comp P A (b :: B) hB]
  termination_by A B _ => A.length + B.length

theorem filter_mergeRef_right {V : Type} (comp : V → V → Bool)
    (P : Elt V → Bool) :
    ∀ (A B : List (Elt V)), (∀ a ∈ A, P a = false) →
      (mergeRef comp A B).filter P = B.filter P
  | [], B, _ => by rw [mergeRef]
  | a :: A, [], hA => by
    rw [mergeRef]
    rw [List.filter_eq_nil_iff.2 (by intro z hz; simp [hA z hz])]
    simp
  | a :: A, b :: B, hA => by
    rw [mergeRef]
    by_cases hc : comp b.2 a.2
    · rw [if_pos hc]
      rw [List.filter_cons, filter_mergeRef_right comp P (a :: A) B hA,
        List.filter_cons]
    · rw [if_neg hc]
      rw [List.filter_cons_of_neg (by simp [hA a (by simp)])]
      exact filter_mergeRef_right comp P A (b :: B)
        (fun z hz => hA z (by simp [hz]))
  termination_by A B _ => A.length + B.length

/-! Properties of the reference stable insertion. -/

theorem mem_insortL {V : Type} (comp : V → V → Bool) (x : Elt V) :
    ∀ (l : List (Elt V)) (z : Elt V),
      z ∈ insortL comp x l ↔ z = x ∨ z ∈ l
  | [], z => by simp [insortL]
  | y :: t, z => by
    rw [insortL]
    by_cases hc : comp x.2 y.2
    · rw [if_pos hc]
      simp only [List.mem_cons]
    · rw [if_neg hc]
      rw [List.mem_cons, mem_insortL comp x t z, List.mem_cons]
      tauto

theorem insortL_eq_append {V : Type} (comp : V → V → Bool) (x : Elt V) :
    ∀ (l : List (Elt V)), (∀ y ∈ l, comp x.2 y.2 = false) →
      insortL comp x l = l ++ [x]
  | [], _ => rfl
  | y :: t, hl => by
    rw [insortL, if_neg (by simp [hl y (by simp)])]
    rw [insortL_eq_append comp x t (fun z hz => hl z (by simp [hz]))]
    simp

theorem insortL_eq_takeDrop {V : Type} (comp : V → V → Bool) (x : Elt V) :
    ∀ (l : List (Elt V)),
      insortL comp x l = l.takeWhile (fun y => !(comp x.2 y.2)) ++
        x :: l.dropWhile (fun y => !(comp x.2 y.2))
  | [] => rfl
  | y :: t => by
    rw [insortL]
    by_cases hc : comp x.2 y.2
    · rw [if_pos hc, List.takeWhile_cons_of_neg (by simp [hc]),
        List.dropWhile_cons_of_neg (by simp [hc])]
      simp
    · rw [if_neg hc, List.takeWhile_cons_of_pos (by simp [hc]),
        List.dropWhile_cons_of_pos (by simp [hc])]
      rw [insortL_eq_takeDrop comp x t]
      simp

theorem sortedE_insortL {V : Type} {comp : V → V → Bool} (h : SWO comp)
    (x : Elt V) :
    ∀ {l : List (Elt V)}, SortedE comp l → SortedE comp (insortL comp x l)
  | [], _ => List.pairwise_singleton _ _
  | y :: t, hs => by
    rw [insortL]
    by_cases hc : comp x.2 y.2
    · rw [if_pos hc]
      refine List.pairwise_cons.2 ⟨?_, hs⟩
      intro z hz
      rcases List.mem_cons.1 hz with rfl | hz
      · exact h.asymm _ _ hc
      · have hzy : comp z.2 y.2 = false := (List.pairwise_cons.1 hs).1 z hz
        have hyx : comp y.2 x.2 = false := h.asymm _ _ hc
        exact h.negtrans _ _ _ hzy hyx
    · rw [if_neg hc]
      have hc2 : comp x.2 y.2 = false := by
        cases hh : comp x.2 y.2
        · rfl
        · exact absurd hh hc
      refine List.pairwise_cons.2 ⟨?_, ?_⟩
      · intro z hz
        rcases (mem_insortL comp x t z).1 hz with rfl | hz
        · exact hc2
        · exact (List.pairwise_cons.1 hs).1 z hz
      · exact sortedE_insortL h x (List.Pairwise.of_cons hs)

theorem getLast?_insortL {V : Type} (comp : V → V → Bool) {x v : Elt V}
    (hc : comp x.2 v.2 = true) :
    ∀ {l : List (Elt V)}, l.getLast? = some v →
      (insortL comp x l).getLast? = some v
  | [], hl => by simp at hl
  | [y], hl => by
    simp only [List.getLast?_singleton, Option.some.injEq] at hl
    subst hl
    rw [insortL, if_pos hc]
    rfl
  | y :: z :: t, hl => by
    rw [List.getLast?_cons_cons] at hl
    rw [insortL]
    by_cases hcy : comp x.2 y.2
    · rw [if_pos hcy, List.getLast?_cons_cons, List.getLast?_cons_cons]
      exact hl
    · rw [if_neg hcy]
      have := getLast?_insortL comp hc (l := z :: t) hl
      rw [insortL] at this
      by_cases hcz : comp x.2 z.2
      · rw [if_pos hcz] at this
        rw [insortL, if_pos hcz, List.getLast?_cons_cons]
        exact this
      · rw [if_neg hcz] at this
        rw [insortL, if_neg hcz, List.getLast?_cons_cons]
        exact this

theorem length_insortL {V : Type} (comp : V → V → Bool) (x : Elt V) :
    ∀ (l : List (Elt V)), (insortL comp x l).length = l.length + 1
  | [] => rfl
  | y :: t => by
    rw [insortL]
    by_cases hc : comp x.2 y.2
    · rw [if_pos hc]
      simp
    · rw [if_neg hc]
      simp only [List.length_cons, length_insortL comp x t]

theorem filter_tie_insortL {V : Type} {comp : V → V → Bool} (h : SWO comp)
    (x : Elt V) (v : V) :
    ∀ {l : List (Elt V)}, SortedE comp l →
      (insortL comp x l).filter (fun e => tieB comp e.2 v) =
        l.filter (fun e => tieB comp e.2 v) ++
          (if tieB comp x.2 v = true then [x] else [])
  | [], _ => by
    rw [insortL]
    simp only [List.filter, List.nil_append]
    cases ht : tieB comp x.2 v <;> simp [ht]
  | y :: t, hs => by
    rw [insortL]
    by_cases hc : comp x.2 y.2
    · rw [if_pos hc]
      have hall : ∀ z ∈ y :: t, comp x.2 z.2 = true := by
        intro z hz
        rcases List.mem_cons.1 hz with rfl | hz
        · exact hc
        · by_contra hxz
          have hxz2 : comp x.2 z.2 = false := by
            cases hh : comp x.2 z.2
            · rfl
            · exact absurd hh hxz
          have hzy : comp z.2 y.2 = false :=
            (List.pairwise_cons.1 hs).1 z hz
          have := h.negtrans _ _ _ hxz2 hzy
          rw [this] at hc
          exact Bool.false_ne_true hc
      cases htx : tieB comp x.2 v
      · simp only [Bool.false_eq_true, if_false, List.append_nil]
        rw [List.filter_cons_of_neg (by simp [htx])]
      · simp only [if_true]
        have hnil : (y :: t).filter (fun e => tieB comp e.2 v) = [] := by
          rw [List.filter_eq_nil_iff]
          intro z hz
          simp only [Bool.not_eq_true]
          cases hzv : tieB comp z.2 v
          · rfl
          · exfalso
            have hxz : tieB comp x.2 z.2 = true :=
              tieB_trans h htx (tieB_symm hzv)
            simp only [tieB, Bool.and_eq_true, Bool.not_eq_true'] at hxz
            have := hall z hz
            rw [hxz.1] at this
            exact Bool.false_ne_true this
        rw [List.filter_cons_of_pos (by simp [htx]), hnil]
        simp
    · rw [if_neg hc]
      rw [List.filter_cons, List.filter_cons,
        filter_tie_insortL h x v (List.Pairwise.of_cons hs)]
      cases hy : tieB comp y.2 v <;> simp

theorem insAll_cons {V : Type} (comp : V → V → Bool)
    (acc : List (Elt V)) (x : Elt V) (xs : List (Elt V)) :
    insAll comp acc (x :: xs) = insAll comp (insortL comp x acc) xs := rfl

theorem insAll_append_one {V : Type} (comp : V → V → Bool)
    (acc xs : List (Elt V)) (x : Elt V) :
    insAll comp acc (xs ++ [x]) = insortL comp x (insAll comp acc xs) := by
  rw [insAll, insAll, List.foldl_append]
  rfl

theorem sortedE_insAll {V : Type} {comp : V → V → Bool} (h : SWO comp) :
    ∀ (xs acc : List (Elt V)), SortedE comp acc →
      SortedE comp (insAll comp acc xs)
  | [], acc, hs => hs
  | x :: xs, acc, hs =>
    sortedE_insAll h xs (insortL comp x acc) (sortedE_insortL h x hs)

theorem filter_tie_insAll {V : Type} {comp : V → V → Bool} (h : SWO comp)
    (v : V) :
    ∀ (xs acc : List (Elt V)), SortedE comp acc →
      (insAll comp acc xs).filter (fun e => tieB comp e.2 v) =
        acc.filter (fun e => tieB comp e.2 v) ++
          xs.filter (fun e => tieB comp e.2 v)
  | [], acc, _ => by simp [insAll]
  | x :: xs, acc, hs => by
    have step : insAll comp acc (x :: xs) =
        insAll comp (insortL comp x acc) xs := rfl
    rw [step, filter_tie_insAll h v xs (insortL comp x acc)
      (sortedE_insortL h x hs)]
    rw [filter_tie_insortL h x v hs]
    rw [List.filter_cons]
    cases htx : tieB comp x.2 v <;> simp

theorem length_insAll {V : Type} (comp : V → V → Bool) :
    ∀ (xs acc : List (Elt V)),
      (insAll comp acc xs).length = acc.length + xs.length
  | [], acc => by simp [insAll]
  | x :: xs, acc => by
    have step : insAll comp acc (x :: xs) =
        insAll comp (insortL comp x acc) xs := rfl
    rw [step, length_insAll comp xs (insortL comp x acc),
      length_insortL comp x acc]
    simp only [List.length_cons]
    omega

theorem sortedE_isortRef {V : Type} {comp : V → V → Bool} (h : SWO comp)
    (l : List (Elt V)) : SortedE comp (isortRef comp l) :=
  sortedE_insAll h l [] List.Pairwise.nil

theorem filter_tie_isortRef {V : Type} {comp : V → V → Bool} (h : SWO comp)
    (v : V) (l : List (Elt V)) :
    (isortRef comp l).filter (fun e => tieB comp e.2 v) =
      l.filter (fun e => tieB comp e.2 v) := by
  rw [isortRef, filter_tie_insAll h v l [] List.Pairwise.nil]
  rfl

theorem length_isortRef {V : Type} (comp : V → V → Bool)
    (l : List (Elt V)) : (isortRef comp l).length = l.length := by
  rw [isortRef, length_insAll comp l []]
  simp

/-- The key uniqueness fact behind the stability claims: a stable sort of a
list under a strict weak order is unique, i.e. two sorted lists whose
tie-class filters agree are equal. -/
theorem stable_sorted_unique {V : Type} {comp : V → V → Bool} (h : SWO comp) :
    ∀ {A B : List (Elt V)}, SortedE comp A → SortedE comp B →
      (∀ v, A.filter (fun e => tieB comp e.2 v) =
        B.filter (fun e => tieB comp e.2 v)) → A = B
  | [], B, _, _, hf => by
    by_contra hne
    cases hB : B with
    | nil => exact hne (by rw [hB])
    | cons b B2 =>
      have := hf b.2
      rw [hB] at this
      rw [List.filter_nil, List.filter_cons_of_pos
        (by simp [tieB_refl h b.2])] at this
      exact List.noConfusion this
  | a :: A, B, hA, hB, hf => by
    cases hBc : B with
    | nil =>
      have := hf a.2
      rw [hBc] at this
      rw [List.filter_nil, List.filter_cons_of_pos
        (by simp [tieB_refl h a.2])] at this
      exact List.noConfusion this
    | cons b B2 =>
      subst hBc
      have hfa := hf a.2
      rw [List.filter_cons_of_pos (by simp [tieB_refl h a.2])] at hfa
      have haB : a ∈ b :: B2 := by
        have : a ∈ (b :: B2).filter (fun e => tieB comp e.2 a.2) := by
          rw [← hfa]
          simp
        exact List.mem_of_mem_filter this
      have hfb := hf b.2
      rw [List.filter_cons_of_pos (l := B2) (by simp [tieB_refl h b.2])]
        at hfb
      have hbA : b ∈ a :: A := by
        have : b ∈ (a :: A).filter (fun e => tieB comp e.2 b.2) := by
          rw [hfb]
          simp
        exact List.mem_of_mem_filter this
      have hab2 : comp a.2 b.2 = false := by
        rcases List.mem_cons.1 haB with he | haB2
        · rw [he]
          exact h.irrefl _
        · exact (List.pairwise_cons.1 hB).1 a haB2
      have hba : comp b.2 a.2 = false := by
        rcases List.mem_cons.1 hbA with he | hbA2
        · rw [he]
          exact h.irrefl _
        · exact (List.pairwise_cons.1 hA).1 b hbA2
      have htie : tieB comp b.2 a.2 = true := by
        simp [tieB, hba, hab2]
      have hfa2 := hfa
      rw [List.filter_cons_of_pos (by simp [htie])] at hfa2
      have hab : a = b := by
        injection hfa2 with h1 _
      subst hab
      have htails : ∀ v, A.filter (fun e => tieB comp e.2 v) =
          B2.filter (fun e => tieB comp e.2 v) := by
        intro v
        have hv := hf v
        rw [List.filter_cons, List.filter_cons] at hv
        cases hav : tieB comp a.2 v
        · rw [hav] at hv
          simpa using hv
        · rw [hav] at hv
          simp only [if_true] at hv
          injection hv
      rw [stable_sorted_unique h (List.Pairwise.of_cons hA)
        (List.Pairwise.of_cons hB) htails]

theorem filter_tie_mergeRef {V : Type} {comp : V → V → Bool} (h : SWO comp)
    (v : V) :
    ∀ (A B : List (Elt V)), SortedE comp A → SortedE comp B →
      (mergeRef comp A B).filter (fun e => tieB comp e.2 v) =
        A.filter (fun e => tieB comp e.2 v) ++
          B.filter (fun e => tieB comp e.2 v)
  | [], B, _, _ => by rw [mergeRef]; simp
  | a :: A, [], _, _ => by rw [mergeRef]; simp
  | a :: A, b :: B, hA, hB => by
    rw [mergeRef]
    by_cases hc : comp b.2 a.2
    · rw [if_pos hc]
      rw [List.filter_cons]
      cases hbv : tieB comp b.2 v
      · simp only [Bool.false_eq_true, if_false]
        rw [filter_tie_mergeRef h v (a :: A) B hA
          (List.Pairwise.of_cons hB)]
        rw [show (b :: B).filter (fun e => tieB comp e.2 v) =
          B.filter (fun e => tieB comp e.2 v) from
          List.filter_cons_of_neg (by simp [hbv])]
      · simp only [if_true]
        have hnilA : (a :: A).filter (fun e => tieB comp e.2 v) = [] := by
          rw [List.filter_eq_nil_iff]
          intro z hz
          simp only [Bool.not_eq_true]
          cases hzv : tieB comp z.2 v
          · rfl
          · exfalso
            have hbz : tieB comp b.2 z.2 = true :=
              tieB_trans h hbv (tieB_symm hzv)
            have hza : comp z.2 a.2 = false := by
              rcases List.mem_cons.1 hz with rfl | hz2
              · exact h.irrefl _
              · exact (List.pairwise_cons.1 hA).1 z hz2
            have hbz2 : comp b.2 z.2 = true := by
              by_contra hx
              have hx2 : comp b.2 z.2 = false := by
                cases hh : comp b.2 z.2
                · rfl
                · exact absurd hh hx
              have := h.negtrans _ _ _ hx2 hza
              rw [this] at hc
              exact Bool.false_ne_true hc
            simp only [tieB, Bool.and_eq_true, Bool.not_eq_true'] at hbz
            rw [hbz.1] at hbz2
            exact Bool.false_ne_true hbz2
        rw [filter_tie_mergeRef h v (a :: A) B hA
          (List.Pairwise.of_cons hB)]
        rw [hnilA, List.filter_cons_of_pos (by simp [hbv])]
        simp
    · rw [if_neg hc]
      rw [List.filter_cons,
        filter_tie_mergeRef h v A (b :: B) (List.Pairwise.of_cons hA) hB,
        List.filter_cons]
      cases hav : tieB comp a.2 v <;> simp [hav]
  termination_by A B _ _ => A.length + B.length

/-- Merging the stable sorts of two adjacent chunks is the stable sort of
their concatenation. -/
theorem mergeRef_isortRef {V : Type} {comp : V → V → Bool} (h : SWO comp)
    (X Y : List (Elt V)) :
    mergeRef comp (isortRef comp X) (isortRef comp Y) =
      isortRef comp (X ++ Y) := by
  refine stable_sorted_unique h
    (sortedE_mergeRef h (sortedE_isortRef h X) (sortedE_isortRef h Y))
    (sortedE_isortRef h (X ++ Y)) ?_
  intro v
  rw [filter_tie_mergeRef h v _ _ (sortedE_isortRef h X)
    (sortedE_isortRef h Y)]
  rw [filter_tie_isortRef h v X, filter_tie_isortRef h v Y,
    filter_tie_isortRef h v (X ++ Y), List.filter_append]

/-! Claim C8: the merge-sort level arithmetic. -/

/-- Claim C8: for every size at least 1, with L = 64 - countl_zero(size)
(the bit length msMaxSteps) and S(k) = size >> (L - k) (msS), the chunk
sorted at merge-sort step k, S(k+1) - S(k), equals either S(k) or S(k) + 1,
and after the final step the sorted length S(L) equals size. -/
theorem merge_sort_chunk_balanced (size : Nat) (hsz : 1 ≤ size) :
    (∀ k, k < msMaxSteps size →
      msS size (k + 1) - msS size k = msS size k ∨
        msS size (k + 1) - msS size k = msS size k + 1) ∧
      msS size (msMaxSteps size) = size := by
  constructor
  · intro k hk
    have hLk : msMaxSteps size - k = (msMaxSteps size - (k + 1)) + 1 := by
      omega
    have hstep : msS size k = msS size (k + 1) / 2 := by
      rw [msS, msS, hLk, Nat.shiftRight_add]
      rfl
    have hparity : msS size (k + 1) = 2 * (msS size (k + 1) / 2) ∨
        msS size (k + 1) = 2 * (msS size (k + 1) / 2) + 1 := by
      omega
    rcases hparity with hp | hp
    · left
      rw [hstep]
      omega
    · right
      rw [hstep]
      omega
  · rw [msS, Nat.sub_self]
    rfl

/-- Witness for claim C8 at size = 100. -/
theorem merge_sort_chunk_balanced_w :
    1 ≤ 100 ∧
      ((∀ k, k < msMaxSteps 100 →
        msS 100 (k + 1) - msS 100 k = msS 100 k ∨
          msS 100 (k + 1) - msS 100 k = msS 100 k + 1) ∧
        msS 100 (msMaxSteps 100) = 100) :=
  ⟨by decide, merge_sort_chunk_balanced 100 (by decide)⟩

/-! Support lemmas for the in-place merge proof. -/

theorem suffix_getLast? {α : Type} {l1 l2 : List α}
    (h : l1 <:+ l2) (hne : l1 ≠ []) : l2.getLast? = l1.getLast? := by
  obtain ⟨t, rfl⟩ := h
  rw [List.getLast?_append]
  cases hl : l1.getLast? with
  | none => exact absurd (List.getLast?_eq_none_iff.1 hl) hne
  | some a => rfl

theorem mergeRef_length {V : Type} (comp : V → V → Bool) :
    ∀ (A B : List (Elt V)),
      (mergeRef comp A B).length = A.length + B.length
  | [], B => by simp [mergeRef]
  | a :: A, [] => by simp [mergeRef]
  | a :: A, b :: B => by
    rw [mergeRef]
    by_cases hc : comp b.2 a.2
    · rw [if_pos hc, List.length_cons, mergeRef_length comp (a :: A) B]
      simp only [List.length_cons]
      omega
    · rw [if_neg hc, List.length_cons, mergeRef_length comp A (b :: B)]
      simp only [List.length_cons]
      omega
  termination_by A B => A.length + B.length

theorem mergeRef_ne_nil {V : Type} (comp : V → V → Bool)
    {A : List (Elt V)} (B : List (Elt V)) (hA : A ≠ []) :
    mergeRef comp A B ≠ [] := by
  intro hcon
  have := mergeRef_length comp A B
  rw [hcon] at this
  simp only [List.length_nil] at this
  have : A.length = 0 := by omega
  exact hA (List.length_eq_zero.1 this)

theorem sortedE_last_ge {V : Type} {comp : V → V → Bool} (h : SWO comp)
    {l : List (Elt V)} {m : Elt V} (hs : SortedE comp l)
    (hl : l.getLast? = some m) : ∀ x ∈ l, comp m.2 x.2 = false := by
  obtain ⟨ys, rfl⟩ := List.getLast?_eq_some_iff.1 hl
  intro x hx
  rcases List.mem_append.1 hx with hx | hx
  · have := (List.pairwise_append.1 hs).2.2 x hx m (by simp)
    exact this
  · rcases List.mem_singleton.1 hx with rfl
    exact h.irrefl _

theorem head_last_tag_unique {V : Type} {A : List (Elt V)} {x m : Elt V}
    (hn : (A.map Prod.fst).Nodup) (hh : A.head? = some x)
    (hl : A.getLast? = some m) (ht : x.1 = m.1) : A = [m] := by
  cases A with
  | nil => simp at hh
  | cons a rest =>
    simp only [List.head?_cons, Option.some.injEq] at hh
    subst hh
    cases rest with
    | nil =>
      simp only [List.getLast?_singleton, Option.some.injEq] at hl
      subst hl
      rfl
    | cons b rest2 =>
      exfalso
      rw [List.getLast?_cons_cons] at hl
      have hm : m ∈ b :: rest2 := List.mem_of_getLast?_eq_some hl
      simp only [List.map_cons, List.nodup_cons] at hn
      exact hn.1 (ht ▸ List.mem_map_of_mem Prod.fst hm)

/-- Correctness of the main loop of coinplace_merge_splice: with both sides
sorted, when the current right cursor is strictly below the middle element
and not below the current left cursor (the loop invariants of the source),
the loop produces the prefix D followed by the conventional stable merge of
the two remaining chains, and returns the iterator to the last element of
the merge. -/
theorem cmsLoop_eq {V : Type} [Inhabited V] {comp : V → V → Bool}
    (h : SWO comp) :
    ∀ (n : Nat) (B : List (Elt V)), B.length < n →
      ∀ (D A : List (Elt V)) (rhs midE lastE : Elt V),
      A.getLast? = some midE → SortedE comp A →
      SortedE comp (rhs :: B) →
      comp rhs.2 midE.2 = true →
      (∀ a0, A.head? = some a0 → comp rhs.2 a0.2 = false ∧ a0.1 ≠ midE.1) →
      (A.map Prod.fst).Nodup →
      (rhs :: B).getLast? = some lastE →
      cmsLoop comp midE lastE D A rhs B =
        (D ++ mergeRef comp A (rhs :: B),
          (mergeRef comp A (rhs :: B)).getLastD default) := by
  intro n
  induction n with
  | zero => intro B hB; omega
  | succ n ih =>
    intro B hBlen D A rhs midE lastE hAlast hAs hBs hrm hhead hnd hlastE
    have hAne : A ≠ [] := by
      intro hcon
      rw [hcon] at hAlast
      simp at hAlast
    obtain ⟨a0, arest, rfl⟩ : ∃ a0 arest, A = a0 :: arest := by
      cases A with
      | nil => exact absurd rfl hAne
      | cons x xs => exact ⟨x, xs, rfl⟩
    obtain ⟨hr0, ht0⟩ := hhead a0 (by simp)
    have harest : arest ≠ [] := by
      intro hcon
      subst hcon
      simp only [List.getLast?_singleton, Option.some.injEq] at hAlast
      exact ht0 (by rw [hAlast])
    have harlast : arest.getLast? = some midE := by
      cases arest with
      | nil => exact absurd rfl harest
      | cons x xs => rwa [List.getLast?_cons_cons] at hAlast
    have hA2ne : arest.dropWhile (fun a => !(comp rhs.2 a.2)) ≠ [] := by
      intro hcon
      have hall : arest = arest.takeWhile (fun a => !(comp rhs.2 a.2)) := by
        conv_lhs => rw [← List.takeWhile_append_dropWhile
          (fun a => !(comp rhs.2 a.2)) arest]
        rw [hcon, List.append_nil]
      have hmidmem : midE ∈ arest := List.mem_of_getLast?_eq_some harlast
      have hmem2 : midE ∈ arest.takeWhile (fun a => !(comp rhs.2 a.2)) := by
        rw [← hall]
        exact hmidmem
      have h3 := List.mem_takeWhile_imp hmem2
      simp [hrm] at h3
    rw [cmsLoop]
    split
    · next heqA => exact absurd heqA hA2ne
    · next l1 A2t heqA =>
      have hsplit : arest =
          arest.takeWhile (fun a => !(comp rhs.2 a.2)) ++ l1 :: A2t := by
        conv_lhs => rw [← List.takeWhile_append_dropWhile
          (fun a => !(comp rhs.2 a.2)) arest]
        rw [heqA]
      have hl1 : comp rhs.2 l1.2 = true := by
        have := dropWhile_head_false heqA
        simpa using this
      have hext : ∀ x ∈ a0 :: arest.takeWhile (fun a => !(comp rhs.2 a.2)),
          comp rhs.2 x.2 = false := by
        intro x hx
        rcases List.mem_cons.1 hx with rfl | hx
        · exact hr0
        · have h4 := List.mem_takeWhile_imp hx
          simp only [Bool.not_eq_true'] at h4
          exact h4
      have hA2suffix : (l1 :: A2t) <:+ arest := by
        rw [← heqA]
        exact List.dropWhile_suffix _
      have hA2last : (l1 :: A2t).getLast? = some midE := by
        rw [← suffix_getLast? hA2suffix (by simp)]
        exact harlast
      have hA2s : SortedE comp (l1 :: A2t) := by
        refine sortedE_sublist ?_ hAs
        exact List.Sublist.cons a0 hA2suffix.sublist
      have hndA2 : ((l1 :: A2t).map Prod.fst).Nodup := by
        refine List.Nodup.sublist ?_ hnd
        exact List.Sublist.map Prod.fst (List.Sublist.cons a0 hA2suffix.sublist)
      have hrun : ∀ y ∈ rhs :: B.takeWhile (fun b => comp b.2 l1.2),
          comp y.2 l1.2 = true := by
        intro y hy
        rcases List.mem_cons.1 hy with rfl | hy
        · exact hl1
        · have h5 := List.mem_takeWhile_imp hy
          exact h5
      have hmu : mergeRef comp (a0 :: arest) (rhs :: B) =
          (a0 :: arest.takeWhile (fun a => !(comp rhs.2 a.2))) ++
            ((rhs :: B.takeWhile (fun b => comp b.2 l1.2)) ++
              mergeRef comp (l1 :: A2t)
                (B.dropWhile (fun b => comp b.2 l1.2))) := by
        conv_lhs => rw [show a0 :: arest =
          (a0 :: arest.takeWhile (fun a => !(comp rhs.2 a.2))) ++
            (l1 :: A2t) from by rw [List.cons_append, ← hsplit]]
        rw [mergeRef_takeLeft comp rhs B _ _ hext]
        conv_lhs => rw [show rhs :: B =
          (rhs :: B.takeWhile (fun b => comp b.2 l1.2)) ++
            B.dropWhile (fun b => comp b.2 l1.2) from by
          rw [List.cons_append, List.takeWhile_append_dropWhile]]
        rw [mergeRef_takeRight comp l1 A2t _ _ hrun]
      split
      · next heqB =>
        rw [heqB, mergeRef_nil_right] at hmu
        simp only [Prod.mk.injEq]
        constructor
        · rw [hmu]
          simp [List.append_assoc]
        · rw [hmu]
          rw [List.getLastD_eq_getLast?, List.getLast?_append,
            List.getLast?_append, hA2last]
          rfl
      · next r1 B2t heqB =>
        have hr1l1 : comp r1.2 l1.2 = false := by
          have h7 := dropWhile_head_false heqB
          exact h7
        have hB2suffix : (r1 :: B2t) <:+ B := by
          rw [← heqB]
          exact List.dropWhile_suffix _
        have hlastB2 : (r1 :: B2t).getLast? = some lastE := by
          rw [← suffix_getLast? hB2suffix (by simp)]
          cases B with
          | nil => simp at heqB
          | cons b bb => rwa [List.getLast?_cons_cons] at hlastE
        rw [heqB] at hmu
        by_cases hex : l1.1 = midE.1 ∨ comp r1.2 midE.2 = false
        · rw [if_pos hex]
          have hmerge2 : mergeRef comp (l1 :: A2t) (r1 :: B2t) =
              (l1 :: A2t) ++ (r1 :: B2t) := by
            rcases hex with hex | hex
            · have hone : (l1 :: A2t) = [midE] :=
                head_last_tag_unique hndA2 (by simp) hA2last hex
              have hl1m : l1 = midE := by
                have := hone
                simp only [List.cons.injEq] at this
                exact this.1
              rw [hone]
              rw [mergeRef, if_neg (by rw [← hl1m, hr1l1]; simp), mergeRef]
              rfl
            · have hall2 : ∀ x ∈ l1 :: A2t, comp r1.2 x.2 = false := by
                intro x hx
                have hmx := sortedE_last_ge h hA2s hA2last x hx
                exact h.negtrans _ _ _ hex hmx
              have h6 := mergeRef_takeLeft comp r1 B2t (l1 :: A2t) [] hall2
              rw [List.append_nil] at h6
              rw [h6, mergeRef]
          simp only [Prod.mk.injEq]
          constructor
          · rw [hmu, hmerge2]
            simp [List.append_assoc]
          · rw [hmu, hmerge2]
            rw [List.getLastD_eq_getLast?, List.getLast?_append,
              List.getLast?_append, List.getLast?_append, hlastB2]
            rfl
        · rw [if_neg hex]
          push_neg at hex
          obtain ⟨htag, hr1m⟩ := hex
          have hr1m2 : comp r1.2 midE.2 = true := by
            cases hx : comp r1.2 midE.2
            · exact absurd hx hr1m
            · rfl
          have hB2len : B2t.length < n := by
            have := List.Sublist.length_le (List.IsSuffix.sublist hB2suffix)
            simp only [List.length_cons] at this
            omega
          have hrec := ih B2t hB2len
            (D ++ (a0 :: arest.takeWhile (fun a => !(comp rhs.2 a.2))) ++
              (rhs :: B.takeWhile (fun b => comp b.2 l1.2)))
            (l1 :: A2t) r1 midE lastE hA2last hA2s
            (sortedE_sublist
              (List.Sublist.cons rhs (List.IsSuffix.sublist hB2suffix)) hBs)
            hr1m2
            (by
              intro x hx
              simp only [List.head?_cons, Option.some.injEq] at hx
              subst hx
              exact ⟨hr1l1, htag⟩)
            hndA2 hlastB2
          rw [hrec]
          have hne2 : mergeRef comp (l1 :: A2t) (r1 :: B2t) ≠ [] :=
            mergeRef_ne_nil comp _ (by simp)
          simp only [Prod.mk.injEq]
          constructor
          · rw [hmu]
            simp [List.append_assoc]
          · rw [hmu]
            rw [List.getLastD_eq_getLast?, List.getLastD_eq_getLast?,
              List.getLast?_append, List.getLast?_append]
            cases hml : (mergeRef comp (l1 :: A2t) (r1 :: B2t)).getLast? with
            | none => exact absurd (List.getLast?_eq_none_iff.1 hml) hne2
            | some z => rfl

theorem getLast?_eq_getLastD {α : Type} [Inhabited α] {l : List α}
    (h : l ≠ []) : l.getLast? = some (l.getLastD default) := by
  cases hl : l.getLast? with
  | none => exact absurd (List.getLast?_eq_none_iff.1 hl) h
  | some a =>
    rw [List.getLastD_eq_getLast?, hl]
    rfl

theorem intComp_swo : SWO intComp := by
  constructor
  · intro x
    simp [intComp]
  · intro x y hxy
    simp only [intComp, decide_eq_true_eq] at hxy
    simp only [intComp, decide_eq_false_iff_not]
    omega
  · intro x y z hxy hyz
    simp only [intComp, decide_eq_false_iff_not] at hxy hyz
    simp only [intComp, decide_eq_false_iff_not]
    omega

/-- The full correctness of the coinplace merge: on sorted inputs with a
nonempty left side it produces the conventional stable merge together with
the iterator to its last element, and the result is sorted. -/
theorem coinplace_merge_spec {V : Type} [Inhabited V]
    {comp : V → V → Bool} (h : SWO comp) (A B : List (Elt V))
    (hAne : A ≠ []) (hAs : SortedE comp A) (hBs : SortedE comp B)
    (hnd : ((A ++ B).map Prod.fst).Nodup) :
    coinplace_merge_splice_list comp A B =
      (mergeRef comp A B, (mergeRef comp A B).getLastD default) ∧
      SortedE comp (mergeRef comp A B) := by
  refine ⟨?_, sortedE_mergeRef h hAs hBs⟩
  have hAlast : A.getLast? = some (A.getLastD default) :=
    getLast?_eq_getLastD hAne
  have hndA : (A.map Prod.fst).Nodup := by
    rw [List.map_append] at hnd
    exact List.Nodup.of_append_left hnd
  cases B with
  | nil =>
    simp only [coinplace_merge_splice_list.eq_def]
    rw [mergeRef_nil_right]
  | cons rhs Btail =>
    simp only [coinplace_merge_splice_list.eq_def]
    have hBlast : (rhs :: Btail).getLast? =
        some ((rhs :: Btail).getLastD default) :=
      getLast?_eq_getLastD (by simp)
    by_cases hopt : comp rhs.2 (A.getLastD default).2 = false
    · -- the optimistic already-sorted short circuit
      rw [if_pos hopt]
      have hallA : ∀ x ∈ A, comp rhs.2 x.2 = false := by
        intro x hx
        exact h.negtrans _ _ _ hopt (sortedE_last_ge h hAs hAlast x hx)
      have hm : mergeRef comp A (rhs :: Btail) = A ++ rhs :: Btail := by
        have h6 := mergeRef_takeLeft comp rhs Btail A [] hallA
        rw [List.append_nil] at h6
        rw [h6, mergeRef]
      rw [hm]
      simp only [Prod.mk.injEq, true_and]
      simp only [List.getLastD_eq_getLast?]
      rw [List.getLast?_append, hBlast]
      rfl
    · rw [if_neg hopt]
      have hrm : comp rhs.2 (A.getLastD default).2 = true := by
        cases hx : comp rhs.2 (A.getLastD default).2
        · exact absurd hx hopt
        · rfl
      obtain ⟨lhs, arest, rfl⟩ : ∃ lhs arest, A = lhs :: arest := by
        cases A with
        | nil => exact absurd rfl hAne
        | cons x xs => exact ⟨x, xs, rfl⟩
      dsimp only
      by_cases hc0 : comp rhs.2 lhs.2 = true
      · rw [if_pos hc0]
        -- the initial front splice
        have hrun : ∀ y ∈ rhs :: Btail.takeWhile (fun b => comp b.2 lhs.2),
            comp y.2 lhs.2 = true := by
          intro y hy
          rcases List.mem_cons.1 hy with rfl | hy
          · exact hc0
          · have h5 := List.mem_takeWhile_imp hy
            exact h5
        have hmu : mergeRef comp (lhs :: arest) (rhs :: Btail) =
            (rhs :: Btail.takeWhile (fun b => comp b.2 lhs.2)) ++
              mergeRef comp (lhs :: arest)
                (Btail.dropWhile (fun b => comp b.2 lhs.2)) := by
          conv_lhs => rw [show rhs :: Btail =
            (rhs :: Btail.takeWhile (fun b => comp b.2 lhs.2)) ++
              Btail.dropWhile (fun b => comp b.2 lhs.2) from by
            rw [List.cons_append, List.takeWhile_append_dropWhile]]
          rw [mergeRef_takeRight comp lhs arest _ _ hrun]
        split
        · next heqB =>
          rw [heqB, mergeRef_nil_right] at hmu
          rw [hmu]
          simp only [Prod.mk.injEq, true_and]
          simp only [List.getLastD_eq_getLast?]
          rw [List.getLast?_append, hAlast]
          rfl
        · next r1 B2t heqB =>
          rw [heqB] at hmu
          have hr1l1 : comp r1.2 lhs.2 = false := by
            have h7 := dropWhile_head_false heqB
            exact h7
          have hB2suffix : (r1 :: B2t) <:+ Btail := by
            rw [← heqB]
            exact List.dropWhile_suffix _
          have hlastB2 : (r1 :: B2t).getLast? =
              some ((rhs :: Btail).getLastD default) := by
            rw [← suffix_getLast? hB2suffix (by simp)]
            cases Btail with
            | nil => simp at heqB
            | cons b bb => rwa [List.getLast?_cons_cons] at hBlast
          by_cases hex : lhs.1 = ((lhs :: arest).getLastD default).1 ∨
              comp r1.2 ((lhs :: arest).getLastD default).2 = false
          · rw [if_pos hex]
            have hmerge2 : mergeRef comp (lhs :: arest) (r1 :: B2t) =
                (lhs :: arest) ++ (r1 :: B2t) := by
              rcases hex with hex | hex
              · have hone : (lhs :: arest) = [(lhs :: arest).getLastD
                    default] :=
                  head_last_tag_unique hndA (by simp) hAlast hex
                have hl1m : lhs = (lhs :: arest).getLastD default := by
                  have := hone
                  simp only [List.cons.injEq] at this
                  exact this.1
                rw [hone]
                rw [mergeRef, if_neg (by rw [← hl1m, hr1l1]; simp), mergeRef]
                rfl
              · have hall2 : ∀ x ∈ lhs :: arest, comp r1.2 x.2 = false := by
                  intro x hx
                  have hmx := sortedE_last_ge h hAs hAlast x hx
                  exact h.negtrans _ _ _ hex hmx
                have h6 := mergeRef_takeLeft comp r1 B2t (lhs :: arest) []
                  hall2
                rw [List.append_nil] at h6
                rw [h6, mergeRef]
            rw [hmu, hmerge2]
            simp only [Prod.mk.injEq]
            constructor
            · simp [List.append_assoc]
            · simp only [List.getLastD_eq_getLast?]
              rw [List.getLast?_append, List.getLast?_append, hlastB2]
              rfl
          · rw [if_neg hex]
            push_neg at hex
            obtain ⟨htag, hr1m⟩ := hex
            have hr1m2 : comp r1.2 ((lhs :: arest).getLastD default).2 =
                true := by
              cases hx : comp r1.2 ((lhs :: arest).getLastD default).2
              · exact absurd hx hr1m
              · rfl
            have hrec := cmsLoop_eq h (B2t.length + 1) B2t (by omega)
              (rhs :: Btail.takeWhile (fun b => comp b.2 lhs.2))
              (lhs :: arest) r1 ((lhs :: arest).getLastD default)
              ((rhs :: Btail).getLastD default) hAlast hAs
              (sortedE_sublist
                (List.Sublist.cons rhs (List.IsSuffix.sublist hB2suffix))
                hBs)
              hr1m2
              (by
                intro x hx
                simp only [List.head?_cons, Option.some.injEq] at hx
                subst hx
                exact ⟨hr1l1, htag⟩)
              hndA hlastB2
            rw [hrec, hmu]
            have hne2 : mergeRef comp (lhs :: arest) (r1 :: B2t) ≠ [] :=
              mergeRef_ne_nil comp _ (by simp)
            simp only [Prod.mk.injEq, true_and]
            simp only [List.getLastD_eq_getLast?]
            rw [List.getLast?_append]
            cases hml : (mergeRef comp (lhs :: arest) (r1 :: B2t)).getLast?
              with
            | none => exact absurd (List.getLast?_eq_none_iff.1 hml) hne2
            | some z => rfl
      · rw [if_neg hc0]
        have hc0f : comp rhs.2 lhs.2 = false := by
          cases hx : comp rhs.2 lhs.2
          · rfl
          · exact absurd hx hc0
        have htag : lhs.1 ≠ ((lhs :: arest).getLastD default).1 := by
          intro hcon
          have hone : (lhs :: arest) = [(lhs :: arest).getLastD default] :=
            head_last_tag_unique hndA (by simp) hAlast hcon
          have hl1m : lhs = (lhs :: arest).getLastD default := by
            have := hone
            simp only [List.cons.injEq] at this
            exact this.1
          rw [← hl1m] at hrm
          rw [hrm] at hc0f
          simp at hc0f
        have hrec := cmsLoop_eq h (Btail.length + 1) Btail (by omega)
          [] (lhs :: arest) rhs ((lhs :: arest).getLastD default)
          ((rhs :: Btail).getLastD default) hAlast hAs hBs hrm
          (by
            intro x hx
            simp only [List.head?_cons, Option.some.injEq] at hx
            subst hx
            exact ⟨hc0f, htag⟩)
          hndA hBlast
        rw [hrec]
        simp

/-- Claim C3: coinplace_merge_splice, applied to a corange (left, right]
split into sorted sub-coranges (left, mid] (content A, nonempty since mid
lies in (left, right]) and (mid, right] (content B, empty exactly when
mid = right, the short-circuited boundary case), produces the conventional
stable merge of the two sides (ties from the left side precede ties from
the right side, by definition of mergeRef), makes the resulting corange
sorted, and returns the iterator to the last element of the merged
corange. -/
theorem coinplace_merge_splice_ok {V : Type} [Inhabited V]
    {comp : V → V → Bool} (h : SWO comp) (A B : List (Elt V))
    (hAne : A ≠ []) (hAs : SortedE comp A) (hBs : SortedE comp B)
    (hnd : ((A ++ B).map Prod.fst).Nodup) :
    coinplace_merge_splice_list comp A B =
      (mergeRef comp A B, (mergeRef comp A B).getLastD default) ∧
      SortedE comp (mergeRef comp A B) :=
  coinplace_merge_spec h A B hAne hAs hBs hnd

/-- Witness for claim C3: merging the sorted coranges holding 1,3 and 2,4. -/
theorem coinplace_merge_splice_ok_w :
    coinplace_merge_splice_list intComp [(0, (1 : Int)), (1, 3)]
        [(2, 2), (3, 4)] =
      (mergeRef intComp [(0, (1 : Int)), (1, 3)] [(2, 2), (3, 4)],
        (mergeRef intComp [(0, (1 : Int)), (1, 3)]
          [(2, 2), (3, 4)]).getLastD default) ∧
      SortedE intComp
        (mergeRef intComp [(0, (1 : Int)), (1, 3)] [(2, 2), (3, 4)]) :=
  coinplace_merge_splice_ok intComp_swo _ _ (by simp)
    (by simp [SortedE, intComp]) (by simp [SortedE, intComp]) (by simp)

/-! Claim C4 and C9: the insertion sort loop. -/

/-- The insertion loop inserts each traversed element into the sorted
region exactly as the reference stable insertion does, keeps the
untraversed chain untouched, and returns the iterator to the last element
of the sorted region. -/
theorem issLoop_correct {V : Type} {comp : V → V → Bool} (h : SWO comp) :
    ∀ (n : Nat) (rest S : List (Elt V)) (first lhs : Elt V),
      n ≤ rest.length → SortedE comp S →
      S.head? = some first → S.getLast? = some lhs →
      ∃ k lhsF, issLoop comp S first lhs rest n =
        (insAll comp S (rest.take n) ++ rest.drop n, some lhsF, k) ∧
        (insAll comp S (rest.take n)).getLast? = some lhsF := by
  intro n
  induction n with
  | zero =>
    intro rest S first lhs _ _ _ hlast
    refine ⟨0, lhs, ?_, ?_⟩
    · rw [issLoop]
      simp [insAll]
    · simpa [insAll] using hlast
  | succ n ih =>
    intro rest S first lhs hlen hs hhead hlast
    obtain ⟨rhs, rest2, rfl⟩ : ∃ rhs rest2, rest = rhs :: rest2 := by
      cases rest with
      | nil => simp at hlen
      | cons x xs => exact ⟨x, xs, rfl⟩
    obtain ⟨s0, S2, rfl⟩ : ∃ s0 S2, S = s0 :: S2 := by
      cases S with
      | nil => simp at hhead
      | cons x xs => exact ⟨x, xs, rfl⟩
    simp only [List.head?_cons, Option.some.injEq] at hhead
    subst hhead
    have hlen2 : n ≤ rest2.length := by
      simp only [List.length_cons] at hlen
      omega
    have hSne : (s0 :: S2) ≠ [] := by simp
    rw [issLoop]
    by_cases hb1 : comp rhs.2 lhs.2 = false
    · -- fast forward: the element extends the sorted region at its end
      rw [if_pos (by simp [hb1])]
      have hins : insortL comp rhs (s0 :: S2) = (s0 :: S2) ++ [rhs] :=
        insortL_eq_append comp rhs (s0 :: S2)
          (fun y hy => h.negtrans _ _ _ hb1 (sortedE_last_ge h hs hlast y hy))
      have hs2 : SortedE comp ((s0 :: S2) ++ [rhs]) := by
        rw [← hins]
        exact sortedE_insortL h rhs hs
      obtain ⟨k, lhsF, hres, hlastF⟩ := ih rest2 ((s0 :: S2) ++ [rhs])
        s0 rhs hlen2 hs2 (by simp) (by rw [List.getLast?_concat])
      refine ⟨k, lhsF, ?_, ?_⟩
      · rw [hres, List.take_succ_cons, insAll_cons, hins,
          List.drop_succ_cons]
      · rw [← hlastF, List.take_succ_cons, insAll_cons, hins]
    · have hb1t : comp rhs.2 lhs.2 = true := by
        cases hx : comp rhs.2 lhs.2
        · exact absurd hx hb1
        · rfl
      rw [if_neg (by simp [hb1t])]
      by_cases hb2 : comp rhs.2 s0.2 = true
      · -- splice to the front
        rw [if_pos hb2]
        have hins : insortL comp rhs (s0 :: S2) = rhs :: s0 :: S2 := by
          rw [insortL, if_pos hb2]
        have hs2 : SortedE comp (rhs :: s0 :: S2) := by
          rw [← hins]
          exact sortedE_insortL h rhs hs
        have hlast2 : (rhs :: s0 :: S2).getLast? = some lhs := by
          rw [List.getLast?_cons_cons]
          exact hlast
        obtain ⟨k, lhsF, hres, hlastF⟩ := ih rest2 (rhs :: s0 :: S2)
          rhs lhs hlen2 hs2 (by simp) hlast2
        rw [hres]
        dsimp only
        refine ⟨k + 1, lhsF, ?_, ?_⟩
        · rw [List.take_succ_cons, insAll_cons, hins, List.drop_succ_cons]
        · rw [← hlastF, List.take_succ_cons, insAll_cons, hins]
      · -- scan the sorted region for the insertion point
        rw [if_neg hb2]
        have hS2ne : S2 ≠ [] := by
          intro hcon
          subst hcon
          simp only [List.getLast?_singleton, Option.some.injEq] at hlast
          subst hlast
          rw [hb1t] at hb2
          exact hb2 rfl
        have hlastS2 : S2.getLast? = some lhs := by
          cases S2 with
          | nil => exact absurd rfl hS2ne
          | cons x xs => rwa [List.getLast?_cons_cons] at hlast
        have hins : insortL comp rhs (s0 :: S2) =
            s0 :: (S2.takeWhile (fun y => !(comp rhs.2 y.2)) ++
              rhs :: S2.dropWhile (fun y => !(comp rhs.2 y.2))) := by
          rw [insortL, if_neg (by simp [hb2]), insortL_eq_takeDrop]
        have hsflast : (S2.dropWhile
            (fun y => !(comp rhs.2 y.2))).getLast? = some lhs :=
          dropWhile_getLast? hlastS2 (by simp [hb1t])
        have hs2 : SortedE comp (s0 :: (S2.takeWhile
            (fun y => !(comp rhs.2 y.2)) ++
              rhs :: S2.dropWhile (fun y => !(comp rhs.2 y.2)))) := by
          rw [← hins]
          exact sortedE_insortL h rhs hs
        have hlast2 : (s0 :: (S2.takeWhile (fun y => !(comp rhs.2 y.2)) ++
            rhs :: S2.dropWhile (fun y => !(comp rhs.2 y.2)))).getLast? =
              some lhs := by
          rw [show s0 :: (S2.takeWhile (fun y => !(comp rhs.2 y.2)) ++
            rhs :: S2.dropWhile (fun y => !(comp rhs.2 y.2))) =
              (s0 :: S2.takeWhile (fun y => !(comp rhs.2 y.2)) ++
                [rhs]) ++ S2.dropWhile (fun y => !(comp rhs.2 y.2)) from by
            simp]
          rw [List.getLast?_append, hsflast]
          rfl
        obtain ⟨k, lhsF, hres, hlastF⟩ := ih rest2 _ s0 lhs hlen2 hs2
          (by simp) hlast2
        rw [hres]
        dsimp only
        refine ⟨k + 1, lhsF, ?_, ?_⟩
        · rw [List.take_succ_cons, insAll_cons, hins, List.drop_succ_cons]
        · rw [← hlastF, List.take_succ_cons, insAll_cons, hins]
/-- Inserting a concatenation is inserting the two parts in order. -/
theorem insAll_append {V : Type} (comp : V → V → Bool)
    (acc l1 l2 : List (Elt V)) :
    insAll comp acc (l1 ++ l2) = insAll comp (insAll comp acc l1) l2 := by
  simp [insAll, List.foldl_append]

/-- On an already sorted chain every loop step takes the fast-forward
branch: no cosplice happens and the chain is left untouched. -/
theorem issLoop_sorted {V : Type} {comp : V → V → Bool} (h : SWO comp) :
    ∀ (n : Nat) (rest S : List (Elt V)) (first lhs : Elt V),
      n ≤ rest.length → S ≠ [] →
      S.getLast? = some lhs →
      SortedE comp (S ++ rest.take n) →
      ∃ lhsF, issLoop comp S first lhs rest n = (S ++ rest, some lhsF, 0) ∧
        (S ++ rest.take n).getLast? = some lhsF := by
  intro n
  induction n with
  | zero =>
    intro rest S first lhs _ hne hlast _
    refine ⟨lhs, ?_, ?_⟩
    · rw [issLoop]
    · simpa using hlast
  | succ n ih =>
    intro rest S first lhs hlen hne hlast hs
    obtain ⟨rhs, rest2, rfl⟩ : ∃ rhs rest2, rest = rhs :: rest2 := by
      cases rest with
      | nil => simp at hlen
      | cons x xs => exact ⟨x, xs, rfl⟩
    obtain ⟨s0, S2, rfl⟩ : ∃ s0 S2, S = s0 :: S2 := by
      cases S with
      | nil => exact absurd rfl hne
      | cons x xs => exact ⟨x, xs, rfl⟩
    have hlen2 : n ≤ rest2.length := by
      simp only [List.length_cons] at hlen
      omega
    have hmem : lhs ∈ s0 :: S2 := List.mem_of_getLast?_eq_some hlast
    have hb1 : comp rhs.2 lhs.2 = false := by
      rw [List.take_succ_cons] at hs
      exact (List.pairwise_append.1 hs).2.2 lhs hmem rhs (by simp)
    rw [issLoop, if_pos (by simp [hb1])]
    have hs2 : SortedE comp (((s0 :: S2) ++ [rhs]) ++ rest2.take n) := by
      rw [List.take_succ_cons] at hs
      rw [List.append_assoc, List.singleton_append]
      exact hs
    obtain ⟨lhsF, hres, hlastF⟩ := ih rest2 ((s0 :: S2) ++ [rhs]) first rhs
      hlen2 (by simp) (List.getLast?_concat _) hs2
    refine ⟨lhsF, ?_, ?_⟩
    · rw [hres]
      simp
    · rw [← hlastF, List.take_succ_cons]
      rw [List.append_assoc, List.singleton_append]

/-- The full correctness of the insertion sort entry point: the corange of
the first count elements becomes its reference stable sort, the rest is
untouched, and the returned iterator is the last sorted element. -/
theorem insertion_sort_spec {V : Type} {comp : V → V → Bool}
    (h : SWO comp) (l : List (Elt V)) (count : Nat)
    (hcount : count ≤ l.length) :
    (insertion_sort_splice_list comp l count).1 =
        isortRef comp (l.take count) ++ l.drop count ∧
      SortedE comp (isortRef comp (l.take count)) ∧
      (∀ v, (insertion_sort_splice_list comp l count).1.filter
          (fun e => tieB comp e.2 v) =
        l.filter (fun e => tieB comp e.2 v)) ∧
      (insertion_sort_splice_list comp l count).2.1 =
        (if count = 0 then l.head?
          else (isortRef comp (l.take count)).getLast?) ∧
      (count ≤ 1 → (insertion_sort_splice_list comp l count).2.2 = 0) := by
  have hsorted := sortedE_isortRef h (l.take count)
  have hstable : ∀ res : List (Elt V),
      res = isortRef comp (l.take count) ++ l.drop count →
      ∀ v, res.filter (fun e => tieB comp e.2 v) =
        l.filter (fun e => tieB comp e.2 v) := by
    intro res hres v
    rw [hres, List.filter_append, filter_tie_isortRef h v,
      ← List.filter_append, List.take_append_drop]
  by_cases hsmall : count < 2
  · -- the size < 2 early return
    have heq : insertion_sort_splice_list comp l count = (l, l.head?, 0) := by
      rw [insertion_sort_splice_list.eq_def, if_pos hsmall]
    rw [heq]
    interval_cases count
    · refine ⟨by simp [isortRef, insAll], hsorted, ?_, by simp, by simp⟩
      intro v
      exact hstable l (by simp [isortRef, insAll]) v
    · obtain ⟨e1, tl, rfl⟩ : ∃ e1 tl, l = e1 :: tl := by
        cases l with
        | nil => simp at hcount
        | cons x xs => exact ⟨x, xs, rfl⟩
      have h1 : isortRef comp ((e1 :: tl).take 1) = [e1] := by
        simp [isortRef, insAll, insortL]
      refine ⟨?_, hsorted, ?_, ?_, by simp⟩
      · rw [h1]
        simp
      · intro v
        refine hstable (e1 :: tl) ?_ v
        rw [h1]
        simp
      · rw [h1]
        simp
  · -- the main path: at least two elements
    push_neg at hsmall
    obtain ⟨e1, e2, rest, rfl⟩ : ∃ e1 e2 rest, l = e1 :: e2 :: rest := by
      cases l with
      | nil => simp at hcount; omega
      | cons x xs =>
        cases xs with
        | nil => simp at hcount; omega
        | cons y ys => exact ⟨x, y, ys, rfl⟩
    have hlen2 : count - 2 ≤ rest.length := by
      simp only [List.length_cons] at hcount
      omega
    have htake : (e1 :: e2 :: rest).take count =
        e1 :: e2 :: rest.take (count - 2) := by
      obtain ⟨m, rfl⟩ : ∃ m, count = m + 2 := ⟨count - 2, by omega⟩
      rw [List.take_succ_cons, List.take_succ_cons]
      simp
    have hdrop : (e1 :: e2 :: rest).drop count = rest.drop (count - 2) := by
      obtain ⟨m, rfl⟩ : ∃ m, count = m + 2 := ⟨count - 2, by omega⟩
      rw [List.drop_succ_cons, List.drop_succ_cons]
      simp
    rw [insertion_sort_splice_list.eq_def, if_neg (by omega)]
    dsimp only
    have hisort2 : ∀ S : List (Elt V),
        S = insAll comp [] [e1, e2] →
        insAll comp S (rest.take (count - 2)) =
          isortRef comp ((e1 :: e2 :: rest).take count) := by
      intro S hS
      rw [htake, isortRef]
      rw [show e1 :: e2 :: rest.take (count - 2) =
        [e1, e2] ++ rest.take (count - 2) from rfl]
      rw [insAll_append, ← hS]
    by_cases hc : comp e2.2 e1.2 = false
    · -- ascending first pair
      rw [if_pos (by simp [hc])]
      have hS : insAll comp [] [e1, e2] = [e1, e2] := by
        simp [insAll, insortL, hc]
      obtain ⟨k, lhsF, hres, hlastF⟩ := issLoop_correct h (count - 2) rest
        [e1, e2] e1 e2 hlen2
        (by
          refine List.pairwise_cons.2 ⟨?_, List.pairwise_singleton _ _⟩
          intro z hz
          rcases List.mem_singleton.1 hz with rfl
          exact hc)
        (by simp) (by simp)
      rw [hres]
      have hfin := hisort2 [e1, e2] hS.symm
      refine ⟨?_, hsorted, ?_, ?_, fun hle => absurd hle (by omega)⟩
      · rw [hfin, hdrop]
      · intro v
        refine hstable _ ?_ v
        rw [hfin, hdrop]
      · rw [if_neg (by omega), ← hfin]
        exact hlastF.symm
    · -- descending first pair: one splice
      have hct : comp e2.2 e1.2 = true := by
        cases hx : comp e2.2 e1.2
        · exact absurd hx hc
        · rfl
      rw [if_neg (by simp [hct])]
      have hS : insAll comp [] [e1, e2] = [e2, e1] := by
        simp [insAll, insortL, hct]
      obtain ⟨k, lhsF, hres, hlastF⟩ := issLoop_correct h (count - 2) rest
        [e2, e1] e2 e1 hlen2
        (by
          refine List.pairwise_cons.2 ⟨?_, List.pairwise_singleton _ _⟩
          intro z hz
          rcases List.mem_singleton.1 hz with rfl
          exact h.asymm _ _ hct)
        (by simp) (by simp)
      rw [hres]
      dsimp only
      have hfin := hisort2 [e2, e1] hS.symm
      refine ⟨?_, hsorted, ?_, ?_, fun hle => absurd hle (by omega)⟩
      · rw [hfin, hdrop]
      · intro v
        refine hstable _ ?_ v
        rw [hfin, hdrop]
      · rw [if_neg (by omega), ← hfin]
        exact hlastF.symm

/-- Claim C4: insertion_sort_splice sorts the corange of the first count
elements stably: the resulting content is the reference stable sort of the
corange followed by the untouched outside, the sorted part is sorted, the
tie classes keep their original relative order, the returned iterator is
the last element of the sorted corange (or the position immediately after
the left limit when count is 0, encoded by the head of the untouched
chain), and counts 0 and 1 perform no cosplice relocation. -/
theorem insertion_sort_splice_ok {V : Type} {comp : V → V → Bool}
    (h : SWO comp) (l : List (Elt V)) (count : Nat)
    (hcount : count ≤ l.length) :
    (insertion_sort_splice_list comp l count).1 =
        isortRef comp (l.take count) ++ l.drop count ∧
      SortedE comp (isortRef comp (l.take count)) ∧
      (∀ v, (insertion_sort_splice_list comp l count).1.filter
          (fun e => tieB comp e.2 v) =
        l.filter (fun e => tieB comp e.2 v)) ∧
      (insertion_sort_splice_list comp l count).2.1 =
        (if count = 0 then l.head?
          else (isortRef comp (l.take count)).getLast?) ∧
      (count ≤ 1 → (insertion_sort_splice_list comp l count).2.2 = 0) :=
  insertion_sort_spec h l count hcount

/-- Witness for claim C4: sorting the first four elements of the sequence
5, 3, 4, 1, 2 with the natural order. -/
theorem insertion_sort_splice_ok_w :
    (insertion_sort_splice_list intComp
        [(0, (5 : Int)), (1, 3), (2, 4), (3, 1), (4, 2)] 4).1 =
        isortRef intComp ([(0, (5 : Int)), (1, 3), (2, 4), (3, 1),
          (4, 2)].take 4) ++
          [(0, (5 : Int)), (1, 3), (2, 4), (3, 1), (4, 2)].drop 4 ∧
      SortedE intComp (isortRef intComp ([(0, (5 : Int)), (1, 3), (2, 4),
        (3, 1), (4, 2)].take 4)) ∧
      (∀ v, (insertion_sort_splice_list intComp
          [(0, (5 : Int)), (1, 3), (2, 4), (3, 1), (4, 2)] 4).1.filter
            (fun e => tieB intComp e.2 v) =
        [(0, (5 : Int)), (1, 3), (2, 4), (3, 1), (4, 2)].filter
          (fun e => tieB intComp e.2 v)) ∧
      (insertion_sort_splice_list intComp
          [(0, (5 : Int)), (1, 3), (2, 4), (3, 1), (4, 2)] 4).2.1 =
        (if 4 = 0 then [(0, (5 : Int)), (1, 3), (2, 4), (3, 1),
            (4, 2)].head?
          else (isortRef intComp ([(0, (5 : Int)), (1, 3), (2, 4), (3, 1),
            (4, 2)].take 4)).getLast?) ∧
      (4 ≤ 1 → (insertion_sort_splice_list intComp
        [(0, (5 : Int)), (1, 3), (2, 4), (3, 1), (4, 2)] 4).2.2 = 0) :=
  insertion_sort_splice_ok intComp_swo _ 4 (by simp)

/-- Claim C9: sorting an already sorted corange is the identity.  No
cosplice is performed, the chain is left exactly unchanged, and the
returned iterator is the last element of the corange (the position
immediately after the left limit when count is 0). -/
theorem insertion_sort_splice_sorted_id {V : Type} {comp : V → V → Bool}
    (h : SWO comp) (l : List (Elt V)) (count : Nat)
    (hcount : count ≤ l.length)
    (hs : SortedE comp (l.take count)) :
    (insertion_sort_splice_list comp l count).1 = l ∧
      (insertion_sort_splice_list comp l count).2.2 = 0 ∧
      (insertion_sort_splice_list comp l count).2.1 =
        (if count = 0 then l.head? else (l.take count).getLast?) := by
  by_cases hsmall : count < 2
  · have heq : insertion_sort_splice_list comp l count = (l, l.head?, 0) := by
      rw [insertion_sort_splice_list.eq_def, if_pos hsmall]
    rw [heq]
    refine ⟨rfl, rfl, ?_⟩
    interval_cases count
    · simp
    · rw [if_neg (by omega)]
      obtain ⟨e1, tl, rfl⟩ : ∃ e1 tl, l = e1 :: tl := by
        cases l with
        | nil => simp at hcount
        | cons x xs => exact ⟨x, xs, rfl⟩
      simp
  · push_neg at hsmall
    obtain ⟨e1, e2, rest, rfl⟩ : ∃ e1 e2 rest, l = e1 :: e2 :: rest := by
      cases l with
      | nil => simp at hcount; omega
      | cons x xs =>
        cases xs with
        | nil => simp at hcount; omega
        | cons y ys => exact ⟨x, y, ys, rfl⟩
    have hlen2 : count - 2 ≤ rest.length := by
      simp only [List.length_cons] at hcount
      omega
    have htake : (e1 :: e2 :: rest).take count =
        e1 :: e2 :: rest.take (count - 2) := by
      obtain ⟨m, rfl⟩ : ∃ m, count = m + 2 := ⟨count - 2, by omega⟩
      rw [List.take_succ_cons, List.take_succ_cons]
      simp
    rw [htake] at hs
    have hc : comp e2.2 e1.2 = false :=
      (List.pairwise_cons.1 hs).1 e2 (by simp)
    obtain ⟨lhsF, hres, hlastF⟩ := issLoop_sorted h (count - 2) rest
      [e1, e2] e1 e2 hlen2 (by simp) (by simp) (by simpa using hs)
    rw [insertion_sort_splice_list.eq_def, if_neg (by omega)]
    dsimp only
    rw [if_pos (by simp [hc]), hres]
    refine ⟨by simp, rfl, ?_⟩
    rw [if_neg (by omega), htake, ← hlastF]
    simp

/-- Witness for claim C9: the already sorted chain 1, 2, 3. -/
theorem insertion_sort_splice_sorted_id_w :
    (insertion_sort_splice_list intComp
        [(0, (1 : Int)), (1, 2), (2, 3)] 3).1 =
        [(0, (1 : Int)), (1, 2), (2, 3)] ∧
      (insertion_sort_splice_list intComp
        [(0, (1 : Int)), (1, 2), (2, 3)] 3).2.2 = 0 ∧
      (insertion_sort_splice_list intComp
          [(0, (1 : Int)), (1, 2), (2, 3)] 3).2.1 =
        (if 3 = 0 then [(0, (1 : Int)), (1, 2), (2, 3)].head?
          else ([(0, (1 : Int)), (1, 2), (2, 3)].take 3).getLast?) :=
  insertion_sort_splice_sorted_id intComp_swo _ 3 (by simp)
    (by simp [SortedE, intComp])

/-! Claim C5: merge_sort_splice refines insertion_sort_splice. -/

/-- Stable insertion permutes: inserting an element yields a permutation
of consing it. -/
theorem insortL_perm {V : Type} (comp : V → V → Bool) (x : Elt V)
    (l : List (Elt V)) : (insortL comp x l).Perm (x :: l) := by
  induction l with
  | nil => simp [insortL]
  | cons y t ih =>
    rw [insortL]
    by_cases hc : comp x.2 y.2 = true
    · rw [if_pos hc]
    · rw [if_neg hc]
      exact (List.Perm.cons y ih).trans (List.Perm.swap x y t)

/-- Inserting a chunk into an accumulator permutes their concatenation. -/
theorem insAll_perm {V : Type} (comp : V → V → Bool) :
    ∀ (xs acc : List (Elt V)), (insAll comp acc xs).Perm (acc ++ xs) := by
  intro xs
  induction xs with
  | nil => intro acc; simp [insAll]
  | cons x t ih =>
    intro acc
    rw [insAll_cons]
    refine (ih (insortL comp x acc)).trans ?_
    refine (List.Perm.append_right t (insortL_perm comp x acc)).trans ?_
    simpa using List.perm_middle.symm

/-- The reference stable sort is a permutation of its input. -/
theorem isortRef_perm {V : Type} (comp : V → V → Bool)
    (l : List (Elt V)) : (isortRef comp l).Perm l := by
  simpa using insAll_perm comp l []

/-- At the final level the sorted front is everything: S(L) = size. -/
theorem msS_max (size : Nat) : msS size (msMaxSteps size) = size := by
  simp [msS]

/-- The sorted front never shrinks between levels. -/
theorem msS_mono {size step : Nat} (hstep : step < msMaxSteps size) :
    msS size step ≤ msS size (step + 1) := by
  rw [msS, msS, show msMaxSteps size - step =
    (msMaxSteps size - (step + 1)) + 1 from by omega, Nat.shiftRight_succ]
  exact Nat.div_le_self _ 2

/-- The sorted front never exceeds the total count. -/
theorem msS_le (size step : Nat) : msS size step ≤ size := by
  rw [msS, Nat.shiftRight_eq_div_pow]
  exact Nat.div_le_self _ _

/-- Below the last level the sorted front is nonempty once the level is
positive. -/
theorem msS_pos {size step : Nat} (h1 : 1 ≤ step)
    (h2 : step ≤ msMaxSteps size) : 1 ≤ msS size step := by
  rw [msS, Nat.shiftRight_eq_div_pow]
  have hp : 2 ^ (msMaxSteps size - step) ≤ size := by
    have hlt : msMaxSteps size - step < Nat.size size := by
      have hsz : 1 ≤ msMaxSteps size := le_trans h1 h2
      simp only [msMaxSteps] at hsz h2 ⊢
      omega
    exact Nat.lt_size.1 hlt
  exact (Nat.one_le_div_iff (Nat.pos_pow_of_pos _ (by omega))).2 hp

/-- The reference sort of a nonempty prefix is nonempty. -/
theorem isortRef_take_ne_nil {V : Type} {comp : V → V → Bool}
    {l : List (Elt V)} {n : Nat} (h1 : n ≠ 0) (h2 : n ≤ l.length) :
    isortRef comp (l.take n) ≠ [] := by
  intro hemp
  have hx := congrArg List.length hemp
  rw [length_isortRef, List.length_take] at hx
  simp only [List.length_nil] at hx
  omega

/-- The merge loop of merge_sort_splice: starting at any level with the
sorted front being the reference sort of the first S(step) elements, it
finishes with the reference sort of the first size elements and the
iterator to its last element.  The recursive sorter is abstract, only its
first component on strictly smaller chunks matters. -/
theorem mssSteps_inv {V : Type} [Inhabited V] {comp : V → V → Bool}
    (h : SWO comp)
    (msrec : List (Elt V) → Nat → List (Elt V) × Option (Elt V))
    (size : Nat)
    (hrec : ∀ l2 sz2, sz2 ≤ l2.length → ((l2.map Prod.fst).Nodup) →
      sz2 < size →
      (msrec l2 sz2).1 = isortRef comp (l2.take sz2) ++ l2.drop sz2) :
    ∀ (gas step : Nat) (L : List (Elt V)),
      step + gas = msMaxSteps size → 1 ≤ msS size step →
      size ≤ L.length → ((L.map Prod.fst).Nodup) →
      mssSteps comp msrec size (msMaxSteps size) step gas
        (isortRef comp (L.take (msS size step)) ++ L.drop (msS size step))
        (some ((isortRef comp
          (L.take (msS size step))).getLastD default))
        (msS size step) =
      (isortRef comp (L.take size) ++ L.drop size,
        some ((isortRef comp (L.take size)).getLastD default)) := by
  intro gas
  induction gas with
  | zero =>
    intro step L hstep _ _ _
    have hss : msS size step = size := by
      rw [show step = msMaxSteps size from by omega, msS_max]
    rw [hss, mssSteps]
  | succ gas ih =>
    intro step L hstep hpos hszL hnd
    have hlt : step < msMaxSteps size := by omega
    have hmono := msS_mono hlt
    have hle1 := msS_le size step
    have hle2 := msS_le size (step + 1)
    have hlenI : (isortRef comp (L.take (msS size step))).length =
        msS size step := by
      rw [length_isortRef, List.length_take]
      omega
    have htk : (isortRef comp (L.take (msS size step)) ++
        L.drop (msS size step)).take (msS size step) =
        isortRef comp (L.take (msS size step)) :=
      List.take_left' hlenI
    have hdp : (isortRef comp (L.take (msS size step)) ++
        L.drop (msS size step)).drop (msS size step) =
        L.drop (msS size step) :=
      List.drop_left' hlenI
    have hT : msChunk size (msMaxSteps size) step (msS size step) =
        msS size (step + 1) - msS size step := by
      simp [msChunk, msS, Nat.sub_sub]
    rw [mssSteps, if_pos hlt, hT, htk, hdp]
    have hrecl : (msrec (L.drop (msS size step))
        (msS size (step + 1) - msS size step)).1 =
        isortRef comp ((L.drop (msS size step)).take
          (msS size (step + 1) - msS size step)) ++
        (L.drop (msS size step)).drop
          (msS size (step + 1) - msS size step) := by
      refine hrec _ _ ?_ ?_ ?_
      · rw [List.length_drop]
        omega
      · rw [List.map_drop]
        exact List.Nodup.sublist (List.drop_sublist _ _) hnd
      · omega
    rw [hrecl]
    have hlenI2 : (isortRef comp ((L.drop (msS size step)).take
        (msS size (step + 1) - msS size step))).length =
        msS size (step + 1) - msS size step := by
      rw [length_isortRef, List.length_take, List.length_drop]
      omega
    have htk2 : (isortRef comp ((L.drop (msS size step)).take
          (msS size (step + 1) - msS size step)) ++
        (L.drop (msS size step)).drop
          (msS size (step + 1) - msS size step)).take
        (msS size (step + 1) - msS size step) =
        isortRef comp ((L.drop (msS size step)).take
          (msS size (step + 1) - msS size step)) :=
      List.take_left' hlenI2
    have hdp2 : (isortRef comp ((L.drop (msS size step)).take
          (msS size (step + 1) - msS size step)) ++
        (L.drop (msS size step)).drop
          (msS size (step + 1) - msS size step)).drop
        (msS size (step + 1) - msS size step) =
        L.drop (msS size (step + 1)) := by
      rw [List.drop_left' hlenI2, List.drop_drop]
      rw [show msS size step + (msS size (step + 1) - msS size step) =
        msS size (step + 1) from by omega]
    rw [htk2, hdp2]
    have hperm : ((isortRef comp (L.take (msS size step)) ++
        isortRef comp ((L.drop (msS size step)).take
          (msS size (step + 1) - msS size step))).map Prod.fst).Perm
        ((L.take (msS size (step + 1))).map Prod.fst) := by
      refine List.Perm.map Prod.fst ?_
      refine List.Perm.trans
        (List.Perm.append (isortRef_perm comp _) (isortRef_perm comp _)) ?_
      rw [show L.take (msS size (step + 1)) = L.take (msS size step) ++
          (L.drop (msS size step)).take
            (msS size (step + 1) - msS size step) from by
        rw [← List.take_add, show msS size step +
          (msS size (step + 1) - msS size step) =
            msS size (step + 1) from by omega]]
    have hndAB : ((isortRef comp (L.take (msS size step)) ++
        isortRef comp ((L.drop (msS size step)).take
          (msS size (step + 1) - msS size step))).map Prod.fst).Nodup := by
      refine (List.Perm.nodup_iff hperm).2 ?_
      rw [List.map_take]
      exact List.Nodup.sublist (List.take_sublist _ _) hnd
    obtain ⟨hcms, _⟩ := coinplace_merge_spec h
      (isortRef comp (L.take (msS size step)))
      (isortRef comp ((L.drop (msS size step)).take
        (msS size (step + 1) - msS size step)))
      (by
        intro hemp
        have := congrArg List.length hemp
        rw [hlenI] at this
        simp at this
        omega)
      (sortedE_isortRef h _) (sortedE_isortRef h _) hndAB
    rw [hcms]
    dsimp only
    rw [mergeRef_isortRef h, ← List.take_add]
    rw [show msS size step + (msS size (step + 1) - msS size step) =
      msS size (step + 1) from by omega]
    exact ih (step + 1) L (by omega) (by omega) hszL hnd

/-- Full functional correctness of merge_sort_splice: with enough fuel it
rearranges the first size elements into their reference stable sort,
leaves the rest untouched, and returns the iterator to the last sorted
element (the position after the left limit when size is 0). -/
theorem ms_correct {V : Type} [Inhabited V] {comp : V → V → Bool}
    (h : SWO comp) :
    ∀ (fuel : Nat) (l : List (Elt V)) (size : Nat), size ≤ fuel →
      size ≤ l.length → ((l.map Prod.fst).Nodup) →
      merge_sort_splice_list comp fuel l size =
        (isortRef comp (l.take size) ++ l.drop size,
          if size = 0 then l.head?
          else some ((isortRef comp (l.take size)).getLastD default)) := by
  intro fuel
  induction fuel with
  | zero =>
    intro l size hfuel _ _
    have hz : size = 0 := by omega
    subst hz
    rw [merge_sort_splice_list]
    simp [isortRef, insAll]
  | succ fuel ih =>
    intro l size hfuel hlen hnd
    rw [merge_sort_splice_list]
    have hlcle : msLcnt size ≤ size := by
      rw [msLcnt]
      by_cases hms : msMaxSteps size ≤ msFirstStep
      · rw [if_pos hms]
      · rw [if_neg hms, Nat.shiftRight_eq_div_pow]
        exact Nat.div_le_self _ _
    obtain ⟨h1, _, _, h4, _⟩ := insertion_sort_spec h l (msLcnt size)
      (le_trans hlcle hlen)
    by_cases hms : msMaxSteps size ≤ msFirstStep
    · have hl : msLcnt size = size := by rw [msLcnt, if_pos hms]
      have hgas : msMaxSteps size - msFirstStep = 0 := by omega
      rw [hl] at h1 h4
      rw [hl, hgas, mssSteps, h1, h4]
      refine congrArg (Prod.mk _) ?_
      by_cases hz : size = 0
      · simp [hz]
      · rw [if_neg hz, if_neg hz]
        exact getLast?_eq_getLastD (isortRef_take_ne_nil hz hlen)
    · have hl : msLcnt size = msS size msFirstStep := by
        rw [msLcnt, if_neg hms, msS]
      have hfs : msFirstStep ≤ msMaxSteps size := by
        simp only [msFirstStep] at hms ⊢
        omega
      have hpos : 1 ≤ msS size msFirstStep :=
        msS_pos (by simp [msFirstStep]) hfs
      rw [hl] at h1 h4
      have hlast : (insertion_sort_splice_list comp l
          (msS size msFirstStep)).2.1 =
          some ((isortRef comp
            (l.take (msS size msFirstStep))).getLastD default) := by
        rw [h4, if_neg (by omega)]
        exact getLast?_eq_getLastD
          (isortRef_take_ne_nil (by omega) (le_trans (msS_le _ _) hlen))
      rw [hl, h1, hlast]
      have hrec : ∀ (l2 : List (Elt V)) (sz2 : Nat), sz2 ≤ l2.length →
          ((l2.map Prod.fst).Nodup) → sz2 < size →
          (merge_sort_splice_list comp fuel l2 sz2).1 =
            isortRef comp (l2.take sz2) ++ l2.drop sz2 := by
        intro l2 sz2 hsz2 hnd2 hlt2
        rw [ih l2 sz2 (by omega) hsz2 hnd2]
      have := mssSteps_inv h (merge_sort_splice_list comp fuel) size hrec
        (msMaxSteps size - msFirstStep) msFirstStep l (by omega) hpos hlen
        hnd
      rw [this]
      rw [if_neg (by
        intro hz
        rw [hz] at hms
        simp [msMaxSteps, msFirstStep] at hms)]

/-- Claim C5: on every chain, sub-corange size and strict weak order (with
enough fuel for the nested recursion, which the source recursion always
has), merge_sort_splice produces exactly the same resulting sequence and
returns exactly the same last-element iterator as insertion_sort_splice on
the same input: the bottom-up merge implementation refines the insertion
sort reference entry point. -/
theorem merge_sort_refines_insertion {V : Type} [Inhabited V]
    {comp : V → V → Bool} (h : SWO comp) (fuel : Nat) (l : List (Elt V))
    (size : Nat) (hfuel : size ≤ fuel) (hlen : size ≤ l.length)
    (hnd : ((l.map Prod.fst).Nodup)) :
    merge_sort_splice_list comp fuel l size =
      ((insertion_sort_splice_list comp l size).1,
        (insertion_sort_splice_list comp l size).2.1) := by
  obtain ⟨h1, _, _, h4, _⟩ := insertion_sort_spec h l size hlen
  rw [ms_correct h fuel l size hfuel hlen hnd, h1, h4]
  refine congrArg (Prod.mk _) ?_
  by_cases hz : size = 0
  · simp [hz]
  · rw [if_neg hz, if_neg hz]
    exact (getLast?_eq_getLastD (isortRef_take_ne_nil hz hlen)).symm

/-- Witness for claim C5: merge sort and insertion sort agree on the chain
5, 3, 1, 4, 2 with the natural order. -/
theorem merge_sort_refines_insertion_w :
    merge_sort_splice_list intComp 5
        [(0, (5 : Int)), (1, 3), (2, 1), (3, 4), (4, 2)] 5 =
      ((insertion_sort_splice_list intComp
          [(0, (5 : Int)), (1, 3), (2, 1), (3, 4), (4, 2)] 5).1,
        (insertion_sort_splice_list intComp
          [(0, (5 : Int)), (1, 3), (2, 1), (3, 4), (4, 2)] 5).2.1) :=
  merge_sort_refines_insertion intComp_swo 5 _ 5 (by omega) (by simp)
    (by simp)

/-! Claim C6: the pointer-level cosplice. -/

/-- Walking exactly length steps along a chained list observes it. -/
theorem walkLL_of_chain : ∀ (m : List Nat) (next : Nat → Option Nat),
    List.Chain' (fun x y => next x = some y) m →
    walkLL next m.length m.head? = m := by
  intro m
  induction m with
  | nil => intro next _; rfl
  | cons x t ih =>
    intro next hch
    rw [List.length_cons, List.head?_cons, walkLL]
    cases t with
    | nil => rfl
    | cons y t2 =>
      have hxy : next x = some y := (List.chain'_cons.1 hch).1
      rw [hxy]
      have h2 := ih next (List.chain'_cons.1 hch).2
      rw [List.head?_cons] at h2
      rw [h2]

/-- A pointer chain only depends on the successors of the non-final
nodes. -/
theorem chain_eq_on {f g : Nat → Option Nat} :
    ∀ (m : List Nat), List.Chain' (fun x y => f x = some y) m →
      (∀ a ∈ m.dropLast, f a = g a) →
      List.Chain' (fun x y => g x = some y) m := by
  intro m
  induction m with
  | nil => intro _ _; simp
  | cons x t ih =>
    intro hch hag
    cases t with
    | nil => simp
    | cons y t2 =>
      refine List.chain'_cons.2 ⟨?_, ?_⟩
      · rw [← hag x (by simp)]
        exact (List.chain'_cons.1 hch).1
      · refine ih (List.chain'_cons.1 hch).2 ?_
        intro a ha
        refine hag a ?_
        simp only [List.dropLast_cons₂, List.mem_cons]
        right
        exact ha

/-- The successor map of a list is transparent to a foreign head. -/
theorem nextInList_cons_ne {x i : Nat} {t : List Nat}
    (hne : i ≠ x) : nextInList (x :: t) i = nextInList t i := by
  cases t with
  | nil => simp [nextInList]
  | cons y t2 => rw [nextInList, if_neg hne]

/-- The successor map of a duplicate-free list chains it. -/
theorem chain'_nextInList : ∀ (M : List Nat), M.Nodup →
    List.Chain' (fun x y => nextInList M x = some y) M := by
  intro M
  induction M with
  | nil => intro _; simp
  | cons x t ih =>
    intro hnd
    cases t with
    | nil => simp
    | cons y t2 =>
      refine List.chain'_cons.2 ⟨?_, ?_⟩
      · rw [nextInList, if_pos rfl]
      · refine chain_eq_on (y :: t2) (ih (List.Nodup.of_cons hnd)) ?_
        intro a ha
        have hax : a ≠ x := by
          intro h
          subst h
          exact (List.nodup_cons.1 hnd).1
            ((List.dropLast_sublist _).subset ha)
        exact (nextInList_cons_ne hax).symm

/-- The last node of a duplicate-free list has no successor. -/
theorem nextInList_getLast : ∀ (M : List Nat), M.Nodup →
    ∀ x, M.getLast? = some x → nextInList M x = none := by
  intro M
  induction M with
  | nil => intro _ x hx; simp at hx
  | cons a t ih =>
    intro hnd x hx
    cases t with
    | nil => simp [nextInList]
    | cons b t2 =>
      have hx2 : (b :: t2).getLast? = some x := by
        rw [List.getLast?_cons_cons] at hx
        exact hx
      have hxa : x ≠ a := by
        intro h
        subst h
        exact (List.nodup_cons.1 hnd).1 (List.mem_of_getLast?_eq_some hx2)
      rw [nextInList_cons_ne hxa]
      exact ih (List.Nodup.of_cons hnd) x hx2

/-- Reading an updated pointer at the updated node. -/
theorem updF_eq (f : Nat → Option Nat) (k : Nat) (v : Option Nat) :
    updF f k v k = v := by
  simp [updF]

/-- Reading an updated pointer at any other node. -/
theorem updF_ne {k' k : Nat} (f : Nat → Option Nat) (v : Option Nat)
    (h : k' ≠ k) : updF f k v k' = f k' := by
  simp [updF, h]

/-- Representation only depends on the successors of the list members. -/
theorem rep_eq_on {f g : Nat → Option Nat} {h : Option Nat}
    {m : List Nat} (hr : Rep f h m) (hag : ∀ a ∈ m, f a = g a) :
    Rep g h m := by
  obtain ⟨h1, h2, h3⟩ := hr
  refine ⟨h1, ?_, ?_⟩
  · refine chain_eq_on m h2 ?_
    intro a ha
    exact hag a ((List.dropLast_sublist m).subset ha)
  · intro x hx
    rw [← hag x (List.mem_of_getLast?_eq_some hx)]
    exact h3 x hx

/-- A represented list is observed exactly by a full-length walk. -/
theorem rep_walk {f : Nat → Option Nat} {h : Option Nat} {m : List Nat}
    (hr : Rep f h m) : walkLL f m.length h = m := by
  rw [hr.1]
  exact walkLL_of_chain m f hr.2.1

/-- The successor map of a duplicate-free list represents it. -/
theorem rep_ofListLL {M : List Nat} (hnd : M.Nodup) :
    Rep (ofListLL M).next (ofListLL M).head M :=
  ⟨rfl, chain'_nextInList M hnd, nextInList_getLast M hnd⟩

/-- The shared heap represents the destination list. -/
theorem rep_heapOf_dst {D Sr : List Nat} (hnd : (D ++ Sr).Nodup) :
    Rep (heapOf D Sr) D.head? D := by
  refine rep_eq_on (rep_ofListLL (List.Nodup.of_append_left hnd)) ?_
  intro a ha
  simp [ofListLL, heapOf, ha]

/-- The shared heap represents the source list. -/
theorem rep_heapOf_src {D Sr : List Nat} (hnd : (D ++ Sr).Nodup) :
    Rep (heapOf D Sr) Sr.head? Sr := by
  refine rep_eq_on (rep_ofListLL (List.Nodup.of_append_right hnd)) ?_
  intro a ha
  have haD : a ∉ D := fun hin =>
    (List.disjoint_of_nodup_append hnd) hin ha
  simp [ofListLL, heapOf, haD]

/-- A list with a known last element is a concatenation onto it. -/
theorem concat_of_getLast? {α : Type} {S : List α} {rt : α}
    (h : S.getLast? = some rt) : ∃ SI, S = SI ++ [rt] := by
  rcases List.eq_nil_or_concat S with rfl | ⟨SI, b, rfl⟩
  · simp at h
  · rw [List.concat_eq_append, List.getLast?_concat,
      Option.some.injEq] at h
    exact ⟨SI, by rw [List.concat_eq_append, h]⟩

/-- The pointer cut of the corange (lt, rt] for a dereferenceable left
limit lt = a: setting the successor of a to the successor of rt detaches
S, leaving the remainder represented, the run S still chained, and the
original successor of a pointing at the head of S. -/
theorem cut_some_spec {f : Nat → Option Nat} {sh : Option Nat}
    {ltI S R : List Nat} {a rt : Nat}
    (hS : Rep f sh (ltI ++ [a] ++ S ++ R))
    (hnd : (ltI ++ [a] ++ S ++ R).Nodup)
    (hrt : S.getLast? = some rt) :
    Rep (updF f a (f rt)) sh (ltI ++ [a] ++ R) ∧
      List.Chain' (fun x y => updF f a (f rt) x = some y) S ∧
      f a = S.head? := by
  obtain ⟨hh, hch, hterm⟩ := hS
  rw [List.chain'_append] at hch
  obtain ⟨hch12, hch3, hj2⟩ := hch
  rw [List.chain'_append] at hch12
  obtain ⟨hch1, hch2, hj1⟩ := hch12
  obtain ⟨SI, rfl⟩ := concat_of_getLast? hrt
  rw [List.nodup_append] at hnd
  obtain ⟨hnd12, hndR, hdisj3⟩ := hnd
  rw [List.nodup_append] at hnd12
  obtain ⟨hndL, hndS, hdisj2⟩ := hnd12
  have haS : a ∉ SI ++ [rt] := fun hin =>
    hdisj2 (by simp) hin
  have haR : a ∉ R := fun hin =>
    hdisj3 (by simp) hin
  have hfa : f a = (SI ++ [rt]).head? := by
    cases hq : (SI ++ [rt]).head? with
    | none => simp at hq
    | some s0 =>
      exact hj1 a (by simp [List.getLast?_concat]) s0 (by simp [hq])
  have hlast12 : (ltI ++ [a] ++ (SI ++ [rt])).getLast? = some rt := by
    rw [List.getLast?_append, List.getLast?_concat]
    rfl
  have hfrt : f rt = R.head? := by
    cases R with
    | nil =>
      refine hterm rt ?_
      rw [List.getLast?_append, hlast12]
      rfl
    | cons r0 Rt =>
      exact hj2 rt (by rw [hlast12]; rfl) r0 (by simp)
  have hndlt : a ∉ ltI := by
    rw [List.nodup_append] at hndL
    intro hin
    exact hndL.2.2 hin (by simp)
  refine ⟨⟨?_, ?_, ?_⟩, ?_, hfa⟩
  · rw [hh]
    simp [List.head?_append]
  · rw [List.chain'_append]
    refine ⟨?_, ?_, ?_⟩
    · refine chain_eq_on _ hch1 ?_
      intro x hx
      rw [List.dropLast_concat] at hx
      exact (updF_ne f (f rt) (fun h => hndlt (by rw [h] at hx; exact hx))).symm
    · refine chain_eq_on _ hch3 ?_
      intro x hx
      have hxR : x ∈ R := (List.dropLast_sublist _).subset hx
      exact (updF_ne f (f rt) (fun h => haR (by rw [h] at hxR; exact hxR))).symm
    · intro x hx y hy
      rw [List.getLast?_concat] at hx
      simp only [Option.mem_def, Option.some.injEq] at hx
      subst hx
      rw [updF_eq, hfrt]
      simp only [Option.mem_def] at hy
      rw [hy]
  · intro x hx
    cases R with
    | nil =>
      rw [List.append_nil, List.getLast?_concat] at hx
      simp only [Option.some.injEq] at hx
      subst hx
      rw [updF_eq, hfrt]
      rfl
    | cons r0 Rt =>
      have hg : ∃ z, (r0 :: Rt).getLast? = some z := by
        cases hgz : (r0 :: Rt).getLast? with
        | none => simp at hgz
        | some z => exact ⟨z, rfl⟩
      obtain ⟨z, hgz⟩ := hg
      rw [List.getLast?_append, hgz] at hx
      simp only [Option.or_some, Option.some.injEq] at hx
      subst hx
      have hxR : z ∈ r0 :: Rt := List.mem_of_getLast?_eq_some hgz
      rw [updF_ne f (f rt) (fun h => haR (by rw [h] at hxR; exact hxR))]
      refine hterm z ?_
      rw [List.getLast?_append, hgz]
      rfl
  · refine chain_eq_on _ hch2 ?_
    intro x hx
    have hxS : x ∈ SI ++ [rt] := (List.dropLast_sublist _).subset hx
    exact (updF_ne f (f rt) (fun h => haS (by rw [h] at hxS; exact hxS))).symm

/-- The pointer cut of the corange (lt, rt] for lt being the front
sentinel: the new source head is the successor of rt, the remainder is
represented, the run S still chained, and the old head was the head of
S. -/
theorem cut_none_spec {f : Nat → Option Nat} {sh : Option Nat}
    {S R : List Nat} {rt : Nat}
    (hS : Rep f sh (S ++ R))
    (hrt : S.getLast? = some rt) :
    Rep f (f rt) R ∧
      List.Chain' (fun x y => f x = some y) S ∧
      sh = S.head? := by
  obtain ⟨hh, hch, hterm⟩ := hS
  rw [List.chain'_append] at hch
  obtain ⟨hch2, hch3, hj2⟩ := hch
  obtain ⟨SI, rfl⟩ := concat_of_getLast? hrt
  have hfrt : f rt = R.head? := by
    cases R with
    | nil =>
      refine hterm rt ?_
      rw [List.getLast?_append, List.getLast?_concat]
      rfl
    | cons r0 Rt =>
      exact hj2 rt (by rw [List.getLast?_concat]; rfl) r0 (by simp)
  refine ⟨⟨hfrt, hch3, ?_⟩, hch2, ?_⟩
  · intro x hx
    refine hterm x ?_
    rw [List.getLast?_append, hx]
    rfl
  · rw [hh]
    simp [List.head?_append]

/-- The pointer insertion of the detached run S after a dereferenceable
position q: linking rt at the old successor of q and q at the head of S
inserts S right after q, head unchanged. -/
theorem insert_some_spec {f : Nat → Option Nat} {dh : Option Nat}
    {posI Q S : List Nat} {q rt : Nat}
    (hD : Rep f dh (posI ++ [q] ++ Q))
    (hchS : List.Chain' (fun x y => f x = some y) S)
    (hrt : S.getLast? = some rt)
    (hnd : (posI ++ [q] ++ S ++ Q).Nodup) :
    Rep (updF (updF f rt (f q)) q S.head?) dh
      (posI ++ [q] ++ S ++ Q) := by
  obtain ⟨hh, hchD, htermD⟩ := hD
  rw [List.chain'_append] at hchD
  obtain ⟨hchP, hchQ, hjq⟩ := hchD
  rw [List.nodup_append] at hnd
  obtain ⟨hnd12, hndQ, hdisj3⟩ := hnd
  rw [List.nodup_append] at hnd12
  obtain ⟨hndP, hndS, hdisj2⟩ := hnd12
  obtain ⟨SI, rfl⟩ := concat_of_getLast? hrt
  have hrtS : rt ∈ SI ++ [rt] := by simp
  have hqS : q ∉ SI ++ [rt] := fun hin => hdisj2 (by simp) hin
  have hqQ : q ∉ Q := fun hin => hdisj3 (by simp) hin
  have hrtQ : rt ∉ Q := fun hin => hdisj3 (by simp) hin
  have hrtq : rt ≠ q := fun h => hqS (by rw [← h]; exact hrtS)
  have hrtP : rt ∉ posI ++ [q] := fun hin => hdisj2 hin hrtS
  have hfq : f q = Q.head? := by
    cases Q with
    | nil =>
      refine htermD q ?_
      rw [List.append_nil, List.getLast?_concat]
    | cons q0 Qt =>
      exact hjq q (by rw [List.getLast?_concat]; rfl) q0 (by simp)
  have hgq : updF (updF f rt (f q)) q (SI ++ [rt]).head? q =
      (SI ++ [rt]).head? := updF_eq _ _ _
  have hgrt : updF (updF f rt (f q)) q (SI ++ [rt]).head? rt = f q := by
    rw [updF_ne _ _ hrtq, updF_eq]
  have hgoth : ∀ x, x ≠ q → x ≠ rt →
      updF (updF f rt (f q)) q (SI ++ [rt]).head? x = f x := by
    intro x hx1 hx2
    rw [updF_ne _ _ hx1, updF_ne _ _ hx2]
  refine ⟨?_, ?_, ?_⟩
  · rw [hh]
    cases hp : (posI ++ [q]).head? with
    | none => simp at hp
    | some h0 => simp [List.head?_append, hp]
  · refine List.chain'_append.2 ⟨List.chain'_append.2 ⟨?_, ?_, ?_⟩,
      ?_, ?_⟩
    · refine chain_eq_on _ hchP ?_
      intro x hx
      rw [List.dropLast_concat] at hx
      have hxq : x ≠ q := by
        rw [List.nodup_append] at hndP
        intro h
        exact hndP.2.2 hx (by simp [h])
      have hxrt : x ≠ rt := fun h =>
        hrtP (by rw [← h]; exact List.mem_append_left _ hx)
      exact (hgoth x hxq hxrt).symm
    · refine chain_eq_on _ hchS ?_
      intro x hx
      rw [List.dropLast_concat] at hx
      have hxrt : x ≠ rt := by
        rw [List.nodup_append] at hndS
        intro h
        exact hndS.2.2 hx (by simp [h])
      have hxq : x ≠ q := fun h =>
        hqS (by rw [← h]; exact List.mem_append_left _ hx)
      exact (hgoth x hxq hxrt).symm
    · intro x hx y hy
      rw [List.getLast?_concat] at hx
      simp only [Option.mem_def, Option.some.injEq] at hx
      subst hx
      rw [hgq]
      simp only [Option.mem_def] at hy
      rw [hy]
    · refine chain_eq_on _ hchQ ?_
      intro x hx
      have hxQ : x ∈ Q := (List.dropLast_sublist _).subset hx
      have hxq : x ≠ q := fun h => hqQ (by rw [h] at hxQ; exact hxQ)
      have hxrt : x ≠ rt := fun h => hrtQ (by rw [h] at hxQ; exact hxQ)
      exact (hgoth x hxq hxrt).symm
    · intro x hx y hy
      rw [List.getLast?_append, List.getLast?_concat] at hx
      simp only [Option.or_some, Option.mem_def, Option.some.injEq] at hx
      subst hx
      rw [hgrt, hfq]
      simp only [Option.mem_def] at hy
      rw [hy]
  · intro x hx
    cases Q with
    | nil =>
      rw [List.append_nil, List.getLast?_append,
        List.getLast?_concat] at hx
      simp only [Option.or_some, Option.some.injEq] at hx
      subst hx
      rw [hgrt, hfq]
      rfl
    | cons q0 Qt =>
      have hg : ∃ z, (q0 :: Qt).getLast? = some z := by
        cases hgz : (q0 :: Qt).getLast? with
        | none => simp at hgz
        | some z => exact ⟨z, rfl⟩
      obtain ⟨z, hgz⟩ := hg
      rw [List.getLast?_append, hgz] at hx
      simp only [Option.or_some, Option.some.injEq] at hx
      subst hx
      have hzQ : z ∈ q0 :: Qt := List.mem_of_getLast?_eq_some hgz
      have hzq : z ≠ q := fun h => hqQ (by rw [h] at hzQ; exact hzQ)
      have hzrt : z ≠ rt := fun h => hrtQ (by rw [h] at hzQ; exact hzQ)
      rw [hgoth z hzq hzrt]
      refine htermD z ?_
      rw [List.getLast?_append, hgz]
      rfl

/-- The pointer insertion of the detached run S at the front of the
destination: linking rt at the old head and heading the list at S. -/
theorem insert_none_spec {f : Nat → Option Nat} {dh : Option Nat}
    {Q S : List Nat} {rt : Nat}
    (hD : Rep f dh Q)
    (hchS : List.Chain' (fun x y => f x = some y) S)
    (hrt : S.getLast? = some rt)
    (hnd : (S ++ Q).Nodup) :
    Rep (updF f rt dh) S.head? (S ++ Q) := by
  obtain ⟨hh, hchQ, htermQ⟩ := hD
  rw [List.nodup_append] at hnd
  obtain ⟨hndS, hndQ, hdisj⟩ := hnd
  obtain ⟨SI, rfl⟩ := concat_of_getLast? hrt
  have hrtQ : rt ∉ Q := fun hin => hdisj (by simp) hin
  refine ⟨?_, ?_, ?_⟩
  · simp [List.head?_append]
  · refine List.chain'_append.2 ⟨?_, ?_, ?_⟩
    · refine chain_eq_on _ hchS ?_
      intro x hx
      rw [List.dropLast_concat] at hx
      have hxrt : x ≠ rt := by
        rw [List.nodup_append] at hndS
        intro h
        exact hndS.2.2 hx (by simp [h])
      exact (updF_ne f dh hxrt).symm
    · refine chain_eq_on _ hchQ ?_
      intro x hx
      have hxQ : x ∈ Q := (List.dropLast_sublist _).subset hx
      have hxrt : x ≠ rt := fun h => hrtQ (by rw [h] at hxQ; exact hxQ)
      exact (updF_ne f dh hxrt).symm
    · intro x hx y hy
      rw [List.getLast?_concat] at hx
      simp only [Option.mem_def, Option.some.injEq] at hx
      subst hx
      rw [updF_eq, hh]
      simp only [Option.mem_def] at hy
      rw [hy]
  · intro x hx
    cases Q with
    | nil =>
      rw [List.append_nil, List.getLast?_concat] at hx
      simp only [Option.some.injEq] at hx
      subst hx
      rw [updF_eq, hh]
      rfl
    | cons q0 Qt =>
      have hg : ∃ z, (q0 :: Qt).getLast? = some z := by
        cases hgz : (q0 :: Qt).getLast? with
        | none => simp at hgz
        | some z => exact ⟨z, rfl⟩
      obtain ⟨z, hgz⟩ := hg
      rw [List.getLast?_append, hgz] at hx
      simp only [Option.or_some, Option.some.injEq] at hx
      subst hx
      have hzQ : z ∈ q0 :: Qt := List.mem_of_getLast?_eq_some hgz
      have hzrt : z ≠ rt := fun h => hrtQ (by rw [h] at hzQ; exact hzQ)
      rw [updF_ne f dh hzrt]
      exact htermQ z hgz

/-- Duplicate-freeness transfers along a pointwise count bound. -/
theorem nodup_of_count_le {l1 l2 : List Nat} (hnd : l2.Nodup)
    (hc : ∀ a, l1.count a ≤ l2.count a) : l1.Nodup := by
  rw [List.nodup_iff_count_le_one] at hnd ⊢
  intro a
  exact le_trans (hc a) (hnd a)

/-- The four pointer assignments of cosplice for iterator position and
iterator left limit. -/
theorem cospliceW_some_some (heap : Nat → Option Nat)
    (dh sh : Option Nat) (q a rt : Nat) :
    cospliceW heap dh sh (some q) (some a) rt =
      (updF (updF (updF heap a (heap rt)) rt
        (updF heap a (heap rt) q)) q (heap a), dh, sh) := rfl

/-- The pointer assignments of cosplice for iterator position and front
sentinel left limit. -/
theorem cospliceW_some_none (heap : Nat → Option Nat)
    (dh sh : Option Nat) (q rt : Nat) :
    cospliceW heap dh sh (some q) none rt =
      (updF (updF heap rt (heap q)) q sh, dh, heap rt) := rfl

/-- The pointer assignments of cosplice for front sentinel position and
iterator left limit. -/
theorem cospliceW_none_some (heap : Nat → Option Nat)
    (dh sh : Option Nat) (a rt : Nat) :
    cospliceW heap dh sh none (some a) rt =
      (updF (updF heap a (heap rt)) rt dh, heap a, sh) := rfl

/-- The pointer assignments of cosplice for front sentinel position and
front sentinel left limit. -/
theorem cospliceW_none_none (heap : Nat → Option Nat)
    (dh sh : Option Nat) (rt : Nat) :
    cospliceW heap dh sh none none rt =
      (updF heap rt dh, sh, heap rt) := rfl

/-- Cross-sequence cosplice at the pointer level: the corange (lt, rt]
holding S moves from the source to right after pos in the destination;
both resulting sequences are represented exactly as the contract says. -/
theorem cospliceW_spec {heap : Nat → Option Nat}
    {dstHead srcHead : Option Nat} {posL Q ltL S R : List Nat} {rt : Nat}
    (hD : Rep heap dstHead (posL ++ Q))
    (hS : Rep heap srcHead (ltL ++ S ++ R))
    (hnd : (posL ++ Q ++ (ltL ++ S ++ R)).Nodup)
    (hrt : S.getLast? = some rt) :
    Rep (cospliceW heap dstHead srcHead posL.getLast? ltL.getLast? rt).1
      (cospliceW heap dstHead srcHead posL.getLast? ltL.getLast? rt).2.1
      (posL ++ S ++ Q) ∧
    Rep (cospliceW heap dstHead srcHead posL.getLast? ltL.getLast? rt).1
      (cospliceW heap dstHead srcHead posL.getLast? ltL.getLast? rt).2.2
      (ltL ++ R) := by
  have hndsrc : (ltL ++ S ++ R).Nodup := List.Nodup.of_append_right hnd
  have hdisjDS : (posL ++ Q).Disjoint (ltL ++ S ++ R) :=
    List.disjoint_of_nodup_append hnd
  have hrtS : rt ∈ S := List.mem_of_getLast?_eq_some hrt
  rcases List.eq_nil_or_concat ltL with rfl | ⟨ltI, a, hlt⟩
  · -- the source left limit is the front sentinel
    rw [List.nil_append] at hS hndsrc ⊢
    simp only [List.getLast?_nil]
    obtain ⟨hcutRep, hcutS, hsh⟩ := cut_none_spec hS hrt
    have hrtR : rt ∉ R := by
      rw [List.nodup_append] at hndsrc
      exact fun hin => hndsrc.2.2 hrtS hin
    rcases List.eq_nil_or_concat posL with rfl | ⟨posI, q, hpos⟩
    · rw [List.nil_append] at hD ⊢
      simp only [List.getLast?_nil, cospliceW_none_none]
      constructor
      · rw [hsh]
        refine insert_none_spec hD hcutS hrt ?_
        refine nodup_of_count_le hnd ?_
        intro x
        simp only [List.count_append]
        omega
      · refine rep_eq_on hcutRep ?_
        intro x hx
        exact (updF_ne heap dstHead
          (fun h => hrtR (by rw [h] at hx; exact hx))).symm
    · subst hpos
      rw [List.concat_eq_append] at hD hnd hdisjDS ⊢
      rw [List.getLast?_concat]
      simp only [cospliceW_some_none]
      have hqD : q ∈ posI ++ [q] ++ Q := by simp
      constructor
      · rw [hsh]
        refine insert_some_spec hD hcutS hrt ?_
        refine nodup_of_count_le hnd ?_
        intro x
        simp only [List.count_append]
        omega
      · refine rep_eq_on hcutRep ?_
        intro x hx
        have hxsrc : x ∈ S ++ R := List.mem_append_right S hx
        have hxq : x ≠ q := fun h => hdisjDS hqD (by rw [← h]; exact hxsrc)
        have hxrt : x ≠ rt := fun h =>
          hrtR (by rw [h] at hx; exact hx)
        rw [updF_ne _ _ hxq, updF_ne _ _ hxrt]
  · -- the source left limit is a node a
    subst hlt
    rw [List.concat_eq_append] at hS hnd hndsrc hdisjDS ⊢
    rw [List.getLast?_concat]
    obtain ⟨hcutRep, hcutS, hfa⟩ := cut_some_spec hS hndsrc hrt
    have haS2 : a ∈ ltI ++ [a] ++ S ++ R := by simp
    have hrtLR : rt ∉ ltI ++ [a] ++ R := by
      rw [List.nodup_append] at hndsrc
      obtain ⟨h12, hR2, hd3⟩ := hndsrc
      rw [List.nodup_append] at h12
      obtain ⟨hL2, hS2, hd2⟩ := h12
      intro hin
      rcases List.mem_append.1 hin with h1 | h2
      · exact hd2 h1 hrtS
      · exact hd3 (List.mem_append_right _ hrtS) h2
    have hDnf1 : Rep (updF heap a (heap rt)) dstHead (posL ++ Q) := by
      refine rep_eq_on hD ?_
      intro x hx
      exact (updF_ne heap (heap rt)
        (fun h => hdisjDS hx (by rw [h]; exact haS2))).symm
    rcases List.eq_nil_or_concat posL with rfl | ⟨posI, q, hpos⟩
    · rw [List.nil_append] at hDnf1 ⊢
      simp only [List.getLast?_nil, cospliceW_none_some]
      constructor
      · rw [hfa]
        refine insert_none_spec hDnf1 hcutS hrt ?_
        refine nodup_of_count_le hnd ?_
        intro x
        simp only [List.count_append]
        omega
      · refine rep_eq_on hcutRep ?_
        intro x hx
        exact (updF_ne _ dstHead
          (fun h => hrtLR (by rw [h] at hx; exact hx))).symm
    · subst hpos
      rw [List.concat_eq_append] at hDnf1 hnd hdisjDS ⊢
      rw [List.getLast?_concat]
      simp only [cospliceW_some_some]
      have hqD : q ∈ posI ++ [q] ++ Q := by simp
      constructor
      · rw [hfa]
        refine insert_some_spec hDnf1 hcutS hrt ?_
        refine nodup_of_count_le hnd ?_
        intro x
        simp only [List.count_append]
        omega
      · refine rep_eq_on hcutRep ?_
        intro x hx
        have hxsrc : x ∈ ltI ++ [a] ++ S ++ R := by
          rcases List.mem_append.1 hx with h1 | h2
          · exact List.mem_append_left _ (List.mem_append_left _ h1)
          · exact List.mem_append_right _ h2
        have hxq : x ≠ q := fun h => hdisjDS hqD (by rw [← h]; exact hxsrc)
        have hxrt : x ≠ rt := fun h =>
          hrtLR (by rw [h] at hx; exact hx)
        rw [updF_ne _ _ hxq, updF_ne _ _ hxrt]

/-- The four pointer assignments of the same-list cosplice for iterator
position and iterator left limit. -/
theorem cospliceLL_some_some (s : LL) (q a rt : Nat) :
    cospliceLL s (some q) (some a) rt =
      { head := s.head,
        next := updF (updF (updF s.next a (s.next rt)) rt
          (updF s.next a (s.next rt) q)) q (s.next a) } := rfl

/-- The pointer assignments of the same-list cosplice for iterator
position and front sentinel left limit. -/
theorem cospliceLL_some_none (s : LL) (q rt : Nat) :
    cospliceLL s (some q) none rt =
      { head := s.next rt,
        next := updF (updF s.next rt (s.next q)) q s.head } := rfl

/-- The pointer assignments of the same-list cosplice for front sentinel
position and iterator left limit. -/
theorem cospliceLL_none_some (s : LL) (a rt : Nat) :
    cospliceLL s none (some a) rt =
      { head := s.next a,
        next := updF (updF s.next a (s.next rt)) rt s.head } := rfl

/-- The pointer assignments of the same-list cosplice for front sentinel
position and front sentinel left limit. -/
theorem cospliceLL_none_none (s : LL) (rt : Nat) :
    cospliceLL s none none rt =
      { head := s.head, next := updF s.next rt (s.next rt) } := rfl

/-- Same-list cosplice at the pointer level: the corange (lt, rt] holding
S moves to right after pos inside the one list, and the result is
represented exactly as the contract says. -/
theorem cospliceLL_spec {s : LL} {ltL S R posL Q : List Nat} {rt : Nat}
    (hRep : Rep s.next s.head (ltL ++ S ++ R))
    (hnd : (ltL ++ S ++ R).Nodup)
    (hsplit : ltL ++ R = posL ++ Q)
    (hrt : S.getLast? = some rt) :
    Rep (cospliceLL s posL.getLast? ltL.getLast? rt).next
      (cospliceLL s posL.getLast? ltL.getLast? rt).head
      (posL ++ S ++ Q) := by
  have hndT : (posL ++ S ++ Q).Nodup := by
    refine nodup_of_count_le hnd ?_
    intro x
    have hcnt : (ltL ++ R).count x = (posL ++ Q).count x := by
      rw [hsplit]
    simp only [List.count_append] at hcnt ⊢
    omega
  have hrtS : rt ∈ S := List.mem_of_getLast?_eq_some hrt
  rcases List.eq_nil_or_concat ltL with rfl | ⟨ltI, a, hlt⟩
  · rw [List.nil_append] at hsplit
    simp only [List.getLast?_nil]
    obtain ⟨hcutRep, hcutS, hsh⟩ := cut_none_spec hRep hrt
    rw [hsplit] at hcutRep
    rcases List.eq_nil_or_concat posL with rfl | ⟨posI, q, hpos⟩
    · rw [List.nil_append] at hcutRep hndT ⊢
      simp only [List.getLast?_nil, cospliceLL_none_none]
      rw [hsh]
      exact insert_none_spec hcutRep hcutS hrt hndT
    · subst hpos
      rw [List.concat_eq_append] at hcutRep hndT ⊢
      rw [List.getLast?_concat]
      simp only [cospliceLL_some_none]
      rw [hsh]
      exact insert_some_spec hcutRep hcutS hrt hndT
  · subst hlt
    rw [List.concat_eq_append] at hRep hnd hsplit ⊢
    rw [List.getLast?_concat]
    obtain ⟨hcutRep, hcutS, hfa⟩ := cut_some_spec hRep hnd hrt
    rw [hsplit] at hcutRep
    rcases List.eq_nil_or_concat posL with rfl | ⟨posI, q, hpos⟩
    · rw [List.nil_append] at hcutRep hndT ⊢
      simp only [List.getLast?_nil, cospliceLL_none_some]
      rw [hfa]
      exact insert_none_spec hcutRep hcutS hrt hndT
    · subst hpos
      rw [List.concat_eq_append] at hcutRep hndT ⊢
      rw [List.getLast?_concat]
      simp only [cospliceLL_some_some]
      rw [hfa]
      exact insert_some_spec hcutRep hcutS hrt hndT

/-- Claim C6: cosplice moves exactly the elements of the corange (lt, rt]
(the run S), in their original relative order, to immediately follow pos,
and leaves the relative order of all remaining elements of both sequences
unchanged.  First conjunct: the same-sequence case (the sequence holds
ltL, then S ending at rt, then R; pos is the last element of the prefix
posL of the remaining sequence, the front sentinel when posL is empty).
Second conjunct: the cross-sequence case on a shared node heap, giving
both resulting sequences.  Third conjunct: splicing the corange away and
then splicing the same elements back at their original position
reconstructs both original sequences exactly (the identity law). -/
theorem cosplice_ok :
    (∀ (M ltL S R posL Q : List Nat) (rt : Nat),
      M = ltL ++ S ++ R → ltL ++ R = posL ++ Q → M.Nodup →
      S.getLast? = some rt →
      (cospliceLL (ofListLL M) posL.getLast? ltL.getLast? rt).toList
        (posL ++ S ++ Q).length = posL ++ S ++ Q) ∧
    (∀ (D Sr ltL S R posL Q : List Nat) (rt : Nat),
      D = posL ++ Q → Sr = ltL ++ S ++ R → (D ++ Sr).Nodup →
      S.getLast? = some rt →
      walkLL (cospliceW (heapOf D Sr) D.head? Sr.head? posL.getLast?
          ltL.getLast? rt).1 (posL ++ S ++ Q).length
        (cospliceW (heapOf D Sr) D.head? Sr.head? posL.getLast?
          ltL.getLast? rt).2.1 = posL ++ S ++ Q ∧
      walkLL (cospliceW (heapOf D Sr) D.head? Sr.head? posL.getLast?
          ltL.getLast? rt).1 (ltL ++ R).length
        (cospliceW (heapOf D Sr) D.head? Sr.head? posL.getLast?
          ltL.getLast? rt).2.2 = ltL ++ R) ∧
    (∀ (D Sr ltL S R posL Q : List Nat) (rt : Nat),
      D = posL ++ Q → Sr = ltL ++ S ++ R → (D ++ Sr).Nodup →
      S.getLast? = some rt →
      walkLL (cospliceW
          (cospliceW (heapOf D Sr) D.head? Sr.head? posL.getLast?
            ltL.getLast? rt).1
          (cospliceW (heapOf D Sr) D.head? Sr.head? posL.getLast?
            ltL.getLast? rt).2.2
          (cospliceW (heapOf D Sr) D.head? Sr.head? posL.getLast?
            ltL.getLast? rt).2.1
          ltL.getLast? posL.getLast? rt).1 Sr.length
        (cospliceW
          (cospliceW (heapOf D Sr) D.head? Sr.head? posL.getLast?
            ltL.getLast? rt).1
          (cospliceW (heapOf D Sr) D.head? Sr.head? posL.getLast?
            ltL.getLast? rt).2.2
          (cospliceW (heapOf D Sr) D.head? Sr.head? posL.getLast?
            ltL.getLast? rt).2.1
          ltL.getLast? posL.getLast? rt).2.1 = Sr ∧
      walkLL (cospliceW
          (cospliceW (heapOf D Sr) D.head? Sr.head? posL.getLast?
            ltL.getLast? rt).1
          (cospliceW (heapOf D Sr) D.head? Sr.head? posL.getLast?
            ltL.getLast? rt).2.2
          (cospliceW (heapOf D Sr) D.head? Sr.head? posL.getLast?
            ltL.getLast? rt).2.1
          ltL.getLast? posL.getLast? rt).1 D.length
        (cospliceW
          (cospliceW (heapOf D Sr) D.head? Sr.head? posL.getLast?
            ltL.getLast? rt).1
          (cospliceW (heapOf D Sr) D.head? Sr.head? posL.getLast?
            ltL.getLast? rt).2.2
          (cospliceW (heapOf D Sr) D.head? Sr.head? posL.getLast?
            ltL.getLast? rt).2.1
          ltL.getLast? posL.getLast? rt).2.2 = D) := by
  refine ⟨?_, ?_, ?_⟩
  · intro M ltL S R posL Q rt hM hsplit hnd hrt
    subst hM
    have hr := cospliceLL_spec (s := ofListLL (ltL ++ S ++ R))
      (rep_ofListLL hnd) hnd hsplit hrt
    exact rep_walk hr
  · intro D Sr ltL S R posL Q rt hDe hSe hnd hrt
    subst hDe
    subst hSe
    have hr := cospliceW_spec (rep_heapOf_dst hnd) (rep_heapOf_src hnd)
      hnd hrt
    exact ⟨rep_walk hr.1, rep_walk hr.2⟩
  · intro D Sr ltL S R posL Q rt hDe hSe hnd hrt
    subst hDe
    subst hSe
    have hr := cospliceW_spec (rep_heapOf_dst hnd) (rep_heapOf_src hnd)
      hnd hrt
    have hnd2 : (ltL ++ R ++ (posL ++ S ++ Q)).Nodup := by
      refine nodup_of_count_le hnd ?_
      intro x
      simp only [List.count_append]
      omega
    have hr2 := @cospliceW_spec _ _ _ ltL R posL S Q rt hr.2 hr.1
      hnd2 hrt
    exact ⟨rep_walk hr2.1, rep_walk hr2.2⟩

/-- Witness for claim C6: moving the corange holding 2, 3 in all three
scenarios on small concrete sequences. -/
theorem cosplice_ok_w :
    ((cospliceLL (ofListLL [1, 2, 3, 4]) ([1, 4] : List Nat).getLast?
        ([1] : List Nat).getLast? 3).toList
      ([1, 4] ++ [2, 3] ++ ([] : List Nat)).length =
        [1, 4] ++ [2, 3] ++ ([] : List Nat)) ∧
    (walkLL (cospliceW (heapOf [5, 6] [1, 2, 3, 4])
        ([5, 6] : List Nat).head? ([1, 2, 3, 4] : List Nat).head?
        ([5] : List Nat).getLast? ([1] : List Nat).getLast? 3).1
      ([5] ++ [2, 3] ++ [6]).length
      (cospliceW (heapOf [5, 6] [1, 2, 3, 4])
        ([5, 6] : List Nat).head? ([1, 2, 3, 4] : List Nat).head?
        ([5] : List Nat).getLast? ([1] : List Nat).getLast? 3).2.1 =
        [5] ++ [2, 3] ++ [6]) := by
  constructor
  · exact cosplice_ok.1 [1, 2, 3, 4] [1] [2, 3] [4] [1, 4] [] 3
      (by decide) (by decide) (by decide) (by decide)
  · exact (cosplice_ok.2.1 [5, 6] [1, 2, 3, 4] [1] [2, 3] [4] [5] [6] 3
      (by decide) (by decide) (by decide) (by decide)).1

/-! Claim C7: exception safety of the bucket sort auxiliary storage. -/

/-- A successful bucket scan splits the descriptors it was given: the
skipped prefix and the unscanned remainder recompose the input. -/
theorem bsScanE_shape {V : Type} (iseq comp : V → V → Bool) (v : V) :
    ∀ (front : List (Nat × Elt V)) (bud : Nat)
      (pre : List (Nat × Elt V)) (f : Bool)
      (post : List (Nat × Elt V)) (b2 : Nat),
      bsScanE iseq comp v front bud = Except.ok (pre, f, post, b2) →
      pre ++ post = front := by
  intro front
  induction front with
  | nil =>
    intro bud pre f post b2 h
    rw [bsScanE] at h
    simp only [Except.ok.injEq, Prod.mk.injEq] at h
    obtain ⟨h1, _, h3, _⟩ := h
    rw [← h1, ← h3]
    rfl
  | cons b bs ih =>
    intro bud pre f post b2 h
    cases bud with
    | zero =>
      rw [bsScanE] at h
      exact absurd h (by simp)
    | succ bud1 =>
      cases bud1 with
      | zero =>
        rw [bsScanE] at h
        by_cases hiseq : iseq v b.2.2 = true
        · rw [if_pos hiseq] at h
          simp only [Except.ok.injEq, Prod.mk.injEq] at h
          obtain ⟨h1, _, h3, _⟩ := h
          rw [← h1, ← h3]
          rfl
        · rw [if_neg hiseq] at h
          exact absurd h (by simp)
      | succ bud2 =>
        rw [bsScanE] at h
        by_cases hiseq : iseq v b.2.2 = true
        · rw [if_pos hiseq] at h
          simp only [Except.ok.injEq, Prod.mk.injEq] at h
          obtain ⟨h1, _, h3, _⟩ := h
          rw [← h1, ← h3]
          rfl
        · rw [if_neg hiseq] at h
          by_cases hcomp : comp v b.2.2 = true
          · rw [if_pos hcomp] at h
            simp only [Except.ok.injEq, Prod.mk.injEq] at h
            obtain ⟨h1, _, h3, _⟩ := h
            rw [← h1, ← h3]
            rfl
          · rw [if_neg hcomp] at h
            cases hrec : bsScanE iseq comp v bs bud2 with
            | error e =>
              rw [hrec] at h
              exact absurd h (by simp)
            | ok r =>
              obtain ⟨pre1, f1, post1, b3⟩ := r
              rw [hrec] at h
              simp only [Except.ok.injEq, Prod.mk.injEq] at h
              obtain ⟨h1, _, h3, _⟩ := h
              rw [← h1, ← h3, List.cons_append,
                ih bud2 pre1 f1 post1 b3 hrec]

/-- The leak-freedom invariant of the bucket sort traversal: whenever the
constructed-descriptor counter equals the live flat_list size, every exit
of the loop, normal or throwing, reports equal constructed and destroyed
counts. -/
theorem bsLoopE_balance {V : Type} [Inhabited V]
    (iseq comp : V → V → Bool) (max : Nat) :
    ∀ (n : Nat) (rem : List (Elt V)), rem.length ≤ n →
      ∀ (front : List (Nat × Elt V)) (lastB : Nat × Elt V) (dirty : Bool)
        (ctr bud : Nat), ctr = front.length + 1 →
      ∀ (c m : Nat),
        (bsLoopE iseq comp max front lastB dirty ctr bud rem =
            Except.ok (c, m) → c = m) ∧
        (bsLoopE iseq comp max front lastB dirty ctr bud rem =
            Except.error (c, m) → c = m) := by
  intro n
  induction n with
  | zero =>
    intro rem hlen front lastB dirty ctr bud hctr c m
    have hrem : rem = [] := by
      cases rem with
      | nil => rfl
      | cons x xs => simp at hlen
    subst hrem
    rw [bsLoopE]
    refine ⟨fun h => ?_, fun h => ?_⟩
    · simp only [Except.ok.injEq, Prod.mk.injEq] at h
      omega
    · simp at h
  | succ n ih =>
    intro rem hlen front lastB dirty ctr bud hctr c m
    cases rem with
    | nil =>
      rw [bsLoopE]
      refine ⟨fun h => ?_, fun h => ?_⟩
      · simp only [Except.ok.injEq, Prod.mk.injEq] at h
        omega
      · simp at h
    | cons it rest =>
      have hlen2 : rest.length ≤ n := by
        simp only [List.length_cons] at hlen
        omega
      cases bud with
      | zero =>
        rw [bsLoopE]
        refine ⟨fun h => ?_, fun h => ?_⟩
        · simp at h
        · simp only [Except.error.injEq, Prod.mk.injEq] at h
          omega
      | succ bud0 =>
        cases bud0 with
        | zero =>
          rw [bsLoopE]
          by_cases h1 : iseq it.2 lastB.2.2 = true
          · rw [if_pos h1]
            exact ih rest hlen2 front _ dirty ctr 0 hctr c m
          · rw [if_neg h1]
            refine ⟨fun h => ?_, fun h => ?_⟩
            · simp at h
            · simp only [Except.error.injEq, Prod.mk.injEq] at h
              omega
        | succ bud2 =>
          rw [bsLoopE]
          by_cases h1 : iseq it.2 lastB.2.2 = true
          · rw [if_pos h1]
            exact ih rest hlen2 front _ dirty ctr (bud2 + 1) hctr c m
          · rw [if_neg h1]
            by_cases h2 : comp lastB.2.2 it.2 = true
            · rw [if_pos h2]
              by_cases h3 : front.length + 1 < max
              · rw [if_pos h3]
                refine ih rest hlen2 (front ++ [lastB]) _ dirty (ctr + 1)
                  bud2 ?_ c m
                simp [hctr]
              · rw [if_neg h3]
                exact ih rest hlen2 front _ true ctr bud2 hctr c m
            · rw [if_neg h2]
              cases hrs : bsRunScanE iseq it.2 rest bud2 with
              | error e =>
                dsimp only
                refine ⟨fun h => ?_, fun h => ?_⟩
                · simp at h
                · simp only [Except.error.injEq, Prod.mk.injEq] at h
                  omega
              | ok r =>
                obtain ⟨tk, bud3⟩ := r
                dsimp only
                have hlen3 : (rest.drop tk.length).length ≤ n := by
                  rw [List.length_drop]
                  omega
                cases hsc : bsScanE iseq comp it.2 front bud3 with
                | error e =>
                  dsimp only
                  refine ⟨fun h => ?_, fun h => ?_⟩
                  · simp at h
                  · simp only [Except.error.injEq, Prod.mk.injEq] at h
                    omega
                | ok r2 =>
                  obtain ⟨pre, found, post, bud4⟩ := r2
                  have hshape := bsScanE_shape iseq comp it.2 front bud3
                    pre found post bud4 hsc
                  have hl := congrArg List.length hshape
                  simp only [List.length_append] at hl
                  cases found with
                  | true =>
                    cases post with
                    | nil =>
                      dsimp only
                      rw [if_pos rfl]
                      refine ⟨fun h => ?_, fun h => ?_⟩
                      · simp only [Except.ok.injEq, Prod.mk.injEq] at h
                        omega
                      · simp at h
                    | cons bj post2 =>
                      dsimp only
                      refine ih (rest.drop tk.length) hlen3
                        (pre ++ (bj.1 + (it :: tk).length,
                          (it :: tk).getLastD default) :: post2)
                        lastB dirty ctr bud4 ?_ c m
                      simp only [List.length_cons] at hl
                      simp only [List.length_append, List.length_cons]
                      omega
                  | false =>
                    dsimp only
                    rw [if_neg (by simp)]
                    by_cases h4 : front.length + 1 < max
                    · rw [if_neg (by simp [h4])]
                      cases hpl : pre.getLast? with
                      | none =>
                        dsimp only
                        refine ih (rest.drop tk.length) hlen3
                          (((it :: tk).length,
                            (it :: tk).getLastD default) :: front)
                          lastB dirty (ctr + 1) bud4 ?_ c m
                        simp only [List.length_cons]
                        omega
                      | some pb =>
                        dsimp only
                        refine ih (rest.drop tk.length) hlen3
                          (pre ++ ((it :: tk).length,
                            (it :: tk).getLastD default) :: post)
                          lastB dirty (ctr + 1) bud4 ?_ c m
                        simp only [List.length_append, List.length_cons]
                        omega
                    · rw [if_pos (by simp [h4])]
                      exact ih (rest.drop tk.length) hlen3 front _ true
                        ctr bud4 hctr c m

/-- Claim C7: on every exit path of bucket_sort_splice, normal return or
an exception thrown by the comparison or equivalence predicate (modelled
by an exhausted call budget), the count of bucket descriptors constructed
in the auxiliary flat_list equals the count of live descriptors destroyed
by its destructor on that exit path: acquisition is always matched by
release and no descriptor leaks, for every capacity, content and throw
point. -/
theorem bucket_sort_no_leak {V : Type} [Inhabited V]
    (iseq comp : V → V → Bool) (max : Nat) (content : List (Elt V))
    (budget : Nat) :
    (bucket_sort_throws iseq comp max content budget).1 =
      (bucket_sort_throws iseq comp max content budget).2.1 := by
  cases content with
  | nil => rfl
  | cons x rest =>
    rw [bucket_sort_throws]
    have hb := bsLoopE_balance iseq comp max rest.length rest le_rfl
      [] (1, x) false 1 budget (by simp)
    cases hres : bsLoopE iseq comp max [] (1, x) false 1 budget rest with
    | ok r =>
      obtain ⟨ctr, mem⟩ := r
      exact (hb ctr mem).1 hres
    | error r =>
      obtain ⟨ctr, mem⟩ := r
      exact (hb ctr mem).2 hres

/-! Claim C10: the flat_list capacity precondition. -/

/-- The bucket scan splits the descriptors it was given: the skipped
prefix and the unscanned remainder recompose the input. -/
theorem bsScan_shape {V : Type} (iseq comp : V → V → Bool) (v : V) :
    ∀ (front : List (Nat × Elt V)) (pre : List (Nat × Elt V)) (f : Bool)
      (post : List (Nat × Elt V)),
      bsScan iseq comp v front = (pre, f, post) →
      pre ++ post = front := by
  intro front
  induction front with
  | nil =>
    intro pre f post h
    rw [bsScan] at h
    simp only [Prod.mk.injEq] at h
    obtain ⟨h1, _, h3⟩ := h
    rw [← h1, ← h3]
    rfl
  | cons b bs ih =>
    intro pre f post h
    rw [bsScan] at h
    by_cases hiseq : iseq v b.2.2 = true
    · rw [if_pos hiseq] at h
      simp only [Prod.mk.injEq] at h
      obtain ⟨h1, _, h3⟩ := h
      rw [← h1, ← h3]
      rfl
    · rw [if_neg hiseq] at h
      by_cases hcomp : comp v b.2.2 = true
      · rw [if_pos hcomp] at h
        simp only [Prod.mk.injEq] at h
        obtain ⟨h1, _, h3⟩ := h
        rw [← h1, ← h3]
        rfl
      · rw [if_neg hcomp] at h
        cases hrec : bsScan iseq comp v bs with
        | mk pre1 r1 =>
          obtain ⟨f1, post1⟩ := r1
          rw [hrec] at h
          dsimp only at h
          simp only [Prod.mk.injEq] at h
          obtain ⟨h1, _, h3⟩ := h
          rw [← h1, ← h3, List.cons_append, ih pre1 f1 post1 hrec]

/-- The capacity invariant of the bucket sort traversal: when the live
descriptor count is within the capacity and every emplace so far happened
under it, the whole traversal keeps the capOK record true and ends within
the capacity. -/
theorem bsLoop_capacity {V : Type} [Inhabited V]
    (iseq comp : V → V → Bool) (max : Nat) :
    ∀ (n : Nat) (rem : List (Elt V)), rem.length ≤ n →
      ∀ (arranged : List (Elt V)) (front : List (Nat × Elt V))
        (lastB : Nat × Elt V) (dirty : Bool),
      front.length + 1 ≤ max →
      (bsLoop iseq comp max arranged front lastB dirty true
          rem).2.2.2.2 = true ∧
        (bsLoop iseq comp max arranged front lastB dirty true
          rem).2.1.length + 1 ≤ max := by
  intro n
  induction n with
  | zero =>
    intro rem hlen arranged front lastB dirty hcap
    have hrem : rem = [] := by
      cases rem with
      | nil => rfl
      | cons x xs => simp at hlen
    subst hrem
    rw [bsLoop]
    exact ⟨rfl, hcap⟩
  | succ n ih =>
    intro rem hlen arranged front lastB dirty hcap
    cases rem with
    | nil =>
      rw [bsLoop]
      exact ⟨rfl, hcap⟩
    | cons it rest =>
      have hlen2 : rest.length ≤ n := by
        simp only [List.length_cons] at hlen
        omega
      rw [bsLoop]
      by_cases h1 : iseq it.2 lastB.2.2 = true
      · rw [if_pos h1]
        exact ih rest hlen2 (arranged ++ [it]) front _ dirty hcap
      · rw [if_neg h1]
        by_cases h2 : comp lastB.2.2 it.2 = true
        · rw [if_pos h2]
          by_cases h3 : front.length + 1 < max
          · rw [if_pos h3]
            have hC : (true && decide (front.length + 1 < max)) = true :=
              by simp [h3]
            rw [hC]
            refine ih rest hlen2 (arranged ++ [it]) (front ++ [lastB])
              (1, it) dirty ?_
            simp only [List.length_append, List.length_cons,
              List.length_nil]
            omega
          · rw [if_neg h3]
            exact ih rest hlen2 (arranged ++ [it]) front _ true hcap
        · rw [if_neg h2]
          dsimp only
          cases hsc : bsScan iseq comp it.2 front with
          | mk pre r2 =>
            obtain ⟨found, post⟩ := r2
            have hshape := bsScan_shape iseq comp it.2 front
              pre found post hsc
            have hl := congrArg List.length hshape
            simp only [List.length_append] at hl
            have hlen3 :
                (rest.dropWhile (fun x => iseq it.2 x.2)).length ≤ n := by
              have := List.Sublist.length_le (List.dropWhile_sublist
                (fun x : Elt V => iseq it.2 x.2) (l := rest))
              omega
            cases found with
            | true =>
              cases post with
              | nil =>
                dsimp only
                rw [if_pos rfl]
                exact ⟨rfl, hcap⟩
              | cons bj post2 =>
                dsimp only
                refine ih _ hlen3 _
                  (pre ++ (bj.1 + (it :: rest.takeWhile
                      (fun x => iseq it.2 x.2)).length,
                    (it :: rest.takeWhile
                      (fun x => iseq it.2 x.2)).getLastD default) :: post2)
                  lastB dirty ?_
                simp only [List.length_cons] at hl
                simp only [List.length_append, List.length_cons]
                omega
            | false =>
              dsimp only
              rw [if_neg (by simp)]
              by_cases h4 : front.length + 1 < max
              · rw [if_neg (by simp [h4])]
                cases hpl : pre.getLast? with
                | none =>
                  dsimp only
                  have hC : (true && decide (front.length + 1 < max)) =
                      true := by simp [h4]
                  rw [hC]
                  refine ih _ hlen3 _
                    (((it :: rest.takeWhile
                        (fun x => iseq it.2 x.2)).length,
                      (it :: rest.takeWhile
                        (fun x => iseq it.2 x.2)).getLastD default) ::
                      front) lastB dirty ?_
                  simp only [List.length_cons]
                  omega
                | some pb =>
                  dsimp only
                  have hC : (true && decide (front.length + 1 < max)) =
                      true := by simp [h4]
                  rw [hC]
                  refine ih _ hlen3 _
                    (pre ++ ((it :: rest.takeWhile
                        (fun x => iseq it.2 x.2)).length,
                      (it :: rest.takeWhile
                        (fun x => iseq it.2 x.2)).getLastD default) ::
                      post) lastB dirty ?_
                  simp only [List.length_append, List.length_cons]
                  omega
              · rw [if_pos (by simp [h4])]
                exact ih _ hlen3 _ front _ true hcap

/-- Claim C10: with a positive bucket capacity, throughout the traversal
of bucket_sort_splice the auxiliary flat_list holds at most max
descriptors, and the capOK record stays true: every emplace_after call
(including the initial insertion of the first element into the empty
list, whose precondition 0 < max holds) happened only while
memory.size() < max, so the capacity precondition of
flat_list::emplace_after is never violated; the overflow branch instead
only increments the existing last bucket's count. -/
theorem bucket_sort_capacity {V : Type} [Inhabited V]
    (iseq comp : V → V → Bool) (max : Nat) (hmax : 1 ≤ max)
    (lhs0 : Elt V) (rest : List (Elt V)) :
    (bsLoop iseq comp max [lhs0] [] (1, lhs0) false (decide (0 < max))
        rest).2.2.2.2 = true ∧
      (bsLoop iseq comp max [lhs0] [] (1, lhs0) false (decide (0 < max))
        rest).2.1.length + 1 ≤ max := by
  rw [show decide (0 < max) = true from by
    simp only [decide_eq_true_eq]
    omega]
  exact bsLoop_capacity iseq comp max rest.length rest le_rfl [lhs0] []
    (1, lhs0) false (by simpa using hmax)

/-- Witness for claim C10: the capacity stays respected on the sequence
8, 1, 9, 2, 10, 3 with classes given by division by four and at most four
buckets. -/
theorem bucket_sort_capacity_w :
    ((bsLoop intEqv intComp 4 [(0, (8 : Int))] [] (1, (0, (8 : Int)))
        false (decide (0 < 4))
        [(1, 1), (2, 9), (3, 2), (4, 10), (5, 3)]).2.2.2.2 = true ∧
      (bsLoop intEqv intComp 4 [(0, (8 : Int))] [] (1, (0, (8 : Int)))
        false (decide (0 < 4))
        [(1, 1), (2, 9), (3, 2), (4, 10), (5, 3)]).2.1.length + 1 ≤ 4) :=
  bucket_sort_capacity intEqv intComp 4 (by decide) (0, (8 : Int))
    [(1, 1), (2, 9), (3, 2), (4, 10), (5, 3)]

/-! Claims C1 and C2: bucket_sort_splice. -/

/-- Two elements of different classes compare strictly one way. -/
theorem comp_of_not_iseq {V : Type} {iseq comp : V → V → Bool}
    (hc : Consist iseq comp) {x y : V} (hne : iseq x y = false) :
    comp x y = true ∨ comp y x = true := by
  by_cases h1 : comp x y = true
  · exact Or.inl h1
  · by_cases h2 : comp y x = true
    · exact Or.inr h2
    · rw [Bool.not_eq_true] at h1 h2
      rw [hc.tie_imp h1 h2] at hne
      simp at hne

/-- The strict class order transfers along the class of the right
element. -/
theorem clt_transfer_right {V : Type} {iseq comp : V → V → Bool}
    (hc : Consist iseq comp) {x y y' : V}
    (hxy : comp x y = true) (hne : iseq x y = false)
    (hyy : iseq y y' = true) :
    comp x y' = true ∧ iseq x y' = false := by
  have hni : iseq x y' = false := by
    cases hi : iseq x y' with
    | false => rfl
    | true =>
      rw [hc.trans hi (hc.symm hyy)] at hne
      simp at hne
  rcases hc.compat hxy (hc.refl x) hyy with h1 | h1
  · exact ⟨h1, hni⟩
  · rw [h1] at hni
    simp at hni

/-- The strict class order transfers along the class of the left
element. -/
theorem clt_transfer_left {V : Type} {iseq comp : V → V → Bool}
    (hc : Consist iseq comp) {x x' y : V}
    (hxx : iseq x x' = true) (hxy : comp x y = true)
    (hne : iseq x y = false) :
    comp x' y = true ∧ iseq x' y = false := by
  have hni : iseq x' y = false := by
    cases hi : iseq x' y with
    | false => rfl
    | true =>
      rw [hc.trans hxx hi] at hne
      simp at hne
  rcases hc.compat hxy hxx (hc.refl y) with h1 | h1
  · exact ⟨h1, hni⟩
  · rw [h1] at hni
    simp at hni

/-- The strict class order is transitive. -/
theorem clt_trans {V : Type} {iseq comp : V → V → Bool} (h : SWO comp)
    (hc : Consist iseq comp) {x y z : V}
    (h1 : comp x y = true) (h2 : iseq x y = false)
    (h3 : comp y z = true) (h4 : iseq y z = false) :
    comp x z = true ∧ iseq x z = false := by
  refine ⟨?_, ?_⟩
  · by_cases hyx : comp x z = true
    · exact hyx
    · rw [Bool.not_eq_true] at hyx
      have := h.negtrans x z y hyx
      cases hzy : comp z y with
      | false =>
        have hxy2 := this hzy
        rw [h1] at hxy2
        simp at hxy2
      | true => exact absurd h3 (by rw [h.asymm z y hzy]; simp)
  · cases hi : iseq x z with
    | false => rfl
    | true =>
      rcases hc.compat h3 (hc.refl y) (hc.symm hi) with ha | ha
      · rw [h.asymm y x ha] at h1
        simp at h1
      · rw [hc.symm ha] at h2
        simp at h2

/-- A chain of strictly ordered bucket tails is pairwise ordered. -/
theorem chain_clt_pairwise {V : Type} {iseq comp : V → V → Bool}
    (h : SWO comp) (hc : Consist iseq comp) :
    ∀ {l : List (Nat × Elt V)},
      List.Chain' (fun b c => comp b.2.2 c.2.2 = true ∧
        iseq b.2.2 c.2.2 = false) l →
      List.Pairwise (fun b c => comp b.2.2 c.2.2 = true ∧
        iseq b.2.2 c.2.2 = false) l := by
  intro l
  induction l with
  | nil => intro _; simp
  | cons b t ih =>
    intro hch
    cases t with
    | nil => simp
    | cons c t2 =>
      have hbc := (List.chain'_cons.1 hch).1
      have hp2 := ih (List.chain'_cons.1 hch).2
      refine List.pairwise_cons.2 ⟨?_, hp2⟩
      intro x hx
      rcases List.mem_cons.1 hx with rfl | hx2
      · exact hbc
      · have hcx := (List.pairwise_cons.1 hp2).1 x hx2
        exact clt_trans h hc hbc.1 hbc.2 hcx.1 hcx.2

/-- Inserting a run of one class past a block of other classes does not
change any class filter. -/
theorem filter_class_swap {V : Type} {iseq comp : V → V → Bool}
    (hc : Consist iseq comp) (run Y : List (Elt V)) (itv : V)
    (hrun : ∀ x ∈ run, iseq itv x.2 = true)
    (hY : ∀ y ∈ Y, iseq itv y.2 = false) (v : V) :
    (run ++ Y).filter (fun e => iseq e.2 v) =
      (Y ++ run).filter (fun e => iseq e.2 v) := by
  by_cases hv : iseq itv v = true
  · have hYf : Y.filter (fun e => iseq e.2 v) = [] := by
      rw [List.filter_eq_nil_iff]
      intro y hy
      simp only [Bool.not_eq_true]
      cases hyv : iseq y.2 v with
      | false => rfl
      | true =>
        have := hc.trans hv (hc.symm hyv)
        rw [hY y hy] at this
        simp at this
    rw [List.filter_append, List.filter_append, hYf]
    simp
  · have hrf : run.filter (fun e => iseq e.2 v) = [] := by
      rw [List.filter_eq_nil_iff]
      intro x hx
      simp only [Bool.not_eq_true]
      cases hxv : iseq x.2 v with
      | false => rfl
      | true =>
        rw [hc.trans (hrun x hx) hxv] at hv
        simp at hv
    rw [List.filter_append, List.filter_append, hrf]
    simp

/-- Splitting a pointwise relation over an append with a marked middle
element. -/
theorem forall2_split {α β : Type} {R : α → β → Prop} :
    ∀ (l1 : List α) (x : α) (l2 : List α) (ys : List β),
      List.Forall₂ R (l1 ++ x :: l2) ys →
      ∃ ys1 y ys2, ys = ys1 ++ y :: ys2 ∧ List.Forall₂ R l1 ys1 ∧ R x y ∧
        List.Forall₂ R l2 ys2 := by
  intro l1
  induction l1 with
  | nil =>
    intro x l2 ys hf
    rw [List.nil_append] at hf
    cases ys with
    | nil => cases hf
    | cons y ys2 =>
      rw [List.forall₂_cons] at hf
      exact ⟨[], y, ys2, rfl, List.Forall₂.nil, hf.1, hf.2⟩
  | cons a l1t ih =>
    intro x l2 ys hf
    cases ys with
    | nil => cases hf
    | cons y0 yst =>
      rw [List.cons_append, List.forall₂_cons] at hf
      obtain ⟨ys1, y, ys2, rfl, hf1, hxy, hf2⟩ := ih x l2 yst hf.2
      exact ⟨y0 :: ys1, y, ys2, rfl, List.Forall₂.cons hf.1 hf1, hxy, hf2⟩

/-- The splice of a run after the element with the given tag lands right
after that element. -/
theorem spliceAfterTag_eq {V : Type} (t : Nat) (run : List (Elt V)) :
    ∀ (X Y : List (Elt V)) (e : Elt V), X.getLast? = some e → e.1 = t →
      (∀ x ∈ X.dropLast, x.1 ≠ t) →
      spliceAfterTag t run (X ++ Y) = X ++ run ++ Y := by
  intro X
  induction X with
  | nil => intro Y e he _ _; simp at he
  | cons a X2 ih =>
    intro Y e he ht hdl
    cases X2 with
    | nil =>
      simp only [List.getLast?_singleton, Option.some.injEq] at he
      subst he
      rw [List.cons_append, spliceAfterTag, if_pos ht]
      simp
    | cons a2 X3 =>
      have hane : a.1 ≠ t := by
        refine hdl a ?_
        rw [List.dropLast_cons₂]
        simp
      rw [List.cons_append, spliceAfterTag, if_neg hane]
      rw [ih Y e (by rw [List.getLast?_cons_cons] at he; exact he) ht ?_]
      · simp
      · intro x hx
        refine hdl x ?_
        rw [List.dropLast_cons₂]
        exact List.mem_cons_of_mem a hx

/-- A bucket segment lies entirely in the class of its tail. -/
theorem bseg_mem_class {V : Type} {iseq : V → V → Bool}
    {b : Nat × Elt V} {seg : List (Elt V)} (hb : BSeg iseq b seg)
    {x : Elt V} (hx : x ∈ seg) : iseq x.2 b.2.2 = true := by
  obtain ⟨hne, _, hlast, hcls⟩ := hb
  exact hcls x hx b.2 (List.mem_of_getLast?_eq_some hlast)

/-- Replacing the final element of a chain, given the junction
transfers. -/
theorem chain_concat_replace {α : Type} {R : α → α → Prop} :
    ∀ (l : List α) (b b' : α), List.Chain' R (l ++ [b]) →
      (∀ x, R x b → R x b') → List.Chain' R (l ++ [b']) := by
  intro l b b' hch htr
  rw [List.chain'_append] at hch ⊢
  refine ⟨hch.1, by simp, ?_⟩
  intro x hx y hy
  simp only [List.head?_cons, Option.mem_def, Option.some.injEq] at hy
  subst hy
  exact htr x (hch.2.2 x hx b (by simp))

/-- The full semantics of the bucket scan: it skips exactly the buckets
whose tails are inequivalent to and not above the element, stops with
found on an equivalent tail (which then heads the remainder), and stops
without found on a strictly greater tail. -/
theorem bsScan_spec {V : Type} (iseq comp : V → V → Bool) (v : V) :
    ∀ (front : List (Nat × Elt V)) (pre : List (Nat × Elt V)) (f : Bool)
      (post : List (Nat × Elt V)),
      bsScan iseq comp v front = (pre, f, post) →
      pre ++ post = front ∧
      (∀ b ∈ pre, iseq v b.2.2 = false ∧ comp v b.2.2 = false) ∧
      (f = true → ∃ bj post2, post = bj :: post2 ∧
        iseq v bj.2.2 = true) ∧
      (f = false → ∀ bj, post.head? = some bj →
        iseq v bj.2.2 = false ∧ comp v bj.2.2 = true) := by
  intro front
  induction front with
  | nil =>
    intro pre f post hh
    rw [bsScan] at hh
    simp only [Prod.mk.injEq] at hh
    obtain ⟨h1, h2, h3⟩ := hh
    subst h1
    subst h2
    subst h3
    refine ⟨rfl, by simp, by simp, by simp⟩
  | cons b bs ih =>
    intro pre f post hh
    rw [bsScan] at hh
    by_cases hiseq : iseq v b.2.2 = true
    · rw [if_pos hiseq] at hh
      simp only [Prod.mk.injEq] at hh
      obtain ⟨h1, h2, h3⟩ := hh
      subst h1
      subst h2
      subst h3
      refine ⟨rfl, by simp, fun _ => ⟨b, bs, rfl, hiseq⟩, by simp⟩
    · rw [if_neg hiseq] at hh
      rw [Bool.not_eq_true] at hiseq
      by_cases hcomp : comp v b.2.2 = true
      · rw [if_pos hcomp] at hh
        simp only [Prod.mk.injEq] at hh
        obtain ⟨h1, h2, h3⟩ := hh
        subst h1
        subst h2
        subst h3
        refine ⟨rfl, by simp, by simp, ?_⟩
        intro _ bj hbj
        simp only [List.head?_cons, Option.some.injEq] at hbj
        subst hbj
        exact ⟨hiseq, hcomp⟩
      · rw [if_neg hcomp] at hh
        rw [Bool.not_eq_true] at hcomp
        cases hrec : bsScan iseq comp v bs with
        | mk pre1 r1 =>
          obtain ⟨f1, post1⟩ := r1
          rw [hrec] at hh
          dsimp only at hh
          simp only [Prod.mk.injEq] at hh
          obtain ⟨h1, h2, h3⟩ := hh
          subst h1
          subst h2
          subst h3
          obtain ⟨hsh, hpre, hft, hff⟩ := ih _ _ _ hrec
          refine ⟨by rw [List.cons_append, hsh], ?_, hft, hff⟩
          intro b2 hb2
          rcases List.mem_cons.1 hb2 with rfl | hb2t
          · exact ⟨hiseq, hcomp⟩
          · exact hpre b2 hb2t

/-- Extending the arranged interval by one element equivalent to the
last bucket tail keeps the loop invariant (the fast-forward branch). -/
theorem binv_fast {V : Type} {iseq comp : V → V → Bool} (h : SWO comp)
    (hc : Consist iseq comp) {arranged : List (Elt V)}
    {front : List (Nat × Elt V)} {lastB : Nat × Elt V} {dirty : Bool}
    (hI : BInv iseq comp arranged front lastB dirty)
    {it : Elt V} (hit : iseq it.2 lastB.2.2 = true) :
    BInv iseq comp (arranged ++ [it]) front (lastB.1 + 1, it) dirty := by
  obtain ⟨segs, T, hA, hF, hTne, hcnt, hmem, hclean, hchain, hsep⟩ := hI
  have hlm : lastB.2 ∈ T := hmem
  refine ⟨segs, T ++ [it], ?_, hF, by simp, by simp [hcnt], by simp, ?_,
    ?_, ?_⟩
  · rw [hA, List.append_assoc]
  · intro hd
    obtain ⟨hlast, hcls⟩ := hclean hd
    have hlv : iseq lastB.2.2 it.2 = true := hc.symm hit
    refine ⟨by simp, ?_⟩
    intro x hx y hy
    rcases List.mem_append.1 hx with hx1 | hx2
    · rcases List.mem_append.1 hy with hy1 | hy2
      · exact hcls x hx1 y hy1
      · rcases List.mem_singleton.1 hy2 with rfl
        exact hc.trans (hcls x hx1 lastB.2 hlm) hlv
    · rcases List.mem_singleton.1 hx2 with rfl
      rcases List.mem_append.1 hy with hy1 | hy2
      · exact hc.symm (hc.trans (hcls y hy1 lastB.2 hlm) hlv)
      · rcases List.mem_singleton.1 hy2 with rfl
        exact hc.refl _
  · refine chain_concat_replace front lastB (lastB.1 + 1, it) hchain ?_
    intro x hx
    exact clt_transfer_right hc hx.1 hx.2 (hc.symm hit)
  · intro b hb t ht
    rcases List.mem_append.1 ht with ht1 | ht2
    · exact hsep b hb t ht1
    · have heq := List.mem_singleton.1 ht2
      rw [heq]
      have hbl := hsep b hb lastB.2 hlm
      cases hbi : iseq b.2.2 it.2 with
      | false => rfl
      | true =>
        rw [hc.trans hbi hit] at hbl
        simp at hbl

/-- No front bucket class contains an element above the last bucket
tail. -/
theorem front_not_iseq_new {V : Type} {iseq comp : V → V → Bool}
    (h : SWO comp) (hc : Consist iseq comp)
    {front : List (Nat × Elt V)} {lastB : Nat × Elt V}
    (hchain : List.Chain' (fun b c => comp b.2.2 c.2.2 = true ∧
      iseq b.2.2 c.2.2 = false) (front ++ [lastB]))
    {w : V} (hgt : comp lastB.2.2 w = true)
    {b : Nat × Elt V} (hb : b ∈ front) : iseq b.2.2 w = false := by
  have hpw := chain_clt_pairwise h hc hchain
  obtain ⟨_, _, hcross⟩ := List.pairwise_append.1 hpw
  obtain ⟨hcomp, hnei⟩ := hcross b hb lastB (by simp)
  cases hbi : iseq b.2.2 w with
  | false => rfl
  | true =>
    obtain ⟨hwl, _⟩ := clt_transfer_left hc hbi hcomp hnei
    rw [h.asymm lastB.2.2 w hgt] at hwl
    simp at hwl

/-- Starting a fresh last bucket above the old one keeps the loop
invariant (the new-bucket branch under capacity). -/
theorem binv_newlast {V : Type} {iseq comp : V → V → Bool} (h : SWO comp)
    (hc : Consist iseq comp) {arranged : List (Elt V)}
    {front : List (Nat × Elt V)} {lastB : Nat × Elt V}
    (hI : BInv iseq comp arranged front lastB false)
    {it : Elt V} (hne : iseq it.2 lastB.2.2 = false)
    (hgt : comp lastB.2.2 it.2 = true) :
    BInv iseq comp (arranged ++ [it]) (front ++ [lastB]) (1, it) false := by
  obtain ⟨segs, T, hA, hF, hTne, hcnt, hmem, hclean, hchain, hsep⟩ := hI
  obtain ⟨hlast, hcls⟩ := hclean rfl
  have hnel : iseq lastB.2.2 it.2 = false := by
    cases hx : iseq lastB.2.2 it.2 with
    | false => rfl
    | true =>
      rw [hc.symm hx] at hne
      simp at hne
  refine ⟨segs ++ [T], [it], ?_, ?_, by simp, by simp, by simp, ?_, ?_,
    ?_⟩
  · rw [hA, List.flatten_append]
    simp
  · exact List.rel_append hF
      (List.forall₂_cons.2 ⟨⟨hTne, hcnt, hlast, hcls⟩, List.Forall₂.nil⟩)
  · intro _
    refine ⟨rfl, ?_⟩
    intro x hx y hy
    have hx2 := List.mem_singleton.1 hx
    have hy2 := List.mem_singleton.1 hy
    rw [hx2, hy2]
    exact hc.refl _
  · rw [List.chain'_append]
    refine ⟨hchain, by simp, ?_⟩
    intro x hx y hy
    rw [List.getLast?_append, List.getLast?_singleton] at hx
    simp only [Option.or_some, Option.mem_def, Option.some.injEq] at hx
    subst hx
    simp only [List.head?_cons, Option.mem_def, Option.some.injEq] at hy
    subst hy
    exact ⟨hgt, hnel⟩
  · intro b hb t ht
    have ht2 := List.mem_singleton.1 ht
    rw [ht2]
    rcases List.mem_append.1 hb with hb1 | hb2
    · exact front_not_iseq_new h hc hchain hgt hb1
    · have hb3 := List.mem_singleton.1 hb2
      rw [hb3]
      exact hnel

/-- Absorbing one element above the last bucket tail into the dirty last
bucket keeps the loop invariant (the single-element overflow branch). -/
theorem binv_overflow_one {V : Type} {iseq comp : V → V → Bool}
    (h : SWO comp) (hc : Consist iseq comp) {arranged : List (Elt V)}
    {front : List (Nat × Elt V)} {lastB : Nat × Elt V} {dirty : Bool}
    (hI : BInv iseq comp arranged front lastB dirty)
    {it : Elt V} (hgt : comp lastB.2.2 it.2 = true) :
    BInv iseq comp (arranged ++ [it]) front (lastB.1 + 1, lastB.2)
      true := by
  obtain ⟨segs, T, hA, hF, hTne, hcnt, hmem, hclean, hchain, hsep⟩ := hI
  refine ⟨segs, T ++ [it], ?_, hF, by simp, by simp [hcnt],
    List.mem_append_left _ hmem, by simp, ?_, ?_⟩
  · rw [hA, List.append_assoc]
  · exact chain_concat_replace front lastB (lastB.1 + 1, lastB.2) hchain
      (fun x hx => hx)
  · intro b hb t ht
    rcases List.mem_append.1 ht with ht1 | ht2
    · exact hsep b hb t ht1
    · have ht3 := List.mem_singleton.1 ht2
      rw [ht3]
      exact front_not_iseq_new h hc hchain hgt hb

/-- Every element of a scanned run is in the class of its first
element. -/
theorem run_mem_class {V : Type} {iseq comp : V → V → Bool}
    (hc : Consist iseq comp) {it : Elt V} {tkw : List (Elt V)}
    (hkw : ∀ x ∈ tkw, iseq it.2 x.2 = true) {x : Elt V}
    (hx : x ∈ it :: tkw) : iseq it.2 x.2 = true := by
  rcases List.mem_cons.1 hx with h2 | h2
  · rw [h2]
    exact hc.refl _
  · exact hkw x h2

/-- A scanned run with its length and tail iterator is a valid bucket
segment. -/
theorem run_bseg {V : Type} [Inhabited V] {iseq comp : V → V → Bool}
    (hc : Consist iseq comp) {it : Elt V} {tkw : List (Elt V)}
    (hkw : ∀ x ∈ tkw, iseq it.2 x.2 = true) :
    BSeg iseq ((it :: tkw).length, (it :: tkw).getLastD default)
      (it :: tkw) := by
  refine ⟨by simp, rfl, getLast?_eq_getLastD (by simp), ?_⟩
  intro x hx y hy
  exact hc.trans (hc.symm (run_mem_class hc hkw hx))
    (run_mem_class hc hkw hy)

/-- The tail iterator of a run is in the class of its first element. -/
theorem run_itl_class {V : Type} [Inhabited V] {iseq comp : V → V → Bool}
    (hc : Consist iseq comp) {it : Elt V} {tkw : List (Elt V)}
    (hkw : ∀ x ∈ tkw, iseq it.2 x.2 = true) :
    iseq it.2 ((it :: tkw).getLastD default).2 = true := by
  refine run_mem_class hc hkw ?_
  exact List.mem_of_getLast?_eq_some (getLast?_eq_getLastD (by simp))

/-- A member of the right side of a pointwise relation has a partner. -/
theorem forall2_mem_right {α β : Type} {R : α → β → Prop} :
    ∀ {l1 : List α} {l2 : List β}, List.Forall₂ R l1 l2 → ∀ {y}, y ∈ l2 →
      ∃ x ∈ l1, R x y := by
  intro l1
  induction l1 with
  | nil =>
    intro l2 hf y hy
    cases hf
    simp at hy
  | cons a t ih =>
    intro l2 hf y hy
    cases l2 with
    | nil => simp at hy
    | cons b l2t =>
      rw [List.forall₂_cons] at hf
      rcases List.mem_cons.1 hy with h2 | h2
      · exact ⟨a, by simp, by rw [h2]; exact hf.1⟩
      · obtain ⟨x, hx1, hx2⟩ := ih hf.2 h2
        exact ⟨x, List.mem_cons_of_mem a hx1, hx2⟩

/-- No-found scan: the element is in no front bucket class at all. -/
theorem front_sep_scan {V : Type} {iseq comp : V → V → Bool}
    (h : SWO comp) (hc : Consist iseq comp)
    {front pre post : List (Nat × Elt V)} {lastB : Nat × Elt V}
    (hchain : List.Chain' (fun b c => comp b.2.2 c.2.2 = true ∧
      iseq b.2.2 c.2.2 = false) (front ++ [lastB]))
    (hsplit : pre ++ post = front) {w : V}
    (hscanpre : ∀ b ∈ pre, iseq w b.2.2 = false ∧ comp w b.2.2 = false)
    (hscanpost : ∀ bj, post.head? = some bj →
      iseq w bj.2.2 = false ∧ comp w bj.2.2 = true)
    {b : Nat × Elt V} (hb : b ∈ front) : iseq w b.2.2 = false := by
  rw [← hsplit] at hb
  rcases List.mem_append.1 hb with hb1 | hb2
  · exact (hscanpre b hb1).1
  · cases post with
    | nil => simp at hb2
    | cons b0 pt =>
      obtain ⟨hne0, hcomp0⟩ := hscanpost b0 rfl
      rcases List.mem_cons.1 hb2 with h2 | h2
      · rw [h2]
        exact hne0
      · have hpw := chain_clt_pairwise h hc hchain
        rw [← hsplit, List.append_assoc] at hpw
        have hpw2 := (List.pairwise_append.1
          ((List.pairwise_append.1 hpw).2.1)).1
        have hb0b := (List.pairwise_cons.1 hpw2).1 b h2
        exact (clt_trans h hc hcomp0 hne0 hb0b.1 hb0b.2).2

/-- Absorbing a whole unbucketed run into the dirty last bucket keeps the
loop invariant (the run overflow branch). -/
theorem binv_overflow_run {V : Type} [Inhabited V]
    {iseq comp : V → V → Bool} (h : SWO comp) (hc : Consist iseq comp)
    {arranged : List (Elt V)} {front pre post : List (Nat × Elt V)}
    {lastB : Nat × Elt V} {dirty : Bool}
    (hI : BInv iseq comp arranged front lastB dirty)
    {it : Elt V} {tkw : List (Elt V)}
    (hkw : ∀ x ∈ tkw, iseq it.2 x.2 = true)
    (hsplit : pre ++ post = front)
    (hscanpre : ∀ b ∈ pre, iseq it.2 b.2.2 = false ∧
      comp it.2 b.2.2 = false)
    (hscanpost : ∀ bj, post.head? = some bj →
      iseq it.2 bj.2.2 = false ∧ comp it.2 bj.2.2 = true) :
    BInv iseq comp (arranged ++ (it :: tkw)) front
      (lastB.1 + (it :: tkw).length, lastB.2) true := by
  obtain ⟨segs, T, hA, hF, hTne, hcnt, hmem, hclean, hchain, hsep⟩ := hI
  refine ⟨segs, T ++ (it :: tkw), ?_, hF, by simp, by simp [hcnt],
    List.mem_append_left _ hmem, by simp, ?_, ?_⟩
  · rw [hA, List.append_assoc]
  · exact chain_concat_replace front lastB _ hchain (fun x hx => hx)
  · intro b hb t ht
    rcases List.mem_append.1 ht with ht1 | ht2
    · exact hsep b hb t ht1
    · have hit : iseq it.2 b.2.2 = false :=
        front_sep_scan h hc hchain hsplit hscanpre hscanpost hb
      have htc : iseq it.2 t.2 = true := run_mem_class hc hkw ht2
      cases hbt : iseq b.2.2 t.2 with
      | false => rfl
      | true =>
        rw [hc.trans htc (hc.symm hbt)] at hit
        simp at hit

/-- Starting a new front bucket before all the others keeps the loop
invariant (the front-insert branch). -/
theorem binv_front_insert {V : Type} [Inhabited V]
    {iseq comp : V → V → Bool} (h : SWO comp) (hc : Consist iseq comp)
    {arranged : List (Elt V)} {front : List (Nat × Elt V)}
    {lastB : Nat × Elt V}
    (hI : BInv iseq comp arranged front lastB false)
    {it : Elt V} {tkw : List (Elt V)}
    (hkw : ∀ x ∈ tkw, iseq it.2 x.2 = true)
    (hne : iseq it.2 lastB.2.2 = false)
    (hlt : comp it.2 lastB.2.2 = true)
    (hscanpost : ∀ bj, front.head? = some bj →
      iseq it.2 bj.2.2 = false ∧ comp it.2 bj.2.2 = true) :
    BInv iseq comp ((it :: tkw) ++ arranged)
      (((it :: tkw).length, (it :: tkw).getLastD default) :: front)
      lastB false := by
  obtain ⟨segs, T, hA, hF, hTne, hcnt, hmem, hclean, hchain, hsep⟩ := hI
  have hitl := run_itl_class hc hkw
  refine ⟨(it :: tkw) :: segs, T, ?_, ?_, hTne, hcnt, hmem, hclean, ?_,
    ?_⟩
  · rw [hA, List.flatten_cons, List.append_assoc]
  · exact List.forall₂_cons.2 ⟨run_bseg hc hkw, hF⟩
  · rw [List.cons_append]
    refine (List.chain'_cons'.2 ⟨?_, hchain⟩)
    intro y hy
    cases front with
    | nil =>
      simp only [List.nil_append, List.head?_cons, Option.mem_def,
        Option.some.injEq] at hy
      subst hy
      exact clt_transfer_left hc hitl hlt hne
    | cons b0 ft =>
      simp only [List.cons_append, List.head?_cons, Option.mem_def,
        Option.some.injEq] at hy
      subst hy
      obtain ⟨hne0, hcomp0⟩ := hscanpost b0 rfl
      exact clt_transfer_left hc hitl hcomp0 hne0
  · intro b hb t ht
    rcases List.mem_cons.1 hb with h2 | h2
    · obtain ⟨_, hcls⟩ := hclean rfl
      have htc : iseq t.2 lastB.2.2 = true := hcls t ht lastB.2 hmem
      rw [h2]
      cases hbt : iseq ((it :: tkw).getLastD default).2 t.2 with
      | false => rfl
      | true =>
        have : iseq it.2 lastB.2.2 = true :=
          hc.trans (hc.trans hitl hbt) htc
        rw [this] at hne
        simp at hne
    · exact hsep b h2 t ht

/-- Splicing a found run to the end of its existing bucket keeps the loop
invariant (the found branch). -/
theorem binv_found {V : Type} [Inhabited V] {iseq comp : V → V → Bool}
    (h : SWO comp) (hc : Consist iseq comp) {arranged : List (Elt V)}
    {front pre post2 : List (Nat × Elt V)} {bj lastB : Nat × Elt V}
    {dirty : Bool}
    (hI : BInv iseq comp arranged front lastB dirty)
    {it : Elt V} {tkw : List (Elt V)}
    (hkw : ∀ x ∈ tkw, iseq it.2 x.2 = true)
    (hsplit : pre ++ bj :: post2 = front)
    (hbj : iseq it.2 bj.2.2 = true)
    (hndA : ((arranged.map Prod.fst).Nodup)) :
    ∃ X Y, arranged = X ++ Y ∧
      spliceAfterTag bj.2.1 (it :: tkw) arranged =
        X ++ (it :: tkw) ++ Y ∧
      (∀ y ∈ Y, iseq it.2 y.2 = false) ∧
      BInv iseq comp (X ++ (it :: tkw) ++ Y)
        (pre ++ (bj.1 + (it :: tkw).length,
          (it :: tkw).getLastD default) :: post2) lastB dirty := by
  subst hsplit
  obtain ⟨segs, T, hA, hF, hTne, hcnt, hmem, hclean, hchain, hsep⟩ := hI
  obtain ⟨s1, sj, s2, rfl, hf1, hbseg, hf2⟩ :=
    forall2_split pre bj post2 segs hF
  obtain ⟨sjne, sjcnt, sjlast, sjcls⟩ := hbseg
  have hitl := run_itl_class hc hkw
  have hbjitl : iseq bj.2.2 ((it :: tkw).getLastD default).2 = true :=
    hc.trans (hc.symm hbj) hitl
  have hXlast : (s1.flatten ++ sj).getLast? = some bj.2 := by
    rw [List.getLast?_append, sjlast]
    rfl
  have hAXY : arranged = (s1.flatten ++ sj) ++ (s2.flatten ++ T) := by
    rw [hA]
    simp [List.flatten_append, List.append_assoc]
  have hbjmem : bj ∈ pre ++ bj :: post2 := by simp
  have hYnot : ∀ y ∈ s2.flatten ++ T, iseq it.2 y.2 = false := by
    have hpw := chain_clt_pairwise h hc hchain
    rw [List.append_assoc] at hpw
    have hpw2 := (List.pairwise_append.1 hpw).2.1
    rw [List.cons_append] at hpw2
    have hpw3 := (List.pairwise_cons.1 hpw2).1
    intro y hy
    cases hiy : iseq it.2 y.2 with
    | false => rfl
    | true =>
      have hbjy : iseq bj.2.2 y.2 = true := hc.trans (hc.symm hbj) hiy
      rcases List.mem_append.1 hy with hy1 | hy2
      · obtain ⟨seg, hseg, hyseg⟩ := List.mem_flatten.1 hy1
        obtain ⟨b2, hb2, hb2seg⟩ := forall2_mem_right hf2 hseg
        have hyb2 : iseq y.2 b2.2.2 = true := bseg_mem_class hb2seg hyseg
        have hrel := hpw3 b2 (List.mem_append_left _ hb2)
        rw [hc.trans hbjy hyb2] at hrel
        simp at hrel
      · have hrel := hsep bj hbjmem y hy2
        rw [hc.trans hbjy (hc.refl y.2)] at hrel
        simp at hrel
  have hXdrop : ∀ x ∈ (s1.flatten ++ sj).dropLast, x.1 ≠ bj.2.1 := by
    obtain ⟨XI, hXeq⟩ := concat_of_getLast? hXlast
    rw [hXeq, List.dropLast_concat]
    have hndX : (((s1.flatten ++ sj).map Prod.fst).Nodup) := by
      rw [hAXY, List.map_append] at hndA
      exact List.Nodup.of_append_left hndA
    rw [hXeq, List.map_append, List.nodup_append] at hndX
    intro x hx heq
    have hmx : bj.2.1 ∈ XI.map Prod.fst := by
      rw [← heq]
      exact List.mem_map_of_mem Prod.fst hx
    exact hndX.2.2 hmx (by simp)
  have hsplice : spliceAfterTag bj.2.1 (it :: tkw) arranged =
      (s1.flatten ++ sj) ++ (it :: tkw) ++ (s2.flatten ++ T) := by
    rw [hAXY]
    rw [spliceAfterTag_eq bj.2.1 (it :: tkw) _ _ bj.2 hXlast rfl hXdrop]
  have hmemcls : ∀ x ∈ sj ++ (it :: tkw), iseq x.2 bj.2.2 = true := by
    intro x hx
    rcases List.mem_append.1 hx with hx1 | hx2
    · exact sjcls x hx1 bj.2 (List.mem_of_getLast?_eq_some sjlast)
    · exact hc.trans (hc.symm (run_mem_class hc hkw hx2)) hbj
  refine ⟨s1.flatten ++ sj, s2.flatten ++ T, hAXY, hsplice, hYnot,
    s1 ++ (sj ++ (it :: tkw)) :: s2, T, ?_, ?_, hTne, hcnt, hmem, hclean,
    ?_, ?_⟩
  · simp [List.flatten_append, List.append_assoc]
  · refine List.rel_append hf1 (List.forall₂_cons.2 ⟨?_, hf2⟩)
    refine ⟨by simp, ?_, ?_, ?_⟩
    · rw [List.length_append, sjcnt]
    · rw [List.getLast?_append, getLast?_eq_getLastD (l := it :: tkw)
        (by simp)]
      rfl
    · intro x hx y hy
      exact hc.trans (hmemcls x hx) (hc.symm (hmemcls y hy))
  · rw [List.append_assoc, List.cons_append] at hchain ⊢
    rw [List.chain'_append] at hchain ⊢
    refine ⟨hchain.1, ?_, ?_⟩
    · refine List.chain'_cons'.2 ⟨?_, (List.chain'_cons'.1 hchain.2.1).2⟩
      intro y hy
      have hold := (List.chain'_cons'.1 hchain.2.1).1 y hy
      exact clt_transfer_left hc hbjitl hold.1 hold.2
    · intro x hx y hy
      simp only [List.head?_cons, Option.mem_def, Option.some.injEq]
        at hy
      subst hy
      have hold := hchain.2.2 x hx bj (by simp)
      exact clt_transfer_right hc hold.1 hold.2 hbjitl
  · intro b hb t ht
    rcases List.mem_append.1 hb with hb1 | hb2
    · exact hsep b (List.mem_append_left _ hb1) t ht
    · rcases List.mem_cons.1 hb2 with h2 | h2
      · have hold := hsep bj hbjmem t ht
        rw [h2]
        cases hbt : iseq ((it :: tkw).getLastD default).2 t.2 with
        | false => rfl
        | true =>
          rw [hc.trans hbjitl hbt] at hold
          simp at hold
      · exact hsep b (by simp [h2]) t ht

/-- Splicing a run in as a fresh bucket right after its predecessor
bucket keeps the loop invariant (the mid-insert branch). -/
theorem binv_mid_insert {V : Type} [Inhabited V]
    {iseq comp : V → V → Bool} (h : SWO comp) (hc : Consist iseq comp)
    {arranged : List (Elt V)}
    {front preI post : List (Nat × Elt V)} {pb lastB : Nat × Elt V}
    (hI : BInv iseq comp arranged front lastB false)
    {it : Elt V} {tkw : List (Elt V)}
    (hkw : ∀ x ∈ tkw, iseq it.2 x.2 = true)
    (hne : iseq it.2 lastB.2.2 = false)
    (hlt : comp it.2 lastB.2.2 = true)
    (hsplit : (preI ++ [pb]) ++ post = front)
    (hscanpre : ∀ b ∈ preI ++ [pb], iseq it.2 b.2.2 = false ∧
      comp it.2 b.2.2 = false)
    (hscanpost : ∀ bj, post.head? = some bj →
      iseq it.2 bj.2.2 = false ∧ comp it.2 bj.2.2 = true)
    (hndA : ((arranged.map Prod.fst).Nodup)) :
    ∃ X Y, arranged = X ++ Y ∧
      spliceAfterTag pb.2.1 (it :: tkw) arranged =
        X ++ (it :: tkw) ++ Y ∧
      (∀ y ∈ Y, iseq it.2 y.2 = false) ∧
      BInv iseq comp (X ++ (it :: tkw) ++ Y)
        ((preI ++ [pb]) ++ ((it :: tkw).length,
          (it :: tkw).getLastD default) :: post) lastB false := by
  subst hsplit
  obtain ⟨segs, T, hA, hF, hTne, hcnt, hmem, hclean, hchain, hsep⟩ := hI
  rw [List.append_assoc, List.singleton_append] at hF
  obtain ⟨s1, sj, s2, rfl, hf1, hbseg, hf2⟩ :=
    forall2_split preI pb post segs hF
  obtain ⟨sjne, sjcnt, sjlast, sjcls⟩ := hbseg
  have hitl := run_itl_class hc hkw
  obtain ⟨hpbne, hpbnc⟩ := hscanpre pb (by simp)
  have hpbc : comp pb.2.2 it.2 = true := by
    rcases comp_of_not_iseq hc hpbne with h1 | h1
    · rw [h1] at hpbnc
      simp at hpbnc
    · exact h1
  have hpbnei : iseq pb.2.2 it.2 = false := by
    cases hx : iseq pb.2.2 it.2 with
    | false => rfl
    | true =>
      rw [hc.symm hx] at hpbne
      simp at hpbne
  have hpbitl : comp pb.2.2 ((it :: tkw).getLastD default).2 = true ∧
      iseq pb.2.2 ((it :: tkw).getLastD default).2 = false :=
    clt_transfer_right hc hpbc hpbnei hitl
  have hXlast : (s1.flatten ++ sj).getLast? = some pb.2 := by
    rw [List.getLast?_append, sjlast]
    rfl
  have hAXY : arranged = (s1.flatten ++ sj) ++ (s2.flatten ++ T) := by
    rw [hA]
    simp [List.flatten_append, List.append_assoc]
  have hallfront : ∀ b ∈ (preI ++ [pb]) ++ post,
      iseq it.2 b.2.2 = false :=
    fun b hb =>
      front_sep_scan h hc hchain rfl hscanpre hscanpost hb
  have hYnot : ∀ y ∈ s2.flatten ++ T, iseq it.2 y.2 = false := by
    intro y hy
    cases hiy : iseq it.2 y.2 with
    | false => rfl
    | true =>
      rcases List.mem_append.1 hy with hy1 | hy2
      · obtain ⟨seg, hseg, hyseg⟩ := List.mem_flatten.1 hy1
        obtain ⟨b2, hb2, hb2seg⟩ := forall2_mem_right hf2 hseg
        have hyb2 : iseq y.2 b2.2.2 = true := bseg_mem_class hb2seg hyseg
        have hrel := hallfront b2 (List.mem_append_right _ hb2)
        rw [hc.trans hiy hyb2] at hrel
        simp at hrel
      · obtain ⟨_, hcls⟩ := hclean rfl
        have hyl : iseq y.2 lastB.2.2 = true := hcls y hy2 lastB.2 hmem
        rw [hc.trans hiy hyl] at hne
        simp at hne
  have hXdrop : ∀ x ∈ (s1.flatten ++ sj).dropLast, x.1 ≠ pb.2.1 := by
    obtain ⟨XI, hXeq⟩ := concat_of_getLast? hXlast
    rw [hXeq, List.dropLast_concat]
    have hndX : (((s1.flatten ++ sj).map Prod.fst).Nodup) := by
      rw [hAXY, List.map_append] at hndA
      exact List.Nodup.of_append_left hndA
    rw [hXeq, List.map_append, List.nodup_append] at hndX
    intro x hx heq
    have hmx : pb.2.1 ∈ XI.map Prod.fst := by
      rw [← heq]
      exact List.mem_map_of_mem Prod.fst hx
    exact hndX.2.2 hmx (by simp)
  have hsplice : spliceAfterTag pb.2.1 (it :: tkw) arranged =
      (s1.flatten ++ sj) ++ (it :: tkw) ++ (s2.flatten ++ T) := by
    rw [hAXY]
    rw [spliceAfterTag_eq pb.2.1 (it :: tkw) _ _ pb.2 hXlast rfl hXdrop]
  refine ⟨s1.flatten ++ sj, s2.flatten ++ T, hAXY, hsplice, hYnot,
    (s1 ++ [sj]) ++ (it :: tkw) :: s2, T, ?_, ?_, hTne, hcnt, hmem,
    hclean, ?_, ?_⟩
  · simp [List.flatten_append, List.append_assoc]
  · refine List.rel_append (List.rel_append hf1 ?_)
      (List.forall₂_cons.2 ⟨run_bseg hc hkw, hf2⟩)
    exact List.forall₂_cons.2 ⟨⟨sjne, sjcnt, sjlast, sjcls⟩,
      List.Forall₂.nil⟩
  · rw [List.append_assoc] at hchain
    rw [List.append_assoc, List.cons_append]
    rw [List.chain'_append] at hchain ⊢
    refine ⟨hchain.1, ?_, ?_⟩
    · refine List.chain'_cons'.2 ⟨?_, hchain.2.1⟩
      intro y hy
      cases post with
      | nil =>
        simp only [List.nil_append, List.head?_cons, Option.mem_def,
          Option.some.injEq] at hy
        subst hy
        exact clt_transfer_left hc hitl hlt hne
      | cons b0 pt =>
        simp only [List.cons_append, List.head?_cons, Option.mem_def,
          Option.some.injEq] at hy
        subst hy
        obtain ⟨hne0, hcomp0⟩ := hscanpost b0 rfl
        exact clt_transfer_left hc hitl hcomp0 hne0
    · intro x hx y hy
      simp only [List.head?_cons, Option.mem_def, Option.some.injEq]
        at hy
      subst hy
      rw [List.getLast?_append, List.getLast?_singleton] at hx
      simp only [Option.or_some, Option.mem_def, Option.some.injEq]
        at hx
      subst hx
      exact hpbitl
  · intro b hb t ht
    obtain ⟨_, hcls⟩ := hclean rfl
    have htl : iseq t.2 lastB.2.2 = true := hcls t ht lastB.2 hmem
    rcases List.mem_append.1 hb with hb1 | hb2
    · exact hsep b (by
        rw [List.append_assoc, List.singleton_append]
        rcases List.mem_append.1 hb1 with hx1 | hx2
        · exact List.mem_append_left _ hx1
        · have := List.mem_singleton.1 hx2
          rw [this]
          exact List.mem_append_right _ (by simp)) t ht
    · rcases List.mem_cons.1 hb2 with h2 | h2
      · rw [h2]
        cases hbt : iseq ((it :: tkw).getLastD default).2 t.2 with
        | false => rfl
        | true =>
          have : iseq it.2 lastB.2.2 = true :=
            hc.trans (hc.trans hitl hbt) htl
          rw [this] at hne
          simp at hne
      · exact hsep b (by
          rw [List.append_assoc, List.singleton_append]
          exact List.mem_append_right _ (List.mem_cons_of_mem pb h2))
          t ht

/-- When the scanned element lies in no front bucket class and not in the
last bucket class, no arranged element is equivalent to it. -/
theorem arranged_not_class {V : Type} {iseq comp : V → V → Bool}
    (h : SWO comp) (hc : Consist iseq comp)
    {arranged : List (Elt V)} {front pre post : List (Nat × Elt V)}
    {lastB : Nat × Elt V}
    (hI : BInv iseq comp arranged front lastB false)
    {w : V} (hne : iseq w lastB.2.2 = false)
    (hsplit : pre ++ post = front)
    (hscanpre : ∀ b ∈ pre, iseq w b.2.2 = false ∧ comp w b.2.2 = false)
    (hscanpost : ∀ bj, post.head? = some bj →
      iseq w bj.2.2 = false ∧ comp w bj.2.2 = true) :
    ∀ y ∈ arranged, iseq w y.2 = false := by
  obtain ⟨segs, T, hA, hF, hTne, hcnt, hmem, hclean, hchain, hsep⟩ := hI
  intro y hy
  rw [hA] at hy
  cases hiy : iseq w y.2 with
  | false => rfl
  | true =>
    exfalso
    rcases List.mem_append.1 hy with hy1 | hy2
    · obtain ⟨seg, hseg, hyseg⟩ := List.mem_flatten.1 hy1
      obtain ⟨b2, hb2, hb2seg⟩ := forall2_mem_right hF hseg
      have hyb2 : iseq y.2 b2.2.2 = true := bseg_mem_class hb2seg hyseg
      have hrel := front_sep_scan h hc hchain hsplit hscanpre hscanpost hb2
      rw [hc.trans hiy hyb2] at hrel
      simp at hrel
    · obtain ⟨_, hcls⟩ := hclean rfl
      have hyl : iseq y.2 lastB.2.2 = true := hcls y hy2 lastB.2 hmem
      rw [hc.trans hiy hyl] at hne
      simp at hne

/-- Moving a single-class run from the head of the untraversed chain to
its bucket position preserves the content as a multiset and every
equivalence class filter. -/
theorem run_move_spec {V : Type} {iseq comp : V → V → Bool}
    (hc : Consist iseq comp) (X run Y rest2 : List (Elt V)) (itv : V)
    (hrun : ∀ x ∈ run, iseq itv x.2 = true)
    (hY : ∀ y ∈ Y, iseq itv y.2 = false) :
    ((X ++ run ++ Y) ++ rest2).Perm ((X ++ Y) ++ (run ++ rest2)) ∧
    ∀ v, ((X ++ run ++ Y) ++ rest2).filter (fun e => iseq e.2 v) =
      ((X ++ Y) ++ (run ++ rest2)).filter (fun e => iseq e.2 v) := by
  constructor
  · have hmid : ((run ++ Y) ++ rest2).Perm ((Y ++ run) ++ rest2) :=
      (List.perm_append_comm).append_right rest2
    have h1 : (X ++ run ++ Y) ++ rest2 = X ++ ((run ++ Y) ++ rest2) := by
      simp [List.append_assoc]
    have h2 : (X ++ Y) ++ (run ++ rest2) = X ++ ((Y ++ run) ++ rest2) := by
      simp [List.append_assoc]
    rw [h1, h2]
    exact List.Perm.append_left X hmid
  · intro v
    have hsw := filter_class_swap hc run Y itv hrun hY v
    have hres : X.filter (fun e => iseq e.2 v) ++
        (((run ++ Y).filter (fun e => iseq e.2 v)) ++
          rest2.filter (fun e => iseq e.2 v)) =
        X.filter (fun e => iseq e.2 v) ++
        (((Y ++ run).filter (fun e => iseq e.2 v)) ++
          rest2.filter (fun e => iseq e.2 v)) := by rw [hsw]
    simp only [List.filter_append, List.append_assoc] at hres ⊢
    exact hres

/-- Pre-filtering by a weaker predicate does not change a filter. -/
theorem filter_of_imp {α : Type} (p q : α → Bool)
    (himp : ∀ a, p a = true → q a = true) :
    ∀ l : List α, (l.filter q).filter p = l.filter p := by
  intro l
  induction l with
  | nil => rfl
  | cons a t ih =>
    rw [List.filter_cons]
    by_cases hq : q a = true
    · rw [if_pos hq, List.filter_cons, List.filter_cons, ih]
    · rw [if_neg hq, List.filter_cons, ih]
      have hp : ¬p a = true := fun hp => hq (himp a hp)
      rw [if_neg hp]

/-- Sorting every segment of a concatenation preserves every tie-class
filter. -/
theorem filter_tie_isort_flatten {V : Type} {comp : V → V → Bool}
    (h : SWO comp) (v : V) :
    ∀ L : List (List (Elt V)),
      ((L.map (isortRef comp)).flatten).filter
          (fun e => tieB comp e.2 v) =
        (L.flatten).filter (fun e => tieB comp e.2 v) := by
  intro L
  induction L with
  | nil => rfl
  | cons s t ih =>
    simp only [List.map_cons, List.flatten_cons, List.filter_append]
    rw [ih, filter_tie_isortRef h v s]

/-- Sorting every segment of a concatenation permutes it. -/
theorem isort_flatten_perm {V : Type} (comp : V → V → Bool)
    (L : List (List (Elt V))) :
    ((L.map (isortRef comp)).flatten).Perm L.flatten := by
  refine List.Perm.flatten_congr ?_
  exact (List.forall₂_map_left_iff).2 ((List.forall₂_same).2
    (fun s _ => isortRef_perm comp s))

/-- A concatenation of sorted single-class segments whose classes are
strictly increasing along the bucket chain is sorted. -/
theorem sortedE_class_concat {V : Type} {iseq comp : V → V → Bool}
    (h : SWO comp) (hc : Consist iseq comp) :
    ∀ {bucks : List (Nat × Elt V)} {L : List (List (Elt V))},
      List.Forall₂ (fun (b : Nat × Elt V) (s : List (Elt V)) =>
        ∀ x ∈ s, iseq x.2 b.2.2 = true) bucks L →
      List.Chain' (fun b c : Nat × Elt V =>
        comp b.2.2 c.2.2 = true ∧ iseq b.2.2 c.2.2 = false) bucks →
      (∀ s ∈ L, SortedE comp s) →
      SortedE comp L.flatten := by
  intro bucks
  induction bucks with
  | nil =>
    intro L hF _ _
    cases hF
    exact List.Pairwise.nil
  | cons b bt ih =>
    intro L hF hch hs
    cases L with
    | nil => cases hF
    | cons s st =>
      rw [List.forall₂_cons] at hF
      rw [List.flatten_cons, SortedE, List.pairwise_append]
      refine ⟨hs s (by simp),
        ih hF.2 (List.chain'_cons'.1 hch).2
          (fun s2 hs2 => hs s2 (List.mem_cons_of_mem s hs2)), ?_⟩
      intro x hx y hy
      obtain ⟨s2, hs2, hys2⟩ := List.mem_flatten.1 hy
      obtain ⟨b2, hb2, hb2rel⟩ := forall2_mem_right hF.2 hs2
      have hpw := chain_clt_pairwise h hc hch
      have hclt := (List.pairwise_cons.1 hpw).1 b2 hb2
      have hx2 := clt_transfer_left hc (hc.symm (hF.1 x hx)) hclt.1
        hclt.2
      have hx3 := clt_transfer_right hc hx2.1 hx2.2
        (hc.symm (hb2rel y hys2))
      exact h.asymm x.2 y.2 hx3.1

/-- The master correctness of the bucket traversal loop: from a state
satisfying the loop invariant, with the dirty flag implying a full
flat_list and with pairwise distinct node tags, the loop ends in a
state satisfying the invariant and the same dirty-implies-full bound,
and the final arranged interval is a permutation of the initial content
followed by the untraversed chain that preserves every equivalence
class filter (in particular the relative order inside each class). -/
theorem bsLoop_master {V : Type} [Inhabited V] {iseq comp : V → V → Bool}
    (h : SWO comp) (hc : Consist iseq comp) (max : Nat) :
    ∀ (n : Nat) (rem : List (Elt V)), rem.length ≤ n →
      ∀ (arranged : List (Elt V)) (front : List (Nat × Elt V))
        (lastB : Nat × Elt V) (dirty capOK : Bool),
      BInv iseq comp arranged front lastB dirty →
      (dirty = true → max ≤ front.length + 1) →
      (((arranged ++ rem).map Prod.fst).Nodup) →
      BInv iseq comp
          (bsLoop iseq comp max arranged front lastB dirty capOK rem).1
          (bsLoop iseq comp max arranged front lastB dirty capOK
            rem).2.1
          (bsLoop iseq comp max arranged front lastB dirty capOK
            rem).2.2.1
          (bsLoop iseq comp max arranged front lastB dirty capOK
            rem).2.2.2.1 ∧
        ((bsLoop iseq comp max arranged front lastB dirty capOK
            rem).2.2.2.1 = true →
          max ≤ (bsLoop iseq comp max arranged front lastB dirty capOK
            rem).2.1.length + 1) ∧
        ((bsLoop iseq comp max arranged front lastB dirty capOK
          rem).1).Perm (arranged ++ rem) ∧
        ∀ v, ((bsLoop iseq comp max arranged front lastB dirty capOK
            rem).1).filter (fun e => iseq e.2 v) =
          (arranged ++ rem).filter (fun e => iseq e.2 v) := by
  intro n
  induction n with
  | zero =>
    intro rem hlen arranged front lastB dirty capOK hI hcap hnd
    have hrem : rem = [] := by
      cases rem with
      | nil => rfl
      | cons x xs => simp at hlen
    subst hrem
    rw [bsLoop]
    refine ⟨hI, hcap, by simp, ?_⟩
    intro v
    rw [List.append_nil]
  | succ n ih =>
    intro rem hlen arranged front lastB dirty capOK hI hcap hnd
    cases rem with
    | nil =>
      rw [bsLoop]
      refine ⟨hI, hcap, by simp, ?_⟩
      intro v
      rw [List.append_nil]
    | cons it rest =>
      have hlen2 : rest.length ≤ n := by
        simp only [List.length_cons] at hlen
        omega
      have hndstep :
          ((((arranged ++ [it]) ++ rest).map Prod.fst).Nodup) := by
        rw [List.append_assoc, List.singleton_append]
        exact hnd
      rw [bsLoop]
      by_cases h1 : iseq it.2 lastB.2.2 = true
      · rw [if_pos h1]
        have hstep := ih rest hlen2 (arranged ++ [it]) front
          (lastB.1 + 1, it) dirty capOK (binv_fast h hc hI h1) hcap
          hndstep
        have heq : (arranged ++ [it]) ++ rest = arranged ++ it :: rest :=
          by rw [List.append_assoc, List.singleton_append]
        rw [heq] at hstep
        exact hstep
      · rw [if_neg h1]
        have hne : iseq it.2 lastB.2.2 = false := by
          cases hx : iseq it.2 lastB.2.2
          · rfl
          · exact absurd hx h1
        by_cases h2 : comp lastB.2.2 it.2 = true
        · rw [if_pos h2]
          by_cases h3 : front.length + 1 < max
          · rw [if_pos h3]
            have hdf : dirty = false := by
              cases hd : dirty
              · rfl
              · exact absurd (hcap hd) (by omega)
            subst hdf
            have hstep := ih rest hlen2 (arranged ++ [it])
              (front ++ [lastB]) (1, it) false
              (capOK && decide (front.length + 1 < max))
              (binv_newlast h hc hI hne h2) (by simp) hndstep
            have heq : (arranged ++ [it]) ++ rest =
                arranged ++ it :: rest :=
              by rw [List.append_assoc, List.singleton_append]
            rw [heq] at hstep
            exact hstep
          · rw [if_neg h3]
            have hstep := ih rest hlen2 (arranged ++ [it]) front
              (lastB.1 + 1, lastB.2) true capOK
              (binv_overflow_one h hc hI h2) (fun _ => by omega)
              hndstep
            have heq : (arranged ++ [it]) ++ rest =
                arranged ++ it :: rest :=
              by rw [List.append_assoc, List.singleton_append]
            rw [heq] at hstep
            exact hstep
        · rw [if_neg h2]
          dsimp only
          have h2f : comp lastB.2.2 it.2 = false := by
            cases hx : comp lastB.2.2 it.2
            · rfl
            · exact absurd hx h2
          have hlt : comp it.2 lastB.2.2 = true := by
            rcases comp_of_not_iseq hc hne with hx | hx
            · exact hx
            · rw [h2f] at hx
              exact absurd hx Bool.false_ne_true
          have hkw : ∀ x ∈ rest.takeWhile (fun x => iseq it.2 x.2),
              iseq it.2 x.2 = true := by
            intro x hx
            have hq := List.mem_takeWhile_imp hx
            exact hq
          have hrunmem : ∀ x ∈ (it :: rest.takeWhile
              (fun x => iseq it.2 x.2)), iseq it.2 x.2 = true :=
            fun x hx => run_mem_class hc hkw hx
          have hrest : rest.takeWhile (fun x => iseq it.2 x.2) ++
              rest.dropWhile (fun x => iseq it.2 x.2) = rest :=
            List.takeWhile_append_dropWhile _ rest
          have hlen3 :
              (rest.dropWhile (fun x => iseq it.2 x.2)).length ≤ n := by
            have := List.Sublist.length_le (List.dropWhile_sublist
              (fun x : Elt V => iseq it.2 x.2) (l := rest))
            omega
          have hndA : ((arranged.map Prod.fst).Nodup) := by
            rw [List.map_append] at hnd
            exact List.Nodup.of_append_left hnd
          cases hsc : bsScan iseq comp it.2 front with
          | mk pre r2 =>
            obtain ⟨found, post⟩ := r2
            obtain ⟨hsplit, hscanpre, hft, hff⟩ :=
              bsScan_spec iseq comp it.2 front pre found post hsc
            cases found with
            | true =>
              cases post with
              | nil =>
                obtain ⟨bj, p2, habs, _⟩ := hft rfl
                simp at habs
              | cons bj post2 =>
                dsimp only
                obtain ⟨bj2, p2, hpeq, hbj2⟩ := hft rfl
                have hbj : iseq it.2 bj.2.2 = true := by
                  injection hpeq with he1 he2
                  rw [he1]
                  exact hbj2
                obtain ⟨X, Y, hAXY, hsplice, hYnot, hBI⟩ :=
                  binv_found h hc hI hkw hsplit hbj hndA
                rw [hsplice]
                have hcap2 : dirty = true →
                    max ≤ (pre ++ (bj.1 + (it :: rest.takeWhile
                        (fun x => iseq it.2 x.2)).length,
                      (it :: rest.takeWhile
                        (fun x => iseq it.2 x.2)).getLastD default)
                      :: post2).length + 1 := by
                  intro hd
                  have hco := hcap hd
                  have hl := congrArg List.length hsplit
                  simp only [List.length_append, List.length_cons]
                    at hl ⊢
                  omega
                have hmv := run_move_spec hc X
                  (it :: rest.takeWhile (fun x => iseq it.2 x.2)) Y
                  (rest.dropWhile (fun x => iseq it.2 x.2)) it.2
                  hrunmem hYnot
                have heq2 : (X ++ Y) ++ ((it :: rest.takeWhile
                    (fun x => iseq it.2 x.2)) ++
                    rest.dropWhile (fun x => iseq it.2 x.2)) =
                    arranged ++ it :: rest := by
                  rw [List.cons_append, hrest, ← hAXY]
                have hp : ((X ++ (it :: rest.takeWhile
                    (fun x => iseq it.2 x.2)) ++ Y) ++
                    rest.dropWhile (fun x => iseq it.2 x.2)).Perm
                    (arranged ++ it :: rest) := by
                  rw [← heq2]
                  exact hmv.1
                have hnd2 := ((hp.map Prod.fst).nodup_iff).2 hnd
                have hstep := ih _ hlen3 _ _ lastB dirty capOK hBI
                  hcap2 hnd2
                refine ⟨hstep.1, hstep.2.1,
                  hstep.2.2.1.trans ?_, ?_⟩
                · rw [← heq2]
                  exact hmv.1
                · intro v
                  rw [hstep.2.2.2 v, ← heq2]
                  exact hmv.2 v
            | false =>
              dsimp only
              rw [if_neg (by simp)]
              by_cases h4 : front.length + 1 < max
              · rw [if_neg (by simp [h4])]
                have hdf : dirty = false := by
                  cases hd : dirty
                  · rfl
                  · exact absurd (hcap hd) (by omega)
                subst hdf
                cases hpl : pre.getLast? with
                | none =>
                  dsimp only
                  have hpre : pre = [] :=
                    List.getLast?_eq_none_iff.1 hpl
                  subst hpre
                  rw [List.nil_append] at hsplit
                  subst hsplit
                  have hYall : ∀ y ∈ arranged, iseq it.2 y.2 = false :=
                    arranged_not_class h hc hI hne (List.nil_append _)
                      (by simp) (hff rfl)
                  have hBI := binv_front_insert h hc hI hkw hne hlt
                    (hff rfl)
                  have hmv := run_move_spec hc []
                    (it :: rest.takeWhile (fun x => iseq it.2 x.2))
                    arranged
                    (rest.dropWhile (fun x => iseq it.2 x.2)) it.2
                    hrunmem hYall
                  simp only [List.nil_append] at hmv
                  have heq2 : arranged ++ ((it :: rest.takeWhile
                      (fun x => iseq it.2 x.2)) ++
                      rest.dropWhile (fun x => iseq it.2 x.2)) =
                      arranged ++ it :: rest := by
                    rw [List.cons_append, hrest]
                  have hp : (((it :: rest.takeWhile
                      (fun x => iseq it.2 x.2)) ++ arranged) ++
                      rest.dropWhile (fun x => iseq it.2 x.2)).Perm
                      (arranged ++ it :: rest) := by
                    rw [← heq2]
                    exact hmv.1
                  have hnd2 := ((hp.map Prod.fst).nodup_iff).2 hnd
                  have hstep := ih _ hlen3 _ _ lastB false
                    (capOK && decide (post.length + 1 < max)) hBI
                    (by simp) hnd2
                  refine ⟨hstep.1, hstep.2.1,
                    hstep.2.2.1.trans ?_, ?_⟩
                  · rw [← heq2]
                    exact hmv.1
                  · intro v
                    rw [hstep.2.2.2 v, ← heq2]
                    exact hmv.2 v
                | some pb =>
                  dsimp only
                  obtain ⟨preI, hpreeq⟩ := concat_of_getLast? hpl
                  subst hpreeq
                  obtain ⟨X, Y, hAXY, hsplice, hYnot, hBI⟩ :=
                    binv_mid_insert h hc hI hkw hne hlt hsplit
                      hscanpre (hff rfl) hndA
                  rw [hsplice]
                  have hmv := run_move_spec hc X
                    (it :: rest.takeWhile (fun x => iseq it.2 x.2)) Y
                    (rest.dropWhile (fun x => iseq it.2 x.2)) it.2
                    hrunmem hYnot
                  have heq2 : (X ++ Y) ++ ((it :: rest.takeWhile
                      (fun x => iseq it.2 x.2)) ++
                      rest.dropWhile (fun x => iseq it.2 x.2)) =
                      arranged ++ it :: rest := by
                    rw [List.cons_append, hrest, ← hAXY]
                  have hp : ((X ++ (it :: rest.takeWhile
                      (fun x => iseq it.2 x.2)) ++ Y) ++
                      rest.dropWhile (fun x => iseq it.2 x.2)).Perm
                      (arranged ++ it :: rest) := by
                    rw [← heq2]
                    exact hmv.1
                  have hnd2 := ((hp.map Prod.fst).nodup_iff).2 hnd
                  have hstep := ih _ hlen3 _ _ lastB false
                    (capOK && decide (front.length + 1 < max)) hBI
                    (by simp) hnd2
                  refine ⟨hstep.1, hstep.2.1,
                    hstep.2.2.1.trans ?_, ?_⟩
                  · rw [← heq2]
                    exact hmv.1
                  · intro v
                    rw [hstep.2.2.2 v, ← heq2]
                    exact hmv.2 v
              · rw [if_pos (by simp [h4])]
                have hBI := binv_overflow_run h hc hI hkw hsplit
                  hscanpre (hff rfl)
                have heq : (arranged ++ (it :: rest.takeWhile
                    (fun x => iseq it.2 x.2))) ++
                    rest.dropWhile (fun x => iseq it.2 x.2) =
                    arranged ++ it :: rest := by
                  rw [List.append_assoc, List.cons_append, hrest]
                have hnd2 : (((arranged ++ (it :: rest.takeWhile
                    (fun x => iseq it.2 x.2))) ++
                    rest.dropWhile (fun x => iseq it.2 x.2)).map
                      Prod.fst).Nodup := by
                  rw [heq]
                  exact hnd
                have hstep := ih _ hlen3 _ front
                  (lastB.1 + (it :: rest.takeWhile
                    (fun x => iseq it.2 x.2)).length, lastB.2) true
                  capOK hBI (fun _ => by omega) hnd2
                rw [heq] at hstep
                exact hstep

/-- The per-bucket finalization fold of bsFinish: starting from a todo
list that concatenates one segment per descriptor, each nonempty and of
its descriptor count's length, the fold merge-sorts every segment in
place, accumulates them onto done, adds the counts, and ends with the
iterator to the last element of the last sorted segment. -/
theorem bsFinish_fold {V : Type} [Inhabited V] {comp : V → V → Bool}
    (h : SWO comp) :
    ∀ (bucks : List (Nat × Elt V)) (segsAll : List (List (Elt V)))
      (done : List (Elt V)) (cnt : Nat) (ret : Option (Elt V)),
      List.Forall₂ (fun (b : Nat × Elt V) (seg : List (Elt V)) =>
        b.1 = seg.length ∧ seg ≠ []) bucks segsAll →
      ((segsAll.flatten.map Prod.fst).Nodup) →
      bucks.foldl
        (fun (st : List (Elt V) × List (Elt V) × Nat × Option (Elt V))
             (b : Nat × Elt V) =>
          let (res, ret) := merge_sort_splice_list comp (b.1 + 1)
            st.2.1 b.1
          (st.1 ++ res.take b.1, res.drop b.1, st.2.2.1 + b.1, ret))
        (done, segsAll.flatten, cnt, ret) =
        (done ++ (segsAll.map (isortRef comp)).flatten, [],
          cnt + segsAll.flatten.length,
          (segsAll.map (fun s =>
            some ((isortRef comp s).getLastD default))).getLastD ret) := by
  intro bucks
  induction bucks with
  | nil =>
    intro segsAll done cnt ret hF hnd
    cases hF
    simp
  | cons b bt ih =>
    intro segsAll done cnt ret hF hnd
    cases segsAll with
    | nil => cases hF
    | cons s st =>
      rw [List.forall₂_cons] at hF
      obtain ⟨⟨hbl, hsne⟩, hF2⟩ := hF
      rw [List.flatten_cons] at hnd
      have hbpos : b.1 ≠ 0 := by
        rw [hbl]
        intro hz
        exact hsne (List.length_eq_zero.1 hz)
      have hms := ms_correct h (b.1 + 1) (s ++ st.flatten) b.1
        (by omega) (by rw [hbl, List.length_append]; omega) hnd
      have htk : (s ++ st.flatten).take b.1 = s :=
        List.take_left' hbl.symm
      have hdr : (s ++ st.flatten).drop b.1 = st.flatten :=
        List.drop_left' hbl.symm
      rw [htk, hdr] at hms
      rw [List.flatten_cons, List.foldl_cons]
      dsimp only
      rw [hms]
      dsimp only
      have htk2 : (isortRef comp s ++ st.flatten).take b.1 =
          isortRef comp s :=
        List.take_left' (by rw [length_isortRef, hbl])
      have hdr2 : (isortRef comp s ++ st.flatten).drop b.1 =
          st.flatten :=
        List.drop_left' (by rw [length_isortRef, hbl])
      rw [htk2, hdr2, if_neg hbpos]
      have hnd2 : ((st.flatten.map Prod.fst).Nodup) := by
        rw [List.map_append] at hnd
        exact List.Nodup.of_append_right hnd
      rw [ih st (done ++ isortRef comp s) (cnt + b.1)
        (some ((isortRef comp s).getLastD default)) hF2 hnd2]
      simp only [List.map_cons, List.flatten_cons, List.getLastD_cons,
        Prod.mk.injEq]
      refine ⟨by simp [List.append_assoc], trivial, ?_, trivial⟩
      rw [List.length_append, hbl]
      omega

/-- The finalization of bucket_sort_splice: from a loop-invariant state
with pairwise distinct tags, bsFinish returns the interval length
together with the iterator to the last element of the final content,
and the final content is sorted and preserves every tie-class filter of
the arranged interval. -/
theorem bsFinish_spec {V : Type} [Inhabited V] {iseq comp : V → V → Bool}
    (h : SWO comp) (hc : Consist iseq comp)
    {arranged : List (Elt V)} {front : List (Nat × Elt V)}
    {lastB : Nat × Elt V} {dirty : Bool}
    (hI : BInv iseq comp arranged front lastB dirty)
    (hnd : ((arranged.map Prod.fst).Nodup)) :
    (bsFinish comp arranged (front ++ [lastB]) dirty).1.1 =
        arranged.length ∧
      (bsFinish comp arranged (front ++ [lastB]) dirty).1.2 =
        (bsFinish comp arranged (front ++ [lastB]) dirty).2.getLast? ∧
      SortedE comp (bsFinish comp arranged (front ++ [lastB]) dirty).2 ∧
      ∀ v, ((bsFinish comp arranged (front ++ [lastB]) dirty).2).filter
          (fun e => tieB comp e.2 v) =
        arranged.filter (fun e => tieB comp e.2 v) := by
  obtain ⟨segs, T, hA, hF, hTne, hcnt, hmem, hclean, hchain, hsep⟩ := hI
  have harr : arranged = (segs ++ [T]).flatten := by
    rw [hA]
    simp
  have hFc : List.Forall₂ (fun (b : Nat × Elt V) (seg : List (Elt V)) =>
      b.1 = seg.length ∧ seg ≠ []) (front ++ [lastB]) (segs ++ [T]) := by
    refine List.rel_append (hF.imp ?_) ?_
    · intro b seg hbs
      exact ⟨hbs.2.1, hbs.1⟩
    · exact List.forall₂_cons.2 ⟨⟨hcnt, hTne⟩, List.Forall₂.nil⟩
  have hndf : (((segs ++ [T]).flatten.map Prod.fst).Nodup) := by
    rw [← harr]
    exact hnd
  have hfold := bsFinish_fold h (front ++ [lastB]) (segs ++ [T]) [] 0
    none hFc hndf
  have hval0 : bsFinish comp arranged (front ++ [lastB]) dirty =
      bsFinish comp ((segs ++ [T]).flatten) (front ++ [lastB]) dirty :=
    by rw [← harr]
  rw [hval0]
  simp only [bsFinish]
  rw [hfold]
  dsimp only
  simp only [List.nil_append, List.map_append, List.flatten_append,
    List.map_cons, List.map_nil, List.flatten_cons, List.flatten_nil,
    List.append_nil, List.getLastD_concat, Nat.zero_add]
  have hslen : (segs.flatten ++ T).length - lastB.1 =
      (List.map (isortRef comp) segs).flatten.length := by
    rw [List.length_append, hcnt,
      (isort_flatten_perm comp segs).length_eq]
    omega
  rw [hslen, List.take_left, List.drop_left]
  have hLTne : isortRef comp T ≠ [] := by
    intro hx
    have hl := length_isortRef comp T
    rw [hx] at hl
    simp only [List.length_nil] at hl
    exact hTne (List.length_eq_zero.1 hl.symm)
  have hpermFL : ((List.map (isortRef comp) segs).flatten ++
      isortRef comp T).Perm arranged := by
    have hp := isort_flatten_perm comp (segs ++ [T])
    simp only [List.map_append, List.flatten_append, List.map_cons,
      List.map_nil, List.flatten_cons, List.flatten_nil,
      List.append_nil] at hp
    rw [hA]
    exact hp
  have hndFL : ((((List.map (isortRef comp) segs).flatten ++
      isortRef comp T).map Prod.fst).Nodup) :=
    ((hpermFL.map Prod.fst).nodup_iff).2 hnd
  have htie : ∀ v, (((List.map (isortRef comp) segs).flatten ++
      isortRef comp T).filter (fun e => tieB comp e.2 v)) =
      arranged.filter (fun e => tieB comp e.2 v) := by
    intro v
    have hq := filter_tie_isort_flatten h v (segs ++ [T])
    simp only [List.map_append, List.flatten_append, List.map_cons,
      List.map_nil, List.flatten_cons, List.flatten_nil,
      List.append_nil] at hq
    rw [hA]
    exact hq
  have hchainF : List.Chain' (fun b c : Nat × Elt V =>
      comp b.2.2 c.2.2 = true ∧ iseq b.2.2 c.2.2 = false) front :=
    (List.chain'_append.1 hchain).1
  have hFmem : List.Forall₂ (fun (b : Nat × Elt V) (s : List (Elt V)) =>
      ∀ x ∈ s, iseq x.2 b.2.2 = true) front
      (segs.map (isortRef comp)) := by
    rw [List.forall₂_map_right_iff]
    refine hF.imp ?_
    intro b seg hbs x hx
    exact bseg_mem_class hbs ((isortRef_perm comp seg).subset hx)
  have hSF : SortedE comp ((List.map (isortRef comp) segs).flatten) := by
    refine sortedE_class_concat h hc hFmem hchainF ?_
    intro s2 hs2
    obtain ⟨s3, hs3, hs3e⟩ := List.mem_map.1 hs2
    rw [← hs3e]
    exact sortedE_isortRef h s3
  have hSL : SortedE comp (isortRef comp T) := sortedE_isortRef h T
  by_cases hdc : dirty = true ∧ lastB.1 < (segs.flatten ++ T).length
  · rw [if_pos hdc]
    have hFne : (List.map (isortRef comp) segs).flatten ≠ [] := by
      have hl := (isort_flatten_perm comp segs).length_eq
      have h0 : 0 < segs.flatten.length := by
        have hx := hdc.2
        rw [List.length_append, hcnt] at hx
        omega
      intro hx
      rw [hx] at hl
      simp only [List.length_nil] at hl
      omega
    obtain ⟨hcm, hsm⟩ := coinplace_merge_spec h _ _ hFne hSF hSL hndFL
    rw [hcm]
    dsimp only
    refine ⟨by rw [hA], ?_, hsm, ?_⟩
    · rw [getLast?_eq_getLastD (mergeRef_ne_nil comp _ hFne)]
    · intro v
      rw [filter_tie_mergeRef h v _ _ hSF hSL, ← List.filter_append]
      exact htie v
  · rw [if_neg hdc]
    dsimp only
    refine ⟨by rw [hA], ?_, ?_, htie⟩
    · rw [List.getLast?_append, getLast?_eq_getLastD hLTne]
      rfl
    · cases hF with
      | nil =>
        simp only [List.map_nil, List.flatten_nil, List.nil_append]
        exact hSL
      | cons hb0 hFt =>
        rename_i b0 s0 ft st0
        have hflgt : 0 < (s0 :: st0).flatten.length := by
          rw [List.flatten_cons, List.length_append]
          have hs0 : s0 ≠ [] := hb0.1
          have : 0 < s0.length := List.length_pos.2 hs0
          omega
        have hdf : dirty = false := by
          cases hd : dirty
          · rfl
          · exfalso
            refine hdc ⟨hd, ?_⟩
            rw [List.length_append, hcnt]
            omega
        obtain ⟨hTlast, hTcls⟩ := hclean hdf
        have hFmemAll : List.Forall₂
            (fun (b : Nat × Elt V) (s : List (Elt V)) =>
              ∀ x ∈ s, iseq x.2 b.2.2 = true) ((b0 :: ft) ++ [lastB])
            (((s0 :: st0) ++ [T]).map (isortRef comp)) := by
          rw [List.forall₂_map_right_iff]
          refine List.rel_append
            ((List.forall₂_cons.2 ⟨hb0, hFt⟩).imp ?_)
            (List.forall₂_cons.2 ⟨?_, List.Forall₂.nil⟩)
          · intro b seg hbs x hx
            exact bseg_mem_class hbs ((isortRef_perm comp seg).subset hx)
          · intro x hx
            exact hTcls x ((isortRef_perm comp T).subset hx) lastB.2 hmem
        have hSall : SortedE comp
            ((((s0 :: st0) ++ [T]).map (isortRef comp)).flatten) := by
          refine sortedE_class_concat h hc hFmemAll hchain ?_
          intro s2 hs2
          obtain ⟨s3, hs3, hs3e⟩ := List.mem_map.1 hs2
          rw [← hs3e]
          exact sortedE_isortRef h s3
        simp only [List.map_append, List.flatten_append, List.map_cons,
          List.map_nil, List.flatten_cons, List.flatten_nil,
          List.append_nil] at hSall
        exact hSall

/-- The full characterization of the embedded bucket_sort_splice: on an
interval with pairwise distinct node tags, for every strict weak order
with a consistent equivalence and every capacity, it returns the
interval length together with the iterator to the last element of the
final content, and the final content is the stable reference sort of
the input. -/
theorem bucket_sort_spec {V : Type} [Inhabited V]
    {iseq comp : V → V → Bool} (h : SWO comp) (hc : Consist iseq comp)
    (max : Nat) (content : List (Elt V))
    (hnd : ((content.map Prod.fst).Nodup)) :
    bucket_sort_splice_list iseq comp max content =
      ((content.length, (isortRef comp content).getLast?),
        isortRef comp content) := by
  cases content with
  | nil => rfl
  | cons lhs0 rest =>
    have hI0 : BInv iseq comp [lhs0] [] (1, lhs0) false := by
      refine ⟨[], [lhs0], by simp, List.Forall₂.nil, by simp, by simp,
        by simp, ?_, by simp, by simp⟩
      intro _
      refine ⟨by simp, ?_⟩
      intro x hx y hy
      have hx2 := List.mem_singleton.1 hx
      have hy2 := List.mem_singleton.1 hy
      rw [hx2, hy2]
      exact hc.refl _
    have hnd0 : ((([lhs0] ++ rest).map Prod.fst).Nodup) := by
      rw [List.singleton_append]
      exact hnd
    have hstep := bsLoop_master h hc max rest.length rest le_rfl [lhs0]
      [] (1, lhs0) false (decide (0 < max)) hI0 (by simp) hnd0
    cases hres : bsLoop iseq comp max [lhs0] [] (1, lhs0) false
        (decide (0 < max)) rest with
    | mk A2 r1 =>
      obtain ⟨F2, r2⟩ := r1
      obtain ⟨L2, r3⟩ := r2
      obtain ⟨D2, K2⟩ := r3
      rw [hres] at hstep
      dsimp only at hstep
      obtain ⟨hBI, hcap2, hperm, hfil⟩ := hstep
      have hndA2 : ((A2.map Prod.fst).Nodup) :=
        ((hperm.map Prod.fst).nodup_iff).2 hnd0
      obtain ⟨hfin1, hfin2, hfin3, hfin4⟩ := bsFinish_spec h hc hBI
        hndA2
      have hlen2 : A2.length = ([lhs0] ++ rest).length :=
        hperm.length_eq
      have hfinal : (bsFinish comp A2 (F2 ++ [L2]) D2).2 =
          isortRef comp (lhs0 :: rest) := by
        refine stable_sorted_unique h hfin3 (sortedE_isortRef h _) ?_
        intro v
        rw [hfin4 v, filter_tie_isortRef h v]
        have hsub : ∀ e : Elt V, tieB comp e.2 v = true →
            iseq e.2 v = true := by
          intro e he
          rw [tieB, Bool.and_eq_true] at he
          have h1 : comp e.2 v = false := by
            cases hx : comp e.2 v
            · rfl
            · rw [hx] at he
              simp at he
          have h2 : comp v e.2 = false := by
            cases hx : comp v e.2
            · rfl
            · rw [hx] at he
              simp at he
          exact hc.tie_imp h1 h2
        rw [← filter_of_imp (fun e => tieB comp e.2 v)
          (fun e => iseq e.2 v) hsub A2, hfil v,
          filter_of_imp (fun e => tieB comp e.2 v)
          (fun e => iseq e.2 v) hsub ([lhs0] ++ rest),
          List.singleton_append]
      simp only [bucket_sort_splice_list]
      rw [hres]
      dsimp only
      have hsplitP : bsFinish comp A2 (F2 ++ [L2]) D2 =
          (((bsFinish comp A2 (F2 ++ [L2]) D2).1.1,
            (bsFinish comp A2 (F2 ++ [L2]) D2).1.2),
            (bsFinish comp A2 (F2 ++ [L2]) D2).2) := rfl
      rw [hsplitP, hfin1, hfin2, hfinal, hlen2, List.singleton_append]

/-- The shift-based equivalence intEqv is consistent with the integer
order intComp: it is an equivalence, contains the (trivial) ties, and
compares uniformly across classes. -/
theorem intEqv_consist : Consist intEqv intComp := by
  have hdiv : ∀ a b : Int, Int.ediv a b = a / b := fun a b => rfl
  constructor
  · intro x
    simp [intEqv]
  · intro x y hxy
    simp only [intEqv, decide_eq_true_eq, hdiv] at hxy ⊢
    omega
  · intro x y z h1 h2
    simp only [intEqv, decide_eq_true_eq, hdiv] at h1 h2 ⊢
    omega
  · intro x y h1 h2
    simp only [intComp, decide_eq_false_iff_not] at h1 h2
    simp only [intEqv, decide_eq_true_eq, hdiv]
    omega
  · intro x y a b h1 h2 h3
    simp only [intComp, decide_eq_true_eq] at h1
    simp only [intEqv, decide_eq_true_eq, hdiv] at h2 h3
    simp only [intComp, intEqv, decide_eq_true_eq, hdiv]
    omega

/-- Claim C1: for every interval content (with pairwise distinct node
identities), every strict weak order with a consistent equivalence
relation and every bucket capacity, bucket_sort_splice returns a pair
whose first component is the number of elements of the interval and
whose second component is the iterator to the last element of the
sorted interval; on an empty interval it returns size 0 and the
after(range, left) iterator (the none iterator of the embedding). -/
theorem bucket_sort_splice_returns {V : Type} [Inhabited V]
    {iseq comp : V → V → Bool} (h : SWO comp) (hc : Consist iseq comp)
    (max : Nat) (content : List (Elt V))
    (hnd : ((content.map Prod.fst).Nodup)) :
    (bucket_sort_splice_list iseq comp max content).1.1 =
        content.length ∧
      (bucket_sort_splice_list iseq comp max content).1.2 =
        (bucket_sort_splice_list iseq comp max content).2.getLast? ∧
      (content = [] →
        bucket_sort_splice_list iseq comp max content =
          ((0, none), [])) := by
  rw [bucket_sort_spec h hc max content hnd]
  refine ⟨rfl, rfl, ?_⟩
  intro hce
  subst hce
  rfl

/-- Witness for claim C1: six tagged integers in three classes given by
division by four, sorted with two buckets (forcing the capacity
overflow path). -/
theorem bucket_sort_splice_returns_w :
    (([((0 : Nat), (8 : Int)), (1, 1), (2, 9), (3, 2), (4, 17)].map
        Prod.fst).Nodup) ∧
      ((bucket_sort_splice_list intEqv intComp 2
          [((0 : Nat), (8 : Int)), (1, 1), (2, 9), (3, 2),
            (4, 17)]).1.1 =
        [((0 : Nat), (8 : Int)), (1, 1), (2, 9), (3, 2),
          (4, 17)].length ∧
      (bucket_sort_splice_list intEqv intComp 2
          [((0 : Nat), (8 : Int)), (1, 1), (2, 9), (3, 2),
            (4, 17)]).1.2 =
        (bucket_sort_splice_list intEqv intComp 2
          [((0 : Nat), (8 : Int)), (1, 1), (2, 9), (3, 2),
            (4, 17)]).2.getLast? ∧
      ([((0 : Nat), (8 : Int)), (1, 1), (2, 9), (3, 2), (4, 17)] =
          ([] : List (Elt Int)) →
        bucket_sort_splice_list intEqv intComp 2
          [((0 : Nat), (8 : Int)), (1, 1), (2, 9), (3, 2), (4, 17)] =
          ((0, none), []))) :=
  ⟨by decide,
    bucket_sort_splice_returns intComp_swo intEqv_consist 2
      [((0 : Nat), (8 : Int)), (1, 1), (2, 9), (3, 2), (4, 17)]
      (by decide)⟩

/-- Claim C2: for every interval content with pairwise distinct node
identities, every strict weak order and every equivalence relation
consistent with it, and every bucket capacity (covering the exact,
fewer, all-equivalent, no-equivalent and more-classes-than-capacity
regimes, the last taking the dirty fallback merge pass), the final
interval content of bucket_sort_splice is the stable reference sort of
the original content under the order. -/
theorem bucket_sort_splice_sorts {V : Type} [Inhabited V]
    {iseq comp : V → V → Bool} (h : SWO comp) (hc : Consist iseq comp)
    (max : Nat) (content : List (Elt V))
    (hnd : ((content.map Prod.fst).Nodup)) :
    (bucket_sort_splice_list iseq comp max content).2 =
      isortRef comp content := by
  rw [bucket_sort_spec h hc max content hnd]

/-- Witness for claim C2: the same six tagged integers in three classes
with two buckets, whose final content is the reference stable sort. -/
theorem bucket_sort_splice_sorts_w :
    (([((0 : Nat), (8 : Int)), (1, 1), (2, 9), (3, 2), (4, 17)].map
        Prod.fst).Nodup) ∧
      (bucket_sort_splice_list intEqv intComp 2
          [((0 : Nat), (8 : Int)), (1, 1), (2, 9), (3, 2),
            (4, 17)]).2 =
        isortRef intComp
          [((0 : Nat), (8 : Int)), (1, 1), (2, 9), (3, 2), (4, 17)] :=
  ⟨by decide,
    bucket_sort_splice_sorts intComp_swo intEqv_consist 2
      [((0 : Nat), (8 : Int)), (1, 1), (2, 9), (3, 2), (4, 17)]
      (by decide)⟩

end Enranged
